import Mathlib

/-!
Verification development for the decremental single-source bounded-distance
data structure of this repository.

The C++ sources are shallowly embedded:
* `priority_struct_TAS.cpp` — the `PriorityStructure` segment tree over the
  priority universe, with `initialize`, `size`, `query`, `find`, `nextWith`,
  `nextWithRange` (namespace `PS`);
* `segment_tree_parallel.cpp` — the older insert-based `initialize` with its
  validation (`PS.initPar`, `PS.insert`, `PS.presentPriority`);
* `scan.cpp` / `bfs_tree.cpp` — `bfs_array` (namespace `BFS`);
* `bfs_tree.cpp` — the `DynamicSSSP` class: construction and `batchDelete`
  (namespace `DS`).

Machine integers are embedded as `Nat`/`Int` (the quantities involved are
vertex counts, ranks and distances, all far below any overflow boundary).
C++ functions that can throw are embedded with `Option`/`Except` result
types; functions whose bodies contain no `throw` are embedded as total
functions.  Exceptions carry no distinguished payload (`Option.none` models
any thrown exception).

Loops over `std::set` / `std::unordered_set` are embedded as folds over
canonically ordered lists; for every property proved here the loop bodies
are either order-independent or the order is irrelevant to the statement.
-/

namespace PS

/-- A `Node*` of the C++ segment tree: `nil` is the null pointer, `node`
carries `cnt`, `present`, `value`, `left`, `right` exactly as in
`struct Node` of `priority_struct_TAS.cpp` (values are specialised to
`int`, the only instantiation `PriorityStructure<int>` used in the repo). -/
inductive NTree : Type where
  | nil : NTree
  | node (cnt : Nat) (present : Bool) (value : Int) (l r : NTree) : NTree
deriving DecidableEq, Repr

open NTree

/-- The count stored at a node, `0` for the null pointer: the C++ idiom
`node ? node->cnt : 0`. -/
def cntOf : NTree → Nat
  | nil => 0
  | node cnt _ _ _ _ => cnt

/-- `size()` of the structure: `root ? root->cnt : 0`. -/
def sizePS (t : NTree) : Nat := cntOf t

/-- `queryByRank(node, L, R, k)` — value with the `k`-th largest priority.
`none` embeds the thrown `std::logic_error` ("inconsistent tree"). -/
def queryByRank : NTree → Nat → Nat → Nat → Option Int
  | nil, _, _, _ => none
  | node cnt present value l r, L, R, k =>
    if k < 1 ∨ k > cnt then none
    else if L = R then some value
    else
      let mid := (L + R) / 2
      let rightCount := cntOf r
      if rightCount ≥ k then queryByRank r (mid+1) R k
      else queryByRank l L mid (k - rightCount)

/-- `query(k)` — the public API function including its range check
(`k < 1 || k > n` throws `std::out_of_range`, embedded as `none`). -/
def queryPS (maxP : Nat) (t : NTree) (k : Int) : Option Int :=
  let n : Int := sizePS t
  if k < 1 ∨ k > n then none
  else queryByRank t 1 maxP k.toNat

/-- `findByPriority(node, L, R, p, rank)` — helper of `find`; returns the
`(value, rank)` pair, `none` for the thrown `std::logic_error`. -/
def findByPriority : NTree → Nat → Nat → Nat → Nat → Option (Int × Nat)
  | nil, _, _, _, _ => none
  | node cnt present value l r, L, R, p, rank =>
    if cnt = 0 then none
    else if L = R then
      if present then some (value, rank + 1) else none
    else
      let mid := (L + R) / 2
      if p ≤ mid then findByPriority l L mid p (rank + cntOf r)
      else findByPriority r (mid+1) R p rank

/-- `find(p)` — the public API function with its priority range check. -/
def findPS (maxP : Nat) (t : NTree) (p : Int) : Option (Int × Nat) :=
  if p < 1 ∨ p > (maxP : Int) then none
  else findByPriority t 1 maxP p.toNat 0

/-- `presentPriority(node, L, R, p)` — is an element with priority `p`
stored in the subtree? -/
def presentPriority : NTree → Nat → Nat → Nat → Bool
  | nil, _, _, _ => false
  | node _ present _ l r, L, R, p =>
    if L = R then present
    else
      let mid := (L + R) / 2
      if p ≤ mid then presentPriority l L mid p
      else presentPriority r (mid+1) R p

/-- `insert(node, L, R, p, v)`.  The C++ recursion descends through interval
halves, allocating nodes (`ensureNode`); the embedding recurses on `fuel`,
which callers instantiate above the tree depth (the source recursion always
terminates because the interval halves; `fuel = 0` is unreachable for the
fuel supplied by the wrappers below). -/
def insertF : Nat → NTree → Nat → Nat → Nat → Int → NTree
  | 0, t, _, _, _, _ => t
  | fuel+1, t, L, R, p, v =>
    let cnt := cntOf t
    let t' := match t with
      | nil => node (cnt+1) false 0 nil nil
      | node c pr vl l r => node (c+1) pr vl l r
    match t' with
    | nil => nil
    | node c pr vl l r =>
      if L = R then node c true v l r
      else
        let mid := (L + R) / 2
        if p ≤ mid then node c pr vl (insertF fuel l L mid p v) r
        else node c pr vl l (insertF fuel r (mid+1) R p v)

/-- Wrapper supplying ample fuel for `insert` over the universe `[1, maxP]`
(the recursion depth is at most `maxP`). -/
def insert (maxP : Nat) (t : NTree) (p : Nat) (v : Int) : NTree :=
  insertF (maxP + 1) t 1 maxP p v

/-- `nextWithRange(L, R, f)` — scan of `QUERY(L..R)`, returning the minimum
satisfying rank, `size()+1` when none satisfies.  The `omp parallel for`
reduction over `j` is embedded as a left-to-right fold computing the same
minimum.  `none` embeds an exception propagating out of `query(j)`. -/
def nextWithRange (maxP : Nat) (t : NTree) (L R : Nat) (f : Int → Bool) :
    Option Nat :=
  let n := sizePS t
  if n = 0 then some 1
  else
    (List.range' L (R + 1 - L)).foldl
      (fun best (j : Nat) =>
        match best with
        | none => none
        | some b =>
          match queryPS maxP t (j : Int) with
          | none => none
          | some val => if f val ∧ j < b then some j else some b)
      (some (n + 1))

/-- The `while (p <= n)` loop of `nextWith`, with the doubling window.
`p` strictly increases each iteration, so the fuel supplied by `nextWith`
(`n + 1`) always suffices; the `fuel = 0` branch is unreachable. -/
def nextWithGo (maxP : Nat) (t : NTree) (f : Int → Bool) (n : Nat) :
    Nat → Nat → Nat → Option Nat
  | 0, _, _ => none
  | fuel+1, p, i =>
    if p ≤ n then
      let len := 2 ^ i
      let e := min (p + len - 1) n
      match nextWithRange maxP t p e f with
      | none => none
      | some best =>
        if best ≤ e then some best
        else nextWithGo maxP t f n fuel (p + len) (i + 1)
    else some (n + 1)

/-- `nextWith(k, f)` — smallest `j ≥ k` with `f(QUERY(j))`, else
`size()+1`.  The argument `k` is a C++ `int`, embedded as `Int`; the body
clamps it exactly as the source (`if (p < 1) p = 1; if (p > n) return n+1`). -/
def nextWith (maxP : Nat) (t : NTree) (k : Int) (f : Int → Bool) :
    Option Nat :=
  let n := sizePS t
  if n = 0 then some 1
  else
    let p : Nat := if k < 1 then 1 else k.toNat
    if p > n then some (n + 1)
    else nextWithGo maxP t f n (n + 1) p 0

/-- The split index of `std::lower_bound(items.begin()+start,
items.begin()+end, mid+1, priority <)`: the first index in `[start, stop)`
whose priority is `≥ mid+1`.  On the sorted slices `buildFromSorted` is
called with, this equals `start` plus the number of entries of the slice
with priority `≤ mid`. -/
def lowerBoundIdx (items : List (Int × Nat)) (start stop mid : Nat) : Nat :=
  start + ((items.drop start).take (stop - start)).countP (fun pr => pr.2 ≤ mid)

/-- `buildFromSorted(items, start, end, L, R, ...)`.  The OpenMP task
branches compute the same subtrees as the serial branch, so the embedding
keeps only the recursion.  Recursion is on `fuel` (the interval halves in
the source; wrappers pass fuel above the depth, so `fuel = 0` is
unreachable). -/
def buildFromSortedF :
    Nat → List (Int × Nat) → Nat → Nat → Nat → Nat → NTree
  | 0, _, _, _, _, _ => nil
  | fuel+1, items, start, stop, L, R =>
    if start ≥ stop then nil
    else
      let cnt := stop - start
      if L = R then
        node cnt true (items.getD start (0, 0)).1 nil nil
      else
        let mid := (L + R) / 2
        let m := lowerBoundIdx items start stop mid
        node cnt false 0
          (buildFromSortedF fuel items start m L mid)
          (buildFromSortedF fuel items m stop (mid+1) R)

/-- One insertion step of the priority sort below. -/
def insertByPriority (x : Int × Nat) : List (Int × Nat) → List (Int × Nat)
  | [] => [x]
  | y :: ys => if x.2 ≤ y.2 then x :: y :: ys else y :: insertByPriority x ys

/-- The `std::sort(items, priority <)` call of `initialize`: any comparison
sort by `.second`; embedded as a (stable) insertion sort. -/
def sortByPriority : List (Int × Nat) → List (Int × Nat)
  | [] => []
  | x :: xs => insertByPriority x (sortByPriority xs)

/-- `initialize(elems)` of `priority_struct_TAS.cpp`: reset the root, keep
an empty tree for an empty input, otherwise sort by priority (`.second`)
and build.  The body of the C++ function contains no `throw` (there is no
validation of priorities), so the embedding is a total function. -/
def initTAS (maxP : Nat) (elems : List (Int × Nat)) : NTree :=
  if elems = [] then nil
  else
    let items := sortByPriority elems
    buildFromSortedF (maxP + 1) items 0 items.length 1 maxP

/-- Error taxonomy of `segment_tree_parallel.cpp`'s `initialize`:
`std::out_of_range` for a priority outside `[1, maxP]`, `std::logic_error`
for a duplicate priority. -/
inductive PErr : Type where
  | oorange : PErr
  | dup : PErr
deriving DecidableEq, Repr

/-- `initialize(elems)` of `segment_tree_parallel.cpp`: reset the root and
insert the pairs one by one, throwing on an out-of-range or duplicate
priority.  The `omp parallel for` with its critical section is embedded as
a sequential fold in list order (in the source, which element's exception
surfaces is scheduler-dependent; only whether an error occurs is
specified). -/
def initPar (maxP : Nat) (elems : List (Int × Nat)) : Except PErr NTree :=
  elems.foldl
    (fun acc pr =>
      match acc with
      | .error e => .error e
      | .ok root =>
        if pr.2 < 1 ∨ pr.2 > maxP then .error .oorange
        else if presentPriority root 1 maxP pr.2 then .error .dup
        else .ok (insert maxP root pr.2 pr.1))
    (.ok nil)

/-- Structural well-formedness of a segment tree over the interval
`[L, R]`: leaf nodes sit exactly at singleton intervals with `cnt`
matching `present`, and every internal count is the sum of the children's
counts.  Trees produced by either `initialize` on valid input satisfy it. -/
def wfT : NTree → Nat → Nat → Bool
  | nil, _, _ => true
  | node cnt present _ l r, L, R =>
    if L = R then
      cnt = (if present then 1 else 0) && l = nil && r = nil
    else
      cnt = cntOf l + cntOf r && wfT l L ((L + R) / 2)
        && wfT r ((L + R) / 2 + 1) R

/-- The stored elements in rank order (largest priority first): right
subtree before left subtree, mirroring the rank arithmetic of
`queryByRank`. -/
def elemsOf : NTree → Nat → Nat → List Int
  | nil, _, _ => []
  | node _ present value l r, L, R =>
    if L = R then (if present then [value] else [])
    else elemsOf r ((L + R) / 2 + 1) R ++ elemsOf l L ((L + R) / 2)

end PS

namespace BFS

/-- Insertion into a `std::set<int>`, represented as a strictly sorted
list. -/
def setInsert (x : Nat) : List Nat → List Nat
  | [] => [x]
  | y :: ys =>
    if x < y then x :: y :: ys
    else if x = y then y :: ys
    else y :: setInsert x ys

/-- One level of `bfs_array`: for each `v` of the current frontier, for
each out-neighbour `u`, relax `dist[u]` to `i+1` and collect `u` into the
next frontier.  State is `(dist, next)`. -/
def expand (adj : List (List Nat)) (i : Nat) (curr : List Nat)
    (dist : List Nat) : List Nat × List Nat :=
  curr.foldl
    (fun st v =>
      (adj.getD v []).foldl
        (fun st u =>
          if st.1.getD u 0 > i + 1 then (st.1.set u (i+1), setInsert u st.2)
          else st)
        st)
    (dist, [])

/-- The `for (i = 0; i < L; ++i)` loop of `bfs_array`, with the early
`break` on an empty frontier.  The first argument counts the remaining
iterations (`L - i`). -/
def bfsLoop (adj : List (List Nat)) : Nat → Nat → List Nat → List Nat → List Nat
  | 0, _, dist, _ => dist
  | steps+1, i, dist, curr =>
    if curr = [] then dist
    else
      let st := expand adj i curr dist
      bfsLoop adj steps (i+1) st.1 st.2

/-- `bfs_array(adj, s, L)` of `scan.cpp` / `bfs_tree.cpp`: distances from
`s` up to depth `L`, sentinel `L+1` beyond. -/
def bfs_array (adj : List (List Nat)) (s L : Nat) : List Nat :=
  let n := adj.length
  let dist := (List.replicate n (L+1)).set s 0
  bfsLoop adj L 0 dist [s]

end BFS

namespace DS

/-- `encodeEdge(u, v)`: the C++ packs `u` into the upper and `v` into the
lower 32 bits of a `long long` (`(u << 32) ^ (unsigned)v`); for
`0 ≤ u, v < 2^32` this equals `u * 2^32 + v`. -/
def encodeEdge (u v : Nat) : Nat := u * 4294967296 + v

/-- Insertion into a `std::unordered_set`, represented as a duplicate-free
list in insertion order. -/
def usInsert (x : Nat) (l : List Nat) : List Nat :=
  if x ∈ l then l else l ++ [x]

/-- Insertion into the `unordered_set<int>` `U` of `batchDelete`,
represented canonically as a sorted duplicate-free list (the iteration
order of the C++ set is unspecified; all facts proved below are
independent of it). -/
def uInsert (x : Nat) : List Nat → List Nat
  | [] => [x]
  | y :: ys =>
    if x < y then x :: y :: ys
    else if x = y then y :: ys
    else y :: uInsert x ys

/-- The state of a `DynamicSSSP` object (`bfs_tree.cpp`): sizes, `Dist`,
out-adjacency, the per-vertex `PriorityStructure In(v)` (over the priority
universe `[1, n]`), the `Scan` cursors, the tree `Parent`/`Tv` maps and the
live-edge set. -/
structure St where
  n : Nat
  L : Nat
  s : Nat
  Dist : List Int
  Out : List (List Nat)
  InPS : List PS.NTree
  Scan : List Nat
  Parent : List Int
  Tv : List (List Nat)
  alive : List Nat
deriving DecidableEq, Repr

/-- The in-adjacency lists built in the constructor
(`adjOutInv[v].push_back(u)` for each edge `u → v`). -/
def adjInv (adjOut : List (List Nat)) : List (List Nat) :=
  let n := adjOut.length
  (List.range n).foldl
    (fun acc u =>
      (adjOut.getD u []).foldl
        (fun acc v => acc.set v (acc.getD v [] ++ [u]))
        acc)
    (List.replicate n [])

/-- The initial live-edge set: `encodeEdge(u, v)` for every edge of `Out`. -/
def aliveInit (adjOut : List (List Nat)) : List Nat :=
  let n := adjOut.length
  (List.range n).foldl
    (fun acc u =>
      (adjOut.getD u []).foldl (fun acc v => usInsert (encodeEdge u v) acc) acc)
    []

/-- The parent-search predicate shared by `initScanAndTree` (which also
range-checks `w`), the second pass and the phase loop of `batchDelete`:
`Dist(w) = Dist(v) − 1` and the edge `(w, v)` is alive. -/
def pred0 (dist : List Int) (alive : List Nat) (v : Nat) (w : Int) : Bool :=
  dist.getD w.toNat 0 == dist.getD v 0 - 1
    && alive.contains (encodeEdge w.toNat v)

/-- `initScanAndTree()`: scan each `In(v)` once from rank 1 for a parent at
distance `Dist(v) − 1`; record the rank in `Scan(v)` and the tree edge in
`Parent`/`Tv`.  `none` embeds an exception from `nextWith`/`query` (never
hit on constructed states). -/
def initScanAndTree (n L : Nat) (dist : List Int) (inPS : List PS.NTree)
    (alive : List Nat) : Option (List Nat × List Int × List (List Nat)) :=
  (List.range n).foldlM
    (fun (acc : List Nat × List Int × List (List Nat)) v =>
      let (scan, parent, tv) := acc
      let d := dist.getD v 0
      if d = 0 ∨ d > (L : Int) then some acc
      else
        let t := inPS.getD v PS.NTree.nil
        let f := fun (w : Int) =>
          decide (0 ≤ w) && decide (w < (n : Int)) && pred0 dist alive v w
        match PS.nextWith n t 1 f with
        | none => none
        | some pos =>
          let sz := PS.sizePS t
          if 1 ≤ pos ∧ pos ≤ sz then
            match PS.queryPS n t (pos : Int) with
            | none => none
            | some w =>
              some (scan.set v pos, parent.set v w,
                tv.set w.toNat (tv.getD w.toNat [] ++ [v]))
          else
            some (scan.set v (sz + 1), parent.set v (-1), tv))
    (List.replicate n 0, List.replicate n (-1), List.replicate n [])

/-- The `DynamicSSSP` constructor: initial distances by `bfs_array`, the
per-vertex `In(v)` structures (value `u`, priority `u+1`, universe
`[1, n]`), the live-edge set, and the initial BFS tree. -/
def construct (adjOut : List (List Nat)) (s L : Nat) : Option St :=
  let n := adjOut.length
  let dist : List Int := (BFS.bfs_array adjOut s L).map (fun d => Int.ofNat d)
  let inv := adjInv adjOut
  let inPS := (List.range n).map
    (fun v => PS.initTAS n ((inv.getD v []).map (fun u => (Int.ofNat u, u+1))))
  let alive := aliveInit adjOut
  match initScanAndTree n L dist inPS alive with
  | none => none
  | some (scan, parent, tv) =>
    some { n := n, L := L, s := s, Dist := dist, Out := adjOut,
           InPS := inPS, Scan := scan, Parent := parent, Tv := tv,
           alive := alive }

end DS

namespace DS

/-- One iteration of the first pass of `batchDelete`: skip ids outside
`[0, n)` and dead edges; otherwise remove the edge from the live set and
from `Out[u]`, and when it is the tree edge of `v` record it in
`treeEdges`, flag `v` in `parentDeleted` and detach `v` from the tree.
The accumulator is `(state, parentDeleted, treeEdges)`. -/
def pass1Step (acc : St × List Bool × List (Nat × Nat)) (e : Int × Int) :
    St × List Bool × List (Nat × Nat) :=
  let (st, pd, te) := acc
  let (u, v) := e
  if u < 0 ∨ u ≥ (st.n : Int) ∨ v < 0 ∨ v ≥ (st.n : Int) then acc
  else
    let uN := u.toNat
    let vN := v.toNat
    let key := encodeEdge uN vN
    if st.alive.contains key then
      let st1 := { st with
        alive := st.alive.filter (fun x => x ≠ key),
        Out := st.Out.set uN ((st.Out.getD uN []).filter (fun x => x ≠ vN)) }
      if st1.Parent.getD vN 0 == Int.ofNat uN then
        ({ st1 with
            Tv := st1.Tv.set uN ((st1.Tv.getD uN []).filter (fun x => x ≠ vN)),
            Parent := st1.Parent.set vN (-1) },
         pd.set vN true, te ++ [(uN, vN)])
      else (st1, pd, te)
    else acc

/-- One iteration of the second pass: advance `Scan(v)` by `nextWith` from
its current value, and on success re-parent `v` and clear its
`parentDeleted` flag. -/
def pass2Step (acc : St × List Bool) (e : Nat × Nat) : Option (St × List Bool) :=
  let (st, pd) := acc
  let v := e.2
  let t := st.InPS.getD v PS.NTree.nil
  match PS.nextWith st.n t (st.Scan.getD v 0 : Int) (pred0 st.Dist st.alive v) with
  | none => none
  | some sc =>
    let st1 := { st with Scan := st.Scan.set v sc }
    if sc ≠ PS.sizePS t + 1 then
      match PS.queryPS st1.n t (sc : Int) with
      | none => none
      | some w =>
        some ({ st1 with
                 Parent := st1.Parent.set v w,
                 Tv := st1.Tv.set w.toNat (st1.Tv.getD w.toNat [] ++ [v]) },
              pd.set v false)
    else some (st1, pd)

/-- Lines 6–11 of Algorithm 1, for one vertex `v ∈ U` in phase `i`: rescan
from `Scan(v)`; on exhaustion reset `Scan(v)` to 1, move `v` and all its
current children into `U_new` and clear `Children(v)`; otherwise adopt the
found parent.  The accumulator is `(state, U_new)`. -/
def phaseStep (acc : St × List Nat) (v : Nat) : Option (St × List Nat) :=
  let (st, unew) := acc
  let t := st.InPS.getD v PS.NTree.nil
  match PS.nextWith st.n t (st.Scan.getD v 0 : Int) (pred0 st.Dist st.alive v) with
  | none => none
  | some sc =>
    if sc = PS.sizePS t + 1 then
      let unew1 := (st.Tv.getD v []).foldl (fun acc c => uInsert c acc)
        (uInsert v unew)
      some ({ st with Scan := st.Scan.set v 1, Tv := st.Tv.set v [] }, unew1)
    else
      match PS.queryPS st.n t (sc : Int) with
      | none => none
      | some w =>
        some ({ st with
                 Scan := st.Scan.set v sc,
                 Parent := st.Parent.set v w,
                 Tv := st.Tv.set w.toNat (st.Tv.getD w.toNat [] ++ [v]) },
              unew)

/-- Line 12 of Algorithm 1: seed `U_new` with every vertex whose recorded
distance is `i+1` and whose `parentDeleted` flag is still set. -/
def seed (st : St) (pd : List Bool) (i : Nat) (unew : List Nat) : List Nat :=
  (List.range st.n).foldl
    (fun acc v =>
      if st.Dist.getD v 0 == (i : Int) + 1 ∧ pd.getD v false then uInsert v acc
      else acc)
    unew

/-- One phase `i` of Algorithm 1 (lines 5–15): process `U`, seed `U_new`,
swap, and set `Dist(v) = i+1` for the new `U`. -/
def phase (acc : St × List Bool × List Nat) (i : Nat) :
    Option (St × List Bool × List Nat) :=
  let (st, pd, u) := acc
  match u.foldlM phaseStep (st, []) with
  | none => none
  | some (st1, unew) =>
    let u1 := seed st1 pd i unew
    let st2 := { st1 with
      Dist := u1.foldl (fun d v => d.set v ((i : Int) + 1)) st1.Dist }
    some (st2, pd, u1)

/-- `batchDelete(delEdges)` — Algorithm 1 of the paper as implemented in
`bfs_tree.cpp`: the pruning pass, the cheap re-parent pass, and phases
`i = 0 … L`.  `none` embeds an exception propagating out of a
`PriorityStructure` call (never hit on well-formed states). -/
def batchDelete (st : St) (delEdges : List (Int × Int)) : Option St :=
  let pd0 : List Bool := List.replicate st.n false
  let (st1, pd1, te) := delEdges.foldl pass1Step (st, pd0, [])
  match te.foldlM pass2Step (st1, pd1) with
  | none => none
  | some (st2, pd2) =>
    match (List.range (st2.L + 1)).foldlM phase (st2, pd2, ([] : List Nat)) with
    | none => none
    | some (st3, _, _) => some st3

end DS

namespace PS

/-- The rank-ordered element list of the whole structure (rank 1 first). -/
def elems (maxP : Nat) (t : NTree) : List Int := elemsOf t 1 maxP

theorem getD_append_lt {l1 l2 : List Int} {n : Nat} {d : Int}
    (h : n < l1.length) : (l1 ++ l2).getD n d = l1.getD n d := by
  unfold List.getD
  rw [List.get?_append h]

theorem getD_append_ge {l1 l2 : List Int} {n : Nat} {d : Int}
    (h : l1.length ≤ n) : (l1 ++ l2).getD n d = l2.getD (n - l1.length) d := by
  unfold List.getD
  rw [List.get?_append_right h]

theorem elemsOf_length {t : NTree} :
    ∀ {L R : Nat}, wfT t L R = true → (elemsOf t L R).length = cntOf t := by
  induction t with
  | nil => intro L R _; rfl
  | node cnt present value l r ihl ihr =>
    intro L R h
    simp only [wfT] at h
    by_cases hLR : L = R
    · simp only [if_pos hLR, Bool.and_eq_true, decide_eq_true_eq] at h
      obtain ⟨⟨hc, hl⟩, hr⟩ := h
      subst hl; subst hr
      simp only [elemsOf, if_pos hLR, cntOf, hc]
      by_cases hp : present <;> simp [hp]
    · simp only [if_neg hLR, Bool.and_eq_true, decide_eq_true_eq] at h
      obtain ⟨⟨hc, hl⟩, hr⟩ := h
      simp only [elemsOf, if_neg hLR, List.length_append, cntOf, hc,
        ihl hl, ihr hr]
      omega

theorem queryByRank_eq {t : NTree} :
    ∀ {L R k : Nat}, wfT t L R = true → 1 ≤ k → k ≤ cntOf t →
      queryByRank t L R k = some ((elemsOf t L R).getD (k-1) 0) := by
  induction t with
  | nil => intro L R k _ h1 h2; simp [cntOf] at h2; omega
  | node cnt present value l r ihl ihr =>
    intro L R k h h1 h2
    simp only [cntOf] at h2
    simp only [wfT] at h
    by_cases hLR : L = R
    · simp only [if_pos hLR, Bool.and_eq_true, decide_eq_true_eq] at h
      obtain ⟨⟨hc, hl⟩, hr⟩ := h
      have hp : present = true := by
        rcases present with _ | _
        · simp only [Bool.false_eq_true, if_false] at hc; omega
        · rfl
      subst hp
      simp at hc
      have hk : k = 1 := by omega
      subst hk
      subst hLR
      simp [queryByRank, elemsOf, hc]
    · simp only [if_neg hLR, Bool.and_eq_true, decide_eq_true_eq] at h
      obtain ⟨⟨hc, hl⟩, hr⟩ := h
      have hlen_r : (elemsOf r ((L+R)/2 + 1) R).length = cntOf r :=
        elemsOf_length hr
      have hlen_l : (elemsOf l L ((L+R)/2)).length = cntOf l :=
        elemsOf_length hl
      simp only [queryByRank, elemsOf, if_neg hLR]
      rw [if_neg (by omega)]
      by_cases hcase : cntOf r ≥ k
      · rw [if_pos hcase, ihr hr h1 hcase, getD_append_lt (by omega)]
      · rw [if_neg hcase, ihl hl (by omega) (by omega),
          getD_append_ge (by omega), hlen_r]
        have he : k - 1 - cntOf r = k - cntOf r - 1 := by omega
        rw [he]

theorem queryPS_eq {maxP : Nat} {t : NTree} {k : Int}
    (h : wfT t 1 maxP = true) (h1 : 1 ≤ k) (h2 : k ≤ (sizePS t : Int)) :
    queryPS maxP t k = some ((elems maxP t).getD (k.toNat - 1) 0) := by
  have hk1 : 1 ≤ k.toNat := by omega
  have hk2 : k.toNat ≤ cntOf t := by
    simp only [sizePS] at h2
    omega
  simp only [queryPS, elems]
  rw [if_neg (by push_neg; exact ⟨h1, h2⟩)]
  exact queryByRank_eq h hk1 hk2

end PS

namespace PS

/-- The predicate of a `nextWith` call, read through the rank-ordered
element list: does the element at rank `j` satisfy `f`? -/
def satAt (maxP : Nat) (t : NTree) (f : Int → Bool) (j : Nat) : Bool :=
  f ((elems maxP t).getD (j-1) 0)

/-- The first index in `[A, A+len)` satisfying `g`, with a default. -/
def firstSat (g : Nat → Bool) (A len dflt : Nat) : Nat :=
  match (List.range' A len).find? g with
  | some j => j
  | none => dflt

/-- The value specified for `nextWith` when started at rank `p` on a
structure of size `n`: the first satisfying rank in `[p, n]`, else `n+1`. -/
def nwFrom (n : Nat) (g : Nat → Bool) (p : Nat) : Nat :=
  firstSat g p (n + 1 - p) (n + 1)

theorem find?_range'_some {g : Nat → Bool} :
    ∀ {len A j : Nat}, (List.range' A len).find? g = some j →
      A ≤ j ∧ j < A + len ∧ g j = true ∧ ∀ x, A ≤ x → x < j → g x = false := by
  intro len
  induction len with
  | zero => intro A j h; simp [List.range'_zero] at h
  | succ m ih =>
    intro A j h
    rw [List.range'_succ] at h
    by_cases hg : g A = true
    · rw [List.find?_cons_of_pos _ hg] at h
      obtain rfl : A = j := by simpa using h
      exact ⟨le_refl _, by omega, hg, fun x h1 h2 => absurd h1 (by omega)⟩
    · rw [List.find?_cons_of_neg _ hg] at h
      obtain ⟨h1, h2, h3, h4⟩ := ih h
      refine ⟨by omega, by omega, h3, fun x hx1 hx2 => ?_⟩
      rcases Nat.eq_or_lt_of_le hx1 with rfl | hx
      · simpa using hg
      · exact h4 x hx hx2

theorem find?_range'_none {g : Nat → Bool} {len A : Nat}
    (h : (List.range' A len).find? g = none) :
    ∀ x, A ≤ x → x < A + len → g x = false := by
  intro x h1 h2
  have hx : x ∈ List.range' A len := by
    rw [List.mem_range'_1]
    omega
  have := List.find?_eq_none.mp h x hx
  simpa using this

theorem nwrFold_stuck {maxP : Nat} {t : NTree} {f : Int → Bool} :
    ∀ (js : List Nat) (b : Nat),
      (∀ j ∈ js, (queryPS maxP t (j : Int)).isSome) →
      (∀ j ∈ js, ¬ j < b) →
      js.foldl
        (fun best (j : Nat) =>
          match best with
          | none => none
          | some b =>
            match queryPS maxP t (j : Int) with
            | none => none
            | some val => if f val ∧ j < b then some j else some b)
        (some b) = some b := by
  intro js
  induction js with
  | nil => intro b _ _; rfl
  | cons j rest ih =>
    intro b hq hb
    have h1 := hq j (by simp)
    have h2 := hb j (by simp)
    rcases hval : queryPS maxP t (j : Int) with _ | val
    · rw [hval] at h1; simp at h1
    · simp only [List.foldl_cons, hval]
      rw [if_neg (by tauto)]
      exact ih b (fun x hx => hq x (by simp [hx])) (fun x hx => hb x (by simp [hx]))

theorem nwrFold_main {maxP : Nat} {t : NTree} (h : wfT t 1 maxP = true)
    (f : Int → Bool) :
    ∀ (len A b : Nat), 1 ≤ A → A + len ≤ sizePS t + 1 →
      (∀ j, A ≤ j → j < A + len → j < b) →
      (List.range' A len).foldl
        (fun best (j : Nat) =>
          match best with
          | none => none
          | some b =>
            match queryPS maxP t (j : Int) with
            | none => none
            | some val => if f val ∧ j < b then some j else some b)
        (some b) = some (firstSat (satAt maxP t f) A len b) := by
  intro len
  induction len with
  | zero =>
    intro A b _ _ _
    simp [List.range'_zero, firstSat]
  | succ m ih =>
    intro A b hA hlen hb
    have hAn : (A : Int) ≤ (sizePS t : Int) := by
      have : A ≤ sizePS t := by omega
      exact_mod_cast this
    have hq : queryPS maxP t (A : Int) =
        some ((elems maxP t).getD ((A : Int).toNat - 1) 0) :=
      queryPS_eq h (by exact_mod_cast hA) hAn
    have htn : (A : Int).toNat = A := by omega
    rw [htn] at hq
    rw [List.range'_succ]
    simp only [List.foldl_cons, hq]
    have hAb : A < b := hb A (le_refl _) (by omega)
    by_cases hsat : satAt maxP t f A = true
    · have hsat2 : f ((elems maxP t).getD (A - 1) 0) = true := hsat
      rw [if_pos ⟨hsat2, hAb⟩]
      rw [nwrFold_stuck (List.range' (A+1) m) A ?_ ?_]
      · rw [firstSat, List.range'_succ, List.find?_cons_of_pos _ hsat]
      · intro x hx
        rw [List.mem_range'_1] at hx
        have hx2 : (x : Int) ≤ (sizePS t : Int) := by
          have : x ≤ sizePS t := by omega
          exact_mod_cast this
        rw [queryPS_eq h (by exact_mod_cast (by omega : 1 ≤ x)) hx2]
        rfl
      · intro x hx
        rw [List.mem_range'_1] at hx
        omega
    · have hsat2 : ¬ (f ((elems maxP t).getD (A - 1) 0) = true ∧ A < b) := by
        intro hcon
        exact hsat hcon.1
      rw [if_neg hsat2]
      rw [ih (A+1) b (by omega) (by omega) (fun j h1 h2 => hb j (by omega) (by omega))]
      rw [firstSat, firstSat, List.range'_succ,
        List.find?_cons_of_neg _ (by simpa [satAt] using hsat)]

theorem nextWithRange_eq {maxP : Nat} {t : NTree} (h : wfT t 1 maxP = true)
    (f : Int → Bool) {A B : Nat} (hA : 1 ≤ A) (hA2 : A ≤ sizePS t + 1)
    (hB : B ≤ sizePS t) (hn : 1 ≤ sizePS t) :
    nextWithRange maxP t A B f =
      some (firstSat (satAt maxP t f) A (B + 1 - A) (sizePS t + 1)) := by
  simp only [nextWithRange]
  rw [if_neg (by omega)]
  exact nwrFold_main h f (B + 1 - A) A (sizePS t + 1) hA (by omega)
    (fun j h1 h2 => by omega)

end PS

namespace PS

theorem nwFrom_big {n : Nat} {g : Nat → Bool} {p : Nat} (hp : n < p) :
    nwFrom n g p = n + 1 := by
  have : n + 1 - p = 0 := by omega
  simp [nwFrom, firstSat, this, List.range'_zero]

theorem nextWithGo_eq {maxP : Nat} {t : NTree} (h : wfT t 1 maxP = true)
    (f : Int → Bool) (hn : 1 ≤ sizePS t) :
    ∀ (fuel p i : Nat), 1 ≤ p → sizePS t + 1 - p < fuel →
      nextWithGo maxP t f (sizePS t) fuel p i =
        some (nwFrom (sizePS t) (satAt maxP t f) p) := by
  intro fuel
  induction fuel with
  | zero => intro p i h1 h2; omega
  | succ m ih =>
    intro p i h1 h2
    simp only [nextWithGo]
    by_cases hp : p ≤ sizePS t
    · rw [if_pos hp]
      have hpow : 1 ≤ 2 ^ i := Nat.one_le_two_pow
      have hpe : p ≤ min (p + 2 ^ i - 1) (sizePS t) := by omega
      have hen : min (p + 2 ^ i - 1) (sizePS t) ≤ sizePS t := by omega
      rw [nextWithRange_eq h f h1 (by omega) hen hn]
      set e := min (p + 2 ^ i - 1) (sizePS t) with hedef
      rcases hfind : (List.range' p (e + 1 - p)).find? (satAt maxP t f)
        with _ | j
      · -- nothing in the window: the loop advances
        simp only [firstSat, hfind]
        rw [if_neg (by omega)]
        rw [ih (p + 2 ^ i) (i + 1) (by omega) (by omega)]
        -- the skipped window contains no satisfying rank
        by_cases hcase : p + 2 ^ i - 1 ≤ sizePS t
        · have hee : e = p + 2 ^ i - 1 := by omega
          have hsplit : List.range' p (sizePS t + 1 - p) =
              List.range' p (e + 1 - p) ++
                List.range' (p + (e + 1 - p)) (sizePS t - e) := by
            have h0 := List.range'_append p (e + 1 - p) (sizePS t - e) 1
            rw [one_mul] at h0
            rw [h0]
            congr 1
            omega
          have hpe1 : p + (e + 1 - p) = p + 2 ^ i := by omega
          rw [nwFrom, nwFrom, firstSat, firstSat, hsplit, List.find?_append,
            hfind, hpe1]
          have : sizePS t - e = sizePS t + 1 - (p + 2 ^ i) := by omega
          rw [this]
          rfl
        · have hee : e = sizePS t := by omega
          rw [nwFrom_big (by omega), nwFrom, firstSat]
          have : sizePS t + 1 - p = e + 1 - p := by omega
          rw [this, hfind]
      · -- found the first satisfying rank in the window
        obtain ⟨hj1, hj2, hj3, hj4⟩ := find?_range'_some hfind
        simp only [firstSat, hfind]
        rw [if_pos (by omega)]
        have hsplit : List.range' p (sizePS t + 1 - p) =
            List.range' p (e + 1 - p) ++
              List.range' (p + (e + 1 - p)) (sizePS t - e) := by
          have h0 := List.range'_append p (e + 1 - p) (sizePS t - e) 1
          rw [one_mul] at h0
          rw [h0]
          congr 1
          omega
        rw [nwFrom, firstSat, hsplit, List.find?_append, hfind]
        rfl
    · rw [if_neg hp]
      rw [nwFrom_big (by omega)]

theorem nextWith_eq {maxP : Nat} {t : NTree} (h : wfT t 1 maxP = true)
    (f : Int → Bool) (k : Int) (hn : 1 ≤ sizePS t) :
    nextWith maxP t k f =
      some (nwFrom (sizePS t) (satAt maxP t f)
        (if k < 1 then 1 else k.toNat)) := by
  simp only [nextWith]
  rw [if_neg (by omega)]
  set p : Nat := if k < 1 then 1 else k.toNat with hpdef
  have hp1 : 1 ≤ p := by
    rw [hpdef]
    split <;> omega
  by_cases hp : p > sizePS t
  · rw [if_pos hp, nwFrom_big (by omega)]
  · rw [if_neg hp]
    exact nextWithGo_eq h f hn (sizePS t + 1) p 0 hp1 (by omega)

end PS

namespace PS

theorem queryPS_some_bounds {maxP : Nat} {t : NTree} {x : Int} {val : Int}
    (h : queryPS maxP t x = some val) : 1 ≤ x ∧ x ≤ (sizePS t : Int) := by
  by_contra hcon
  push_neg at hcon
  simp only [queryPS] at h
  rw [if_pos] at h
  · exact Option.noConfusion h
  · by_cases h1 : x < 1
    · exact Or.inl h1
    · exact Or.inr (hcon (by omega))

theorem nextWith_spec {maxP : Nat} {t : NTree} {k : Int} {f : Int → Bool}
    (hwf : wfT t 1 maxP = true) (hk1 : 1 ≤ k)
    (hk2 : k ≤ (sizePS t : Int) + 1) :
    ∃ j : Nat, nextWith maxP t k f = some j ∧
      k ≤ (j : Int) ∧ j ≤ sizePS t + 1 ∧
      (j ≤ sizePS t →
        ∃ val, queryPS maxP t (j : Int) = some val ∧ f val = true) ∧
      (∀ x : Nat, k ≤ (x : Int) → x < j →
        ∀ val, queryPS maxP t (x : Int) = some val → f val = false) := by
  by_cases hn : sizePS t = 0
  · refine ⟨1, ?_, by omega, by omega, by omega, ?_⟩
    · simp [nextWith, hn]
    · intro x hx1 hx2 val hq
      have := queryPS_some_bounds hq
      omega
  · have hn1 : 1 ≤ sizePS t := by omega
    rw [nextWith_eq hwf f k hn1]
    have hpk : (if k < 1 then 1 else k.toNat) = k.toNat := by
      rw [if_neg (by omega)]
    rw [hpk]
    set p := k.toNat with hpdef
    have hp1 : 1 ≤ p := by omega
    have hkp : k = (p : Int) := by omega
    rcases hfind : (List.range' p (sizePS t + 1 - p)).find? (satAt maxP t f)
      with _ | j
    · refine ⟨sizePS t + 1, by rw [nwFrom, firstSat, hfind], by omega,
        by omega, by omega, ?_⟩
      intro x hx1 hx2 val hq
      obtain ⟨hxb1, hxb2⟩ := queryPS_some_bounds hq
      have hxn : x ≤ sizePS t := by exact_mod_cast hxb2
      have hsat := find?_range'_none hfind x (by omega) (by omega)
      have hval : val = (elems maxP t).getD (x - 1) 0 := by
        have := @queryPS_eq maxP t (x : Int) hwf hxb1 hxb2
        rw [hq] at this
        have hxt : ((x : Int)).toNat = x := by omega
        rw [hxt] at this
        exact (Option.some.injEq _ _).mp this
      rw [hval]
      simpa [satAt] using hsat
    · obtain ⟨hj1, hj2, hj3, hj4⟩ := find?_range'_some hfind
      have hjn : j ≤ sizePS t := by omega
      refine ⟨j, by rw [nwFrom, firstSat, hfind], by omega, by omega, ?_, ?_⟩
      · intro _
        have hq := @queryPS_eq maxP t (j : Int) hwf (by omega)
          (by exact_mod_cast hjn)
        have hjt : ((j : Int)).toNat = j := by omega
        rw [hjt] at hq
        exact ⟨_, hq, hj3⟩
      · intro x hx1 hx2 val hq
        obtain ⟨hxb1, hxb2⟩ := queryPS_some_bounds hq
        have hsat := hj4 x (by omega) hx2
        have hval : val = (elems maxP t).getD (x - 1) 0 := by
          have := @queryPS_eq maxP t (x : Int) hwf hxb1 hxb2
          rw [hq] at this
          have hxt : ((x : Int)).toNat = x := by omega
          rw [hxt] at this
          exact (Option.some.injEq _ _).mp this
        rw [hval]
        simpa [satAt] using hsat

end PS

/-- A concrete 8-element `PriorityStructure` (value `i` at priority `i`),
used by witnesses. -/
def psEight : PS.NTree :=
  PS.initTAS 8 [(1,1),(2,2),(3,3),(4,4),(5,5),(6,6),(7,7),(8,8)]

/-- A concrete predicate selecting the values `3` and `6` (ranks 6 and 3
of `psEight`), used by witnesses. -/
def predThreeSix : Int → Bool := fun v => v == 3 || v == 6

/-- C2.  For every well-formed `PriorityStructure` state, every rank `k`
with `1 ≤ k ≤ size+1` and every predicate `pred`, `nextWith(k, pred)`
returns (without an exception) the smallest `j` with `k ≤ j ≤ size` such
that `pred(query(j))` holds, and returns `size+1` when no such `j`
exists. -/
theorem nextWith_finds_smallest_satisfying_rank {maxP : Nat} {t : PS.NTree}
    {k : Int} {f : Int → Bool}
    (hwf : PS.wfT t 1 maxP = true) (hk1 : 1 ≤ k)
    (hk2 : k ≤ (PS.sizePS t : Int) + 1) :
    ∃ j : Nat, PS.nextWith maxP t k f = some j ∧
      k ≤ (j : Int) ∧ j ≤ PS.sizePS t + 1 ∧
      (j ≤ PS.sizePS t →
        ∃ val, PS.queryPS maxP t (j : Int) = some val ∧ f val = true) ∧
      (∀ x : Nat, k ≤ (x : Int) → x < j →
        ∀ val, PS.queryPS maxP t (x : Int) = some val → f val = false) ∧
      ((∀ x : Nat, k ≤ (x : Int) → x ≤ PS.sizePS t →
          ∀ val, PS.queryPS maxP t (x : Int) = some val → f val = false) →
        j = PS.sizePS t + 1) := by
  obtain ⟨j, h1, h2, h3, h4, h5⟩ := @PS.nextWith_spec maxP t k f hwf hk1 hk2
  refine ⟨j, h1, h2, h3, h4, h5, ?_⟩
  intro hnone
  by_contra hne
  have hj : j ≤ PS.sizePS t := by omega
  obtain ⟨val, hq, hval⟩ := h4 hj
  have := hnone j h2 hj val hq
  rw [hval] at this
  exact Bool.noConfusion this

/-- Witness for C2 at a concrete input: the size-8 structure with
predicate selecting ranks 3 and 6, started at rank `k = 4`. -/
theorem nextWith_finds_smallest_satisfying_rank_witness :
    ∃ j : Nat, PS.nextWith 8 psEight 4 predThreeSix = some j ∧
      (4 : Int) ≤ (j : Int) ∧ j ≤ PS.sizePS psEight + 1 ∧
      (j ≤ PS.sizePS psEight →
        ∃ val, PS.queryPS 8 psEight (j : Int) = some val ∧
          predThreeSix val = true) ∧
      (∀ x : Nat, (4 : Int) ≤ (x : Int) → x < j →
        ∀ val, PS.queryPS 8 psEight (x : Int) = some val →
          predThreeSix val = false) ∧
      ((∀ x : Nat, (4 : Int) ≤ (x : Int) → x ≤ PS.sizePS psEight →
          ∀ val, PS.queryPS 8 psEight (x : Int) = some val →
            predThreeSix val = false) →
        j = PS.sizePS psEight + 1) :=
  nextWith_finds_smallest_satisfying_rank (by decide) (by decide) (by decide)

/-- C10.  `nextWith(k, pred)` is total in every integer `k` and raises no
exception on a well-formed structure: for `k < 1` it agrees with
`nextWith(1, pred)`, for `k > size` it returns `size+1`, and on an empty
structure it returns `1 = size+1`. -/
theorem nextWith_total_and_clamped {maxP : Nat} {t : PS.NTree}
    (hwf : PS.wfT t 1 maxP = true) (k : Int) (f : Int → Bool) :
    (PS.nextWith maxP t k f).isSome = true ∧
    (k < 1 → PS.nextWith maxP t k f = PS.nextWith maxP t 1 f) ∧
    ((PS.sizePS t : Int) < k →
      PS.nextWith maxP t k f = some (PS.sizePS t + 1)) ∧
    (PS.sizePS t = 0 → PS.nextWith maxP t k f = some 1) := by
  refine ⟨?_, ?_, ?_, ?_⟩
  · by_cases hn : PS.sizePS t = 0
    · simp [PS.nextWith, hn]
    · rw [PS.nextWith_eq hwf f k (by omega)]
      rfl
  · intro hk
    simp only [PS.nextWith]
    by_cases hn : PS.sizePS t = 0
    · rw [if_pos hn, if_pos hn]
    · rw [if_neg hn, if_neg hn, if_pos hk,
        if_neg (by norm_num : ¬ (1 : Int) < 1)]
      norm_num
  · intro hk
    simp only [PS.nextWith]
    by_cases hn : PS.sizePS t = 0
    · rw [if_pos hn]
      rw [hn]
    · rw [if_neg hn]
      have h1 : ¬ k < 1 := by omega
      rw [if_neg h1]
      rw [if_pos (by omega)]
  · intro hn
    simp [PS.nextWith, hn]

/-- Witness for C10 at a concrete input: the size-8 structure with
`k = -3`. -/
theorem nextWith_total_and_clamped_witness :
    (PS.nextWith 8 psEight (-3) predThreeSix).isSome = true ∧
    ((-3 : Int) < 1 →
      PS.nextWith 8 psEight (-3) predThreeSix =
        PS.nextWith 8 psEight 1 predThreeSix) ∧
    ((PS.sizePS psEight : Int) < -3 →
      PS.nextWith 8 psEight (-3) predThreeSix =
        some (PS.sizePS psEight + 1)) ∧
    (PS.sizePS psEight = 0 →
      PS.nextWith 8 psEight (-3) predThreeSix = some 1) :=
  nextWith_total_and_clamped (by decide) (-3) predThreeSix

/-- The concrete `PriorityStructure` input of scenario 5 of the spec
(maxP = 1000 as in the repository's example driver): pairs
`(value, priority)`. -/
def psExample5 : PS.NTree :=
  PS.initTAS 1000 [(100,10),(200,150),(300,999),(400,500),(500,1)]

/-- C4, counterexample.  On the scenario-5 structure, `find(150)` does not
return the pair `(200, 2)` claimed by the spec: two stored priorities
(999 and 500) are larger than 150, so the element sits at rank 3, and
`findByPriority` returns rank `(number of larger priorities) + 1 = 3`. -/
theorem find150_not_rank_two : PS.findPS 1000 psExample5 150 ≠ some (200, 2) := by
  decide

/-- C4, amended.  On the scenario-5 structure, `query(1) = 300`,
`query(5) = 500`, and `find(150)` returns the element with value 200 at
rank 3. -/
theorem query_find_on_example5 :
    PS.queryPS 1000 psExample5 1 = some 300 ∧
    PS.queryPS 1000 psExample5 5 = some 500 ∧
    PS.findPS 1000 psExample5 150 = some (200, 3) := by
  decide

namespace PS

theorem presentPriority_insertF :
    ∀ (fuel : Nat) (t : NTree) (L R p q : Nat) (v : Int),
      L ≤ p → p ≤ R → L ≤ q → q ≤ R → R - L < fuel →
      presentPriority (insertF fuel t L R p v) L R q =
        (if q = p then true else presentPriority t L R q) := by
  intro fuel
  induction fuel with
  | zero => intro t L R p q v h1 h2 h3 h4 h5; omega
  | succ m ih =>
    intro t L R p q v h1 h2 h3 h4 h5
    by_cases hLR : L = R
    · have hp : p = L := by omega
      have hq : q = L := by omega
      subst hp; subst hq; subst hLR
      cases t with
      | nil => simp [insertF, presentPriority]
      | node c pr vl l r => simp [insertF, presentPriority]
    · have hLR2 : L < R := by omega
      have hmid1 : L ≤ (L + R) / 2 := by omega
      have hmid2 : (L + R) / 2 < R := by omega
      cases t with
      | nil =>
        simp only [insertF, if_neg hLR]
        by_cases hpm : p ≤ (L + R) / 2
        · rw [if_pos hpm]
          simp only [presentPriority, if_neg hLR]
          by_cases hqm : q ≤ (L + R) / 2
          · rw [if_pos hqm,
              ih NTree.nil L ((L+R)/2) p q v h1 hpm h3 hqm (by omega)]
            simp [presentPriority]
          · rw [if_neg hqm]
            have hqp : ¬ q = p := by omega
            simp [presentPriority, hqp]
        · rw [if_neg hpm]
          simp only [presentPriority, if_neg hLR]
          by_cases hqm : q ≤ (L + R) / 2
          · rw [if_pos hqm]
            have hqp : ¬ q = p := by omega
            simp [presentPriority, hqp]
          · rw [if_neg hqm,
              ih NTree.nil ((L+R)/2+1) R p q v (by omega) h2 (by omega) h4 (by omega)]
            simp [presentPriority]
      | node c pr vl l r =>
        simp only [insertF, if_neg hLR]
        by_cases hpm : p ≤ (L + R) / 2
        · rw [if_pos hpm]
          simp only [presentPriority, if_neg hLR]
          by_cases hqm : q ≤ (L + R) / 2
          · rw [if_pos hqm, if_pos hqm,
              ih l L ((L+R)/2) p q v h1 hpm h3 hqm (by omega)]
          · rw [if_neg hqm, if_neg hqm]
            have hqp : ¬ q = p := by omega
            simp [hqp]
        · rw [if_neg hpm]
          simp only [presentPriority, if_neg hLR]
          by_cases hqm : q ≤ (L + R) / 2
          · rw [if_pos hqm, if_pos hqm]
            have hqp : ¬ q = p := by omega
            simp [hqp]
          · rw [if_neg hqm, if_neg hqm,
              ih r ((L+R)/2+1) R p q v (by omega) h2 (by omega) h4 (by omega)]

theorem presentPriority_insert {maxP : Nat} {t : NTree} {p q : Nat} {v : Int}
    (hp1 : 1 ≤ p) (hp2 : p ≤ maxP) (hq1 : 1 ≤ q) (hq2 : q ≤ maxP) :
    presentPriority (insert maxP t p v) 1 maxP q =
      (if q = p then true else presentPriority t 1 maxP q) :=
  presentPriority_insertF (maxP + 1) t 1 maxP p q v hp1 hp2 hq1 hq2 (by omega)

theorem initPar_fold_error {maxP : Nat} (elems : List (Int × Nat)) (e : PErr) :
    elems.foldl
      (fun (acc : Except PErr NTree) pr =>
        match acc with
        | .error e => .error e
        | .ok root =>
          if pr.2 < 1 ∨ pr.2 > maxP then .error .oorange
          else if presentPriority root 1 maxP pr.2 then .error .dup
          else .ok (insert maxP root pr.2 pr.1))
      (Except.error e) = Except.error e := by
  induction elems with
  | nil => rfl
  | cons pr rest ih => simpa using ih

theorem initPar_fold_ok_iff {maxP : Nat} :
    ∀ (elems : List (Int × Nat)) (root : NTree) (S : List Nat),
      (∀ q, 1 ≤ q → q ≤ maxP → (presentPriority root 1 maxP q = true ↔ q ∈ S)) →
      ((∃ t, elems.foldl
          (fun (acc : Except PErr NTree) pr =>
            match acc with
            | .error e => .error e
            | .ok root =>
              if pr.2 < 1 ∨ pr.2 > maxP then .error .oorange
              else if presentPriority root 1 maxP pr.2 then .error .dup
              else .ok (insert maxP root pr.2 pr.1))
          (Except.ok root) = Except.ok t) ↔
        ((∀ pr ∈ elems, 1 ≤ pr.2 ∧ pr.2 ≤ maxP ∧ pr.2 ∉ S) ∧
          (elems.map Prod.snd).Nodup)) := by
  intro elems
  induction elems with
  | nil =>
    intro root S hinv
    simp
  | cons pr rest ih =>
    intro root S hinv
    simp only [List.foldl_cons]
    by_cases hrange : pr.2 < 1 ∨ pr.2 > maxP
    · rw [if_pos hrange]
      rw [initPar_fold_error]
      constructor
      · intro ⟨t, ht⟩; exact Except.noConfusion ht
      · intro ⟨hall, _⟩
        have := hall pr (by simp)
        omega
    · rw [if_neg hrange]
      push_neg at hrange
      by_cases hpres : presentPriority root 1 maxP pr.2 = true
      · rw [if_pos hpres]
        rw [initPar_fold_error]
        constructor
        · intro ⟨t, ht⟩; exact Except.noConfusion ht
        · intro ⟨hall, _⟩
          have hm := (hinv pr.2 (by omega) (by omega)).mp hpres
          have := hall pr (by simp)
          tauto
      · rw [if_neg hpres]
        have hinv2 : ∀ q, 1 ≤ q → q ≤ maxP →
            (presentPriority (insert maxP root pr.2 pr.1) 1 maxP q = true ↔
              q ∈ pr.2 :: S) := by
          intro q hq1 hq2
          rw [presentPriority_insert (by omega) (by omega) hq1 hq2]
          by_cases hqp : q = pr.2
          · simp [hqp]
          · rw [if_neg hqp]
            rw [hinv q hq1 hq2]
            simp [hqp]
        rw [ih (insert maxP root pr.2 pr.1) (pr.2 :: S) hinv2]
        constructor
        · intro ⟨hall, hnd⟩
          refine ⟨?_, ?_⟩
          · intro x hx
            rcases List.mem_cons.mp hx with rfl | hx2
            · refine ⟨by omega, by omega, ?_⟩
              intro hS
              have := (hinv x.2 (by omega) (by omega)).mpr hS
              exact hpres this
            · have := hall x hx2
              have h3 := this.2.2
              rw [List.mem_cons] at h3
              push_neg at h3
              exact ⟨this.1, this.2.1, h3.2⟩
          · simp only [List.map_cons, List.nodup_cons]
            refine ⟨?_, hnd⟩
            intro hmem
            rw [List.mem_map] at hmem
            obtain ⟨x, hx1, hx2⟩ := hmem
            have := (hall x hx1).2.2
            rw [List.mem_cons] at this
            push_neg at this
            exact this.1 hx2
        · intro ⟨hall, hnd⟩
          simp only [List.map_cons, List.nodup_cons] at hnd
          refine ⟨?_, hnd.2⟩
          intro x hx
          have h1 := hall x (by simp [hx])
          refine ⟨h1.1, h1.2.1, ?_⟩
          rw [List.mem_cons]
          push_neg
          refine ⟨?_, h1.2.2⟩
          intro hxp
          apply hnd.1
          rw [List.mem_map]
          exact ⟨x, hx, hxp⟩

theorem initPar_ok_iff (maxP : Nat) (elems : List (Int × Nat)) :
    (∃ t, initPar maxP elems = Except.ok t) ↔
      ((∀ pr ∈ elems, 1 ≤ pr.2 ∧ pr.2 ≤ maxP) ∧
        (elems.map Prod.snd).Nodup) := by
  have h0 : ∀ q, 1 ≤ q → q ≤ maxP →
      (presentPriority NTree.nil 1 maxP q = true ↔ q ∈ ([] : List Nat)) := by
    intro q _ _
    simp [presentPriority]
  rw [initPar, initPar_fold_ok_iff elems NTree.nil [] h0]
  constructor
  · intro ⟨h1, h2⟩
    exact ⟨fun pr hpr => ⟨(h1 pr hpr).1, (h1 pr hpr).2.1⟩, h2⟩
  · intro ⟨h1, h2⟩
    exact ⟨fun pr hpr => ⟨(h1 pr hpr).1, (h1 pr hpr).2, by simp⟩, h2⟩

end PS

/-- C9, counterexample.  The `initialize` of `priority_struct_TAS.cpp`
performs no validation at all: on the duplicate-priority input
`[(7,5), (7,5)]` it raises no error (its body contains no `throw`; the
embedding is a total function) and builds a tree — both pairs land on the
leaf for priority 5, whose count becomes 2. -/
theorem initTAS_accepts_duplicate_priorities :
    PS.initTAS 10 [(7,5),(7,5)] =
      PS.NTree.node 2 false 0
        (PS.NTree.node 2 false 0 PS.NTree.nil
          (PS.NTree.node 2 false 0 PS.NTree.nil
            (PS.NTree.node 2 true 7 PS.NTree.nil PS.NTree.nil)))
        PS.NTree.nil ∧
    PS.sizePS (PS.initTAS 10 [(7,5),(7,5)]) = 2 := by
  decide

/-- C9, amended.  The `initialize` of `segment_tree_parallel.cpp` raises
an error exactly when the input contains a duplicate priority or a
priority outside `[1, maxP]`; otherwise it builds the tree (the embedding
is stateless: the C++ `root = nullptr` reset makes the result replace any
prior state). -/
theorem initPar_error_characterization (maxP : Nat)
    (elems : List (Int × Nat)) :
    ((∃ t, PS.initPar maxP elems = Except.ok t) ↔
      ((∀ pr ∈ elems, 1 ≤ pr.2 ∧ pr.2 ≤ maxP) ∧
        (elems.map Prod.snd).Nodup)) ∧
    ((∃ e, PS.initPar maxP elems = Except.error e) ↔
      ((∃ pr ∈ elems, pr.2 < 1 ∨ maxP < pr.2) ∨
        ¬ (elems.map Prod.snd).Nodup)) := by
  have hok := PS.initPar_ok_iff maxP elems
  constructor
  · exact hok
  · constructor
    · intro ⟨e, he⟩
      by_contra hcon
      push_neg at hcon
      have hvalid : (∀ pr ∈ elems, 1 ≤ pr.2 ∧ pr.2 ≤ maxP) ∧
          (elems.map Prod.snd).Nodup := by
        refine ⟨fun pr hpr => ?_, hcon.2⟩
        have := hcon.1 pr hpr
        omega
      obtain ⟨t, ht⟩ := hok.mpr hvalid
      rw [ht] at he
      exact Except.noConfusion he
    · intro hbad
      rcases hfold : PS.initPar maxP elems with e | t
      · exact ⟨e, rfl⟩
      · exfalso
        have := hok.mp ⟨t, hfold⟩
        rcases hbad with ⟨pr, hpr, hrange⟩ | hnd
        · have := this.1 pr hpr
          omega
        · exact hnd this.2

namespace BFS

/-- Specification side: the set of vertices reachable from `s` by a
directed walk of exactly `d` edges (duplicates removed).  The least `d`
with `v ∈ stepsFrom adj s d` is the shortest-walk length from `s` to `v`,
which coincides with the shortest directed-path length (a shortest walk
never repeats a vertex). -/
def stepsFrom (adj : List (List Nat)) (s : Nat) : Nat → List Nat
  | 0 => [s]
  | d+1 => ((stepsFrom adj s d).flatMap (fun v => adj.getD v [])).dedup

/-- `v` is reachable from `s` by a walk of exactly `d` edges. -/
def reachIn (adj : List (List Nat)) (s d v : Nat) : Prop :=
  v ∈ stepsFrom adj s d

instance (adj : List (List Nat)) (s d v : Nat) :
    Decidable (reachIn adj s d v) := by
  unfold reachIn
  infer_instance

/-- The shortest walk (equivalently path) from `s` to `v` has length
exactly `d`. -/
def minReach (adj : List (List Nat)) (s v d : Nat) : Prop :=
  reachIn adj s d v ∧ ∀ d2, d2 < d → ¬ reachIn adj s d2 v

/-- The capped shortest distance: the least `d ≤ L` with a walk of length
`d` from `s` to `v`, and `L+1` when there is none. -/
def sdL (adj : List (List Nat)) (s L v : Nat) : Nat :=
  match (List.range (L+1)).find? (fun d => decide (reachIn adj s d v)) with
  | some d => d
  | none => L + 1

theorem getD_set_self {l : List Nat} {u x : Nat} (h : u < l.length) :
    (l.set u x).getD u 0 = x := by
  unfold List.getD
  rw [List.get?_set_eq, List.get?_eq_getElem?, List.getElem?_eq_getElem h]
  rfl

theorem getD_set_ne {l : List Nat} {u v x : Nat} (h : v ≠ u) :
    (l.set u x).getD v 0 = l.getD v 0 := by
  unfold List.getD
  rw [List.get?_set_ne _ _ (Ne.symm h)]

theorem setInsert_mem (u : Nat) : ∀ (l : List Nat) (x : Nat),
    x ∈ setInsert u l ↔ x = u ∨ x ∈ l := by
  intro l
  induction l with
  | nil => intro x; simp [setInsert]
  | cons y ys ih =>
    intro x
    simp only [setInsert]
    by_cases h1 : u < y
    · rw [if_pos h1]
      simp [List.mem_cons]
    · rw [if_neg h1]
      by_cases h2 : u = y
      · rw [if_pos h2]
        subst h2
        simp only [List.mem_cons]
        tauto
      · rw [if_neg h2]
        simp only [List.mem_cons, ih x]
        tauto

theorem stepsFrom_lt {adj : List (List Nat)} {s : Nat}
    (hs : s < adj.length)
    (hadj : ∀ l ∈ adj, ∀ u ∈ l, u < adj.length) :
    ∀ (d v : Nat), v ∈ stepsFrom adj s d → v < adj.length := by
  intro d
  induction d with
  | zero =>
    intro v hv
    simp only [stepsFrom, List.mem_singleton] at hv
    omega
  | succ m ih =>
    intro v hv
    simp only [stepsFrom, List.mem_dedup, List.mem_flatMap] at hv
    obtain ⟨w, hw, hv2⟩ := hv
    have hwn : w < adj.length := ih w hw
    have hmem : adj.getD w [] ∈ adj := by
      rw [List.getD_eq_getElem adj [] hwn]
      exact List.getElem_mem hwn
    exact hadj _ hmem v hv2

end BFS

namespace BFS

theorem minReach_unique {adj : List (List Nat)} {s v d1 d2 : Nat}
    (h1 : minReach adj s v d1) (h2 : minReach adj s v d2) : d1 = d2 := by
  by_contra hne
  rcases Nat.lt_or_ge d1 d2 with h | h
  · exact h2.2 d1 h h1.1
  · exact h1.2 d2 (by omega) h2.1

theorem reachIn_least {adj : List (List Nat)} {s : Nat} :
    ∀ {d v : Nat}, reachIn adj s d v → ∃ d2, d2 ≤ d ∧ minReach adj s v d2 := by
  intro d
  induction d using Nat.strong_induction_on with
  | _ d ih =>
    intro v hv
    by_cases hmin : ∀ d2, d2 < d → ¬ reachIn adj s d2 v
    · exact ⟨d, le_refl _, hv, hmin⟩
    · push_neg at hmin
      obtain ⟨d2, hd2, hr⟩ := hmin
      obtain ⟨d3, hd3, hm⟩ := ih d2 hd2 hr
      exact ⟨d3, by omega, hm⟩

theorem minReach_pred {adj : List (List Nat)} {s v d : Nat}
    (h : minReach adj s v (d+1)) :
    ∃ w, minReach adj s w d ∧ v ∈ adj.getD w [] := by
  obtain ⟨hr, hmin⟩ := h
  simp only [reachIn, stepsFrom, List.mem_dedup, List.mem_flatMap] at hr
  obtain ⟨w, hw, hvw⟩ := hr
  obtain ⟨dw, hdw, hmw⟩ := @reachIn_least adj s _ _ hw
  have hstep : reachIn adj s (dw+1) v := by
    simp only [reachIn, stepsFrom, List.mem_dedup, List.mem_flatMap]
    exact ⟨w, hmw.1, hvw⟩
  have hdwd : dw = d := by
    by_contra hne
    have : dw + 1 < d + 1 := by omega
    exact hmin (dw+1) this hstep
  subst hdwd
  exact ⟨w, hmw, hvw⟩

theorem minReach_descend {adj : List (List Nat)} {s : Nat} :
    ∀ {d v : Nat}, minReach adj s v d → ∀ j, j ≤ d →
      ∃ w, minReach adj s w j := by
  intro d
  induction d with
  | zero =>
    intro v h j hj
    have : j = 0 := by omega
    subst this
    exact ⟨v, h⟩
  | succ m ih =>
    intro v h j hj
    rcases Nat.eq_or_lt_of_le hj with rfl | hlt
    · exact ⟨v, h⟩
    · obtain ⟨w, hw, _⟩ := minReach_pred h
      exact ih hw j (by omega)

theorem sdL_of_minReach {adj : List (List Nat)} {s L v d : Nat}
    (h : minReach adj s v d) (hd : d ≤ L) : sdL adj s L v = d := by
  unfold sdL
  rcases hfind : (List.range (L+1)).find? (fun x => decide (reachIn adj s x v))
    with _ | j
  · exfalso
    rw [List.range_eq_range'] at hfind
    have := PS.find?_range'_none hfind d (by omega) (by omega)
    simp only [decide_eq_false_iff_not] at this
    exact this h.1
  · show j = d
    rw [List.range_eq_range'] at hfind
    obtain ⟨h1, h2, h3, h4⟩ := PS.find?_range'_some hfind
    simp only [decide_eq_true_eq] at h3
    by_contra hne
    rcases Nat.lt_or_ge j d with hlt | hge
    · exact h.2 j hlt h3
    · have hjd : d < j := by omega
      have := h4 d (by omega) hjd
      simp only [decide_eq_false_iff_not] at this
      exact this h.1

theorem sdL_of_unreachable {adj : List (List Nat)} {s L v : Nat}
    (h : ∀ d, d ≤ L → ¬ reachIn adj s d v) : sdL adj s L v = L + 1 := by
  unfold sdL
  rcases hfind : (List.range (L+1)).find? (fun x => decide (reachIn adj s x v))
    with _ | j
  · rfl
  · exfalso
    rw [List.range_eq_range'] at hfind
    obtain ⟨h1, h2, h3, _⟩ := PS.find?_range'_some hfind
    simp only [decide_eq_true_eq] at h3
    exact h j (by omega) h3

end BFS

namespace BFS

theorem getD_zero_of_ge {l : List Nat} {v : Nat} (h : l.length ≤ v) :
    l.getD v 0 = 0 :=
  List.getD_eq_default l 0 h

theorem expand_inner {i : Nat} {dist : List Nat} :
    ∀ (us : List Nat) (d0 nx0 : List Nat),
      d0.length = dist.length →
      (∀ v, d0.getD v 0 = if v ∈ nx0 then i+1 else dist.getD v 0) →
      ((us.foldl
          (fun st u =>
            if st.1.getD u 0 > i + 1 then (st.1.set u (i+1), setInsert u st.2)
            else st)
          (d0, nx0)).1.length = dist.length ∧
       (∀ v, (us.foldl
          (fun st u =>
            if st.1.getD u 0 > i + 1 then (st.1.set u (i+1), setInsert u st.2)
            else st)
          (d0, nx0)).1.getD v 0 =
            if v ∈ (us.foldl
              (fun st u =>
                if st.1.getD u 0 > i + 1 then
                  (st.1.set u (i+1), setInsert u st.2)
                else st)
              (d0, nx0)).2 then i+1 else dist.getD v 0) ∧
       (∀ v, v ∈ (us.foldl
          (fun st u =>
            if st.1.getD u 0 > i + 1 then (st.1.set u (i+1), setInsert u st.2)
            else st)
          (d0, nx0)).2 ↔
            v ∈ nx0 ∨ (dist.getD v 0 > i+1 ∧ v ∈ us))) := by
  intro us
  induction us with
  | nil =>
    intro d0 nx0 hlen hd0
    refine ⟨hlen, hd0, ?_⟩
    intro v
    simp
  | cons u rest ih =>
    intro d0 nx0 hlen hd0
    simp only [List.foldl_cons]
    by_cases hg : d0.getD u 0 > i + 1
    · rw [if_pos hg]
      have hu : u ∉ nx0 ∧ dist.getD u 0 > i + 1 := by
        have := hd0 u
        by_cases hin : u ∈ nx0
        · rw [if_pos hin] at this
          omega
        · rw [if_neg hin] at this
          exact ⟨hin, by omega⟩
      have hun : u < dist.length := by
        by_contra hcon
        have := getD_zero_of_ge (l := dist) (v := u) (by omega)
        omega
      have hd0' : ∀ v, (d0.set u (i+1)).getD v 0 =
          if v ∈ setInsert u nx0 then i+1 else dist.getD v 0 := by
        intro v
        by_cases hv : v = u
        · subst hv
          rw [getD_set_self (by omega)]
          rw [if_pos ((setInsert_mem v nx0 v).mpr (Or.inl rfl))]
        · rw [getD_set_ne hv]
          rw [hd0 v]
          by_cases hvn : v ∈ nx0
          · rw [if_pos hvn, if_pos ((setInsert_mem u nx0 v).mpr (Or.inr hvn))]
          · rw [if_neg hvn, if_neg (fun hc =>
              (by rcases (setInsert_mem u nx0 v).mp hc with h | h
                  · exact hv h
                  · exact hvn h))]
      obtain ⟨ih1, ih2, ih3⟩ := ih (d0.set u (i+1)) (setInsert u nx0)
        (by rw [List.length_set]; exact hlen) hd0'
      refine ⟨ih1, ih2, ?_⟩
      intro v
      rw [ih3 v]
      rw [setInsert_mem]
      constructor
      · rintro ((rfl | hv) | ⟨hdv, hrest⟩)
        · exact Or.inr ⟨hu.2, by simp⟩
        · exact Or.inl hv
        · exact Or.inr ⟨hdv, by simp [hrest]⟩
      · rintro (hv | ⟨hdv, hvu⟩)
        · exact Or.inl (Or.inr hv)
        · rcases List.mem_cons.mp hvu with rfl | hr
          · exact Or.inl (Or.inl rfl)
          · exact Or.inr ⟨hdv, hr⟩
    · rw [if_neg hg]
      have hu : u ∈ nx0 ∨ dist.getD u 0 ≤ i + 1 := by
        have := hd0 u
        by_cases hin : u ∈ nx0
        · exact Or.inl hin
        · rw [if_neg hin] at this
          right
          omega
      obtain ⟨ih1, ih2, ih3⟩ := ih d0 nx0 hlen hd0
      refine ⟨ih1, ih2, ?_⟩
      intro v
      rw [ih3 v]
      constructor
      · rintro (hv | ⟨hdv, hrest⟩)
        · exact Or.inl hv
        · exact Or.inr ⟨hdv, by simp [hrest]⟩
      · rintro (hv | ⟨hdv, hvu⟩)
        · exact Or.inl hv
        · rcases List.mem_cons.mp hvu with rfl | hr
          · rcases hu with h | h
            · exact Or.inl h
            · omega
          · exact Or.inr ⟨hdv, hr⟩

end BFS

namespace BFS

theorem expand_outer {adj : List (List Nat)} {i : Nat} {dist : List Nat} :
    ∀ (ws : List Nat) (d0 nx0 : List Nat),
      d0.length = dist.length →
      (∀ v, d0.getD v 0 = if v ∈ nx0 then i+1 else dist.getD v 0) →
      ((ws.foldl
          (fun st v =>
            (adj.getD v []).foldl
              (fun st u =>
                if st.1.getD u 0 > i + 1 then
                  (st.1.set u (i+1), setInsert u st.2)
                else st)
              st)
          (d0, nx0)).1.length = dist.length ∧
       (∀ v, (ws.foldl
          (fun st v =>
            (adj.getD v []).foldl
              (fun st u =>
                if st.1.getD u 0 > i + 1 then
                  (st.1.set u (i+1), setInsert u st.2)
                else st)
              st)
          (d0, nx0)).1.getD v 0 =
            if v ∈ (ws.foldl
              (fun st v =>
                (adj.getD v []).foldl
                  (fun st u =>
                    if st.1.getD u 0 > i + 1 then
                      (st.1.set u (i+1), setInsert u st.2)
                    else st)
                  st)
              (d0, nx0)).2 then i+1 else dist.getD v 0) ∧
       (∀ v, v ∈ (ws.foldl
          (fun st v =>
            (adj.getD v []).foldl
              (fun st u =>
                if st.1.getD u 0 > i + 1 then
                  (st.1.set u (i+1), setInsert u st.2)
                else st)
              st)
          (d0, nx0)).2 ↔
            v ∈ nx0 ∨
              (dist.getD v 0 > i+1 ∧ ∃ w ∈ ws, v ∈ adj.getD w []))) := by
  intro ws
  induction ws with
  | nil =>
    intro d0 nx0 hlen hd0
    refine ⟨hlen, hd0, ?_⟩
    intro v
    simp
  | cons w rest ih =>
    intro d0 nx0 hlen hd0
    simp only [List.foldl_cons]
    obtain ⟨j1, j2, j3⟩ := expand_inner (adj.getD w []) d0 nx0 hlen hd0
    obtain ⟨k1, k2, k3⟩ := ih ((adj.getD w []).foldl
        (fun st u =>
          if st.1.getD u 0 > i + 1 then (st.1.set u (i+1), setInsert u st.2)
          else st)
        (d0, nx0)).1 ((adj.getD w []).foldl
        (fun st u =>
          if st.1.getD u 0 > i + 1 then (st.1.set u (i+1), setInsert u st.2)
          else st)
        (d0, nx0)).2 j1 j2
    refine ⟨k1, k2, ?_⟩
    intro v
    refine Iff.trans (k3 v) ?_
    constructor
    · rintro (hv | ⟨hdv, hw⟩)
      · rcases (j3 v).mp hv with h | ⟨hd2, hm⟩
        · exact Or.inl h
        · exact Or.inr ⟨hd2, w, by simp, hm⟩
      · obtain ⟨w2, hw2, hm2⟩ := hw
        exact Or.inr ⟨hdv, w2, by simp [hw2], hm2⟩
    · rintro (hv | ⟨hdv, w2, hw2, hm2⟩)
      · exact Or.inl ((j3 v).mpr (Or.inl hv))
      · rcases List.mem_cons.mp hw2 with rfl | hr
        · exact Or.inl ((j3 v).mpr (Or.inr ⟨hdv, hm2⟩))
        · exact Or.inr ⟨hdv, w2, hr, hm2⟩

theorem expand_spec {adj : List (List Nat)} {i : Nat} {dist : List Nat}
    (curr : List Nat) :
    (expand adj i curr dist).1.length = dist.length ∧
    (∀ v, (expand adj i curr dist).1.getD v 0 =
      if v ∈ (expand adj i curr dist).2 then i+1 else dist.getD v 0) ∧
    (∀ v, v ∈ (expand adj i curr dist).2 ↔
      dist.getD v 0 > i+1 ∧ ∃ w ∈ curr, v ∈ adj.getD w []) := by
  obtain ⟨h1, h2, h3⟩ := @expand_outer adj i dist
    curr dist [] rfl (by intro v; simp)
  refine ⟨h1, h2, ?_⟩
  intro v
  rw [show (expand adj i curr dist) = curr.foldl
      (fun st v =>
        (adj.getD v []).foldl
          (fun st u =>
            if st.1.getD u 0 > i + 1 then (st.1.set u (i+1), setInsert u st.2)
            else st)
          st)
      (dist, []) from rfl]
  rw [h3 v]
  simp

end BFS

namespace BFS

theorem reachIn_succ {adj : List (List Nat)} {s d v : Nat} :
    reachIn adj s (d+1) v ↔
      ∃ w, reachIn adj s d w ∧ v ∈ adj.getD w [] := by
  simp only [reachIn, stepsFrom, List.mem_dedup, List.mem_flatMap]

theorem bfsLoop_correct {adj : List (List Nat)} {s L : Nat}
    (hs : s < adj.length)
    (hadj : ∀ l ∈ adj, ∀ u ∈ l, u < adj.length) :
    ∀ (steps i : Nat) (dist curr : List Nat),
      steps + i = L →
      dist.length = adj.length →
      (∀ v, v < adj.length → ∀ d, d ≤ i → minReach adj s v d →
        dist.getD v 0 = d) →
      (∀ v, v < adj.length → (∀ d, d ≤ i → ¬ minReach adj s v d) →
        dist.getD v 0 = L + 1) →
      (∀ v, v ∈ curr ↔ minReach adj s v i) →
      ∀ v, v < adj.length →
        (bfsLoop adj steps i dist curr).getD v 0 = sdL adj s L v := by
  intro steps
  induction steps with
  | zero =>
    intro i dist curr hiL hlen ha ha2 hb v hv
    have hiL2 : i = L := by omega
    subst hiL2
    show dist.getD v 0 = sdL adj s i v
    by_cases hex : ∃ d, d ≤ i ∧ minReach adj s v d
    · obtain ⟨d, hd, hm⟩ := hex
      rw [ha v hv d hd hm, sdL_of_minReach hm hd]
    · push_neg at hex
      rw [ha2 v hv (fun d hd hm => hex d hd hm)]
      rw [sdL_of_unreachable]
      intro d hd hr
      obtain ⟨d2, hd2, hm2⟩ := reachIn_least hr
      exact hex d2 (by omega) hm2
  | succ m ih =>
    intro i dist curr hiL hlen ha ha2 hb v hv
    have hiL2 : i < L := by omega
    show (if curr = [] then dist
      else
        bfsLoop adj m (i+1) (expand adj i curr dist).1
          (expand adj i curr dist).2).getD v 0 = sdL adj s L v
    by_cases hcurr : curr = []
    · rw [if_pos hcurr]
      have hgap : ∀ d, i ≤ d → ∀ w, ¬ minReach adj s w d := by
        intro d hd w hm
        obtain ⟨w2, hw2⟩ := minReach_descend hm i hd
        have := (hb w2).mpr hw2
        rw [hcurr] at this
        exact List.not_mem_nil w2 this
      by_cases hex : ∃ d, d ≤ L ∧ minReach adj s v d
      · obtain ⟨d, hd, hm⟩ := hex
        have hdi : d < i := by
          by_contra hcon
          exact hgap d (by omega) v hm
        rw [ha v hv d (by omega) hm, sdL_of_minReach hm hd]
      · push_neg at hex
        rw [ha2 v hv (fun d hd hm => hex d (by omega) hm)]
        rw [sdL_of_unreachable]
        intro d hd hr
        obtain ⟨d2, hd2, hm2⟩ := reachIn_least hr
        exact hex d2 (by omega) hm2
    · rw [if_neg hcurr]
      obtain ⟨e1, e2, e3⟩ := @expand_spec adj i dist curr
      apply ih (i+1) (expand adj i curr dist).1 (expand adj i curr dist).2
        (by omega) (by rw [e1]; exact hlen)
      · -- distances up to i+1 are correct in the expanded array
        intro w hw d hd hm
        rcases Nat.lt_or_ge d (i+1) with hdi | hdi
        · have hold := ha w hw d (by omega) hm
          have hnot : w ∉ (expand adj i curr dist).2 := by
            intro hmem
            have := (e3 w).mp hmem
            omega
          rw [e2 w, if_neg hnot]
          exact hold
        · have hdeq : d = i + 1 := by omega
          subst hdeq
          obtain ⟨w2, hw2, hedge⟩ := minReach_pred hm
          have hdist : dist.getD w 0 = L + 1 := by
            apply ha2 w hw
            intro d2 hd2 hm2
            exact hm.2 d2 (by omega) hm2.1
          have hmem : w ∈ (expand adj i curr dist).2 := by
            rw [e3 w]
            exact ⟨by omega, w2, (hb w2).mpr hw2, hedge⟩
          rw [e2 w, if_pos hmem]
      · -- vertices with no distance at most i+1 keep the sentinel
        intro w hw hnone
        have hnot : w ∉ (expand adj i curr dist).2 := by
          intro hmem
          obtain ⟨hd2, w2, hw2, hedge⟩ := (e3 w).mp hmem
          have hr : reachIn adj s (i+1) w :=
            reachIn_succ.mpr ⟨w2, ((hb w2).mp hw2).1, hedge⟩
          obtain ⟨d3, hd3, hm3⟩ := reachIn_least hr
          exact hnone d3 hd3 hm3
        rw [e2 w, if_neg hnot]
        exact ha2 w hw (fun d hd hm => hnone d (by omega) hm)
      · -- the new frontier is exactly the vertices first reached at i+1
        intro w
        rw [e3 w]
        constructor
        · rintro ⟨hd2, w2, hw2, hedge⟩
          have hwn : w < adj.length := by
            by_contra hcon
            have := getD_zero_of_ge (l := dist) (v := w) (by omega)
            omega
          refine ⟨reachIn_succ.mpr ⟨w2, ((hb w2).mp hw2).1, hedge⟩, ?_⟩
          intro d2 hd2lt hr2
          obtain ⟨d3, hd3, hm3⟩ := reachIn_least hr2
          have := ha w hwn d3 (by omega) hm3
          omega
        · intro hm
          obtain ⟨w2, hw2, hedge⟩ := minReach_pred hm
          have hwn : w < adj.length := hadj _ (by
            have hw2n : w2 < adj.length := stepsFrom_lt hs hadj i w2 hw2.1
            rw [List.getD_eq_getElem adj [] hw2n]
            exact List.getElem_mem hw2n) w hedge
          have hdist : dist.getD w 0 = L + 1 := by
            apply ha2 w hwn
            intro d2 hd2 hm2
            exact hm.2 d2 (by omega) hm2.1
          exact ⟨by omega, w2, (hb w2).mpr hw2, hedge⟩
      · exact hv

end BFS

namespace BFS

theorem bfs_array_eq_sdL {adj : List (List Nat)} {s L : Nat}
    (hs : s < adj.length)
    (hadj : ∀ l ∈ adj, ∀ u ∈ l, u < adj.length) :
    ∀ v, v < adj.length →
      (bfs_array adj s L).getD v 0 = sdL adj s L v := by
  intro v hv
  show (bfsLoop adj L 0 ((List.replicate adj.length (L+1)).set s 0)
    [s]).getD v 0 = sdL adj s L v
  apply bfsLoop_correct hs hadj L 0 _ _ (by omega)
    (by rw [List.length_set, List.length_replicate])
  · intro w hw d hd hm
    have hd0 : d = 0 := by omega
    subst hd0
    have hws : w = s := by
      have := hm.1
      simp only [reachIn, stepsFrom, List.mem_singleton] at this
      exact this
    subst hws
    rw [getD_set_self (by rw [List.length_replicate]; omega)]
  · intro w hw hnone
    have hws : ¬ w = s := by
      intro hws
      subst hws
      apply hnone 0 (le_refl _)
      refine ⟨?_, ?_⟩
      · simp [reachIn, stepsFrom]
      · intro d2 hd2
        omega
    rw [getD_set_ne hws]
    unfold List.getD
    rw [List.get?_eq_getElem?, List.getElem?_replicate, if_pos hw]
    rfl
  · intro w
    simp only [List.mem_singleton]
    constructor
    · intro hws
      subst hws
      refine ⟨by simp [reachIn, stepsFrom], ?_⟩
      intro d2 hd2
      omega
    · intro hm
      have := hm.1
      simp only [reachIn, stepsFrom, List.mem_singleton] at this
      exact this
  · exact hv

end BFS

/-- C3.  `bfs_array(adj, s, L)` computes, for every vertex `v`, the value
`d` exactly when the shortest directed-path length from `s` to `v` is `d`
and `d ≤ L`, and the sentinel `L+1` otherwise.  (`minReach adj s v d`
states that the shortest walk — equivalently the shortest path, since a
shortest walk never repeats a vertex — from `s` to `v` has length exactly
`d`; `reachIn adj s d v` states that some walk of length `d` exists.) -/
theorem bfs_array_computes_bounded_shortest_distances
    (adj : List (List Nat)) (s L : Nat)
    (hs : s < adj.length)
    (hadj : ∀ l ∈ adj, ∀ u ∈ l, u < adj.length) :
    ∀ v, v < adj.length → ∀ d : Nat,
      ((BFS.bfs_array adj s L).getD v 0 = d ↔
        ((d ≤ L ∧ BFS.minReach adj s v d) ∨
          (d = L + 1 ∧ ∀ d2, d2 ≤ L → ¬ BFS.reachIn adj s d2 v))) := by
  intro v hv d
  rw [BFS.bfs_array_eq_sdL hs hadj v hv]
  constructor
  · intro heq
    by_cases hex : ∃ d2, d2 ≤ L ∧ BFS.minReach adj s v d2
    · obtain ⟨d2, hd2, hm2⟩ := hex
      have := BFS.sdL_of_minReach hm2 hd2
      left
      refine ⟨by omega, ?_⟩
      have hdd : d = d2 := by omega
      subst hdd
      exact hm2
    · push_neg at hex
      have hun : ∀ d2, d2 ≤ L → ¬ BFS.reachIn adj s d2 v := by
        intro d2 hd2 hr
        obtain ⟨d3, hd3, hm3⟩ := BFS.reachIn_least hr
        exact hex d3 (by omega) hm3
      have := BFS.sdL_of_unreachable hun
      right
      exact ⟨by omega, hun⟩
  · rintro (⟨hd, hm⟩ | ⟨hd, hun⟩)
    · exact BFS.sdL_of_minReach hm hd
    · rw [BFS.sdL_of_unreachable hun, hd]

/-- Witness for C3 at a concrete input: the 6-vertex DAG of the
repository's example driver, `s = 0`, `L = 3`, checked at `v = 5`,
`d = 3`. -/
theorem bfs_array_computes_bounded_shortest_distances_witness :
    (BFS.bfs_array [[1,2],[3],[3,4],[5],[],[]] 0 3).getD 5 0 = 3 ↔
      ((3 ≤ 3 ∧ BFS.minReach [[1,2],[3],[3,4],[5],[],[]] 0 5 3) ∨
        (3 = 3 + 1 ∧
          ∀ d2, d2 ≤ 3 → ¬ BFS.reachIn [[1,2],[3],[3,4],[5],[],[]] 0 d2 5)) :=
  bfs_array_computes_bounded_shortest_distances [[1,2],[3],[3,4],[5],[],[]]
    0 3 (by decide) (by decide) 5 (by decide) 3

/-- The 5-vertex directed cycle graph of spec scenario 3 (and of the
second example in `main()` of `bfs_tree.cpp`): edges (0,1),(1,0),(0,4),
(4,0),(1,2),(2,1),(2,3),(3,2),(3,4),(4,3). -/
def cycleAdj : List (List Nat) := [[1,4],[0,2],[1,3],[2,4],[0,3]]

/-- A default (empty) `DynamicSSSP` state, used only to extract the value
from `Option` results of concrete runs. -/
def emptySt : DS.St :=
  { n := 0, L := 0, s := 0, Dist := [], Out := [], InPS := [], Scan := [],
    Parent := [], Tv := [], alive := [] }

/-- C5, counterexample.  On the cycle graph with `s = 0`, `L = 3` and
initial distances `[0,1,2,2,1]`, the call `batchDelete({(0,1),(1,0)})`
does not produce the distance array `[0,2,1,2,1]` claimed by the spec
(the spec's expected value is not even the shortest-path profile of the
remaining graph, which has no edge into 2 other than from 1 and 3). -/
theorem batchDelete_cycle_not_spec_array :
    (DS.construct cycleAdj 0 3).map DS.St.Dist = some [0,1,2,2,1] ∧
    ((DS.construct cycleAdj 0 3).bind
      (fun st => DS.batchDelete st [(0,1),(1,0)])).map DS.St.Dist ≠
        some [0,2,1,2,1] := by
  decide

/-- C5, amended.  On the cycle graph the call `batchDelete({(0,1),(1,0)})`
produces the distance array `[0,4,3,2,1]` — the shortest-path profile of
the remaining graph capped at `⊤ = L+1 = 4`; in particular
`Dist(1) = 4 = ⊤` (vertex 1 is reachable only through 0→4→3→2→1, length
4 > L). -/
theorem batchDelete_cycle_result :
    (DS.construct cycleAdj 0 3).map DS.St.Dist = some [0,1,2,2,1] ∧
    ((DS.construct cycleAdj 0 3).bind
      (fun st => DS.batchDelete st [(0,1),(1,0)])).map DS.St.Dist =
        some [0,4,3,2,1] := by
  decide

namespace DS

theorem pass1Step_n (acc : St × List Bool × List (Nat × Nat)) (e : Int × Int) :
    (pass1Step acc e).1.n = acc.1.n := by
  obtain ⟨st, pd, te⟩ := acc
  obtain ⟨u, v⟩ := e
  simp only [pass1Step]
  split
  · rfl
  · split
    · split
      · rfl
      · rfl
    · rfl

theorem pass1Step_invalid {acc : St × List Bool × List (Nat × Nat)}
    {e : Int × Int}
    (h : e.1 < 0 ∨ e.1 ≥ (acc.1.n : Int) ∨ e.2 < 0 ∨ e.2 ≥ (acc.1.n : Int)) :
    pass1Step acc e = acc := by
  obtain ⟨st, pd, te⟩ := acc
  obtain ⟨u, v⟩ := e
  simp only [pass1Step]
  rw [if_pos h]

theorem pass1_skip_invalid :
    ∀ (D : List (Int × Int)) (acc : St × List Bool × List (Nat × Nat))
      (n0 : Nat), acc.1.n = n0 →
      D.foldl pass1Step acc =
        (D.filter (fun e =>
          decide (0 ≤ e.1) && decide (e.1 < (n0 : Int)) &&
          decide (0 ≤ e.2) && decide (e.2 < (n0 : Int)))).foldl pass1Step acc := by
  intro D
  induction D with
  | nil => intro acc n0 _; rfl
  | cons e D ih =>
    intro acc n0 hn
    by_cases hv : 0 ≤ e.1 ∧ e.1 < (n0 : Int) ∧ 0 ≤ e.2 ∧ e.2 < (n0 : Int)
    · rw [List.filter_cons_of_pos (by
        simp only [Bool.and_eq_true, decide_eq_true_eq]
        tauto)]
      simp only [List.foldl_cons]
      exact ih (pass1Step acc e) n0 (by rw [pass1Step_n, hn])
    · rw [List.filter_cons_of_neg (by
        simp only [Bool.and_eq_true, decide_eq_true_eq]
        tauto)]
      simp only [List.foldl_cons]
      rw [pass1Step_invalid (by rw [hn]; omega)]
      exact ih acc n0 hn

end DS

/-- C8, amended.  `batchDelete` silently skips every pair with a vertex id
outside `[0, n)` (the `continue` in the first pass); the call raises no
error for such pairs, and the resulting state is exactly the state
produced by the batch with those pairs removed. -/
theorem batchDelete_skips_out_of_range_pairs (st : DS.St)
    (D : List (Int × Int)) :
    DS.batchDelete st D =
      DS.batchDelete st (D.filter (fun e =>
        decide (0 ≤ e.1) && decide (e.1 < (st.n : Int)) &&
        decide (0 ≤ e.2) && decide (e.2 < (st.n : Int)))) := by
  simp only [DS.batchDelete]
  rw [DS.pass1_skip_invalid D (st, List.replicate st.n false, []) st.n rfl]

/-- C8, counterexample.  A `batchDelete` whose batch contains the
out-of-range pair `(5, 0)` (n = 5) neither surfaces an error (the call
returns a state, not an exception) nor leaves the structure in its
pre-call state: the valid pairs of the batch are processed normally and
the distance array changes. -/
theorem batchDelete_out_of_range_no_error_not_unchanged :
    ((DS.construct cycleAdj 0 3).bind
      (fun st => DS.batchDelete st [(5,0),(0,1),(1,0)])).map DS.St.Dist =
        some [0,4,3,2,1] ∧
    (DS.construct cycleAdj 0 3).map DS.St.Dist = some [0,1,2,2,1] ∧
    ([0,4,3,2,1] : List Int) ≠ [0,1,2,2,1] := by
  decide

namespace DS

theorem pass1Step_alive_sub {acc : St × List Bool × List (Nat × Nat)}
    {e : Int × Int} {k : Nat} (h : k ∈ (pass1Step acc e).1.alive) :
    k ∈ acc.1.alive := by
  obtain ⟨st, pd, te⟩ := acc
  obtain ⟨u, v⟩ := e
  simp only [pass1Step] at h
  split at h
  · exact h
  · split at h
    · split at h
      · exact (List.mem_filter.mp h).1
      · exact (List.mem_filter.mp h).1
    · exact h

theorem pass1_fold_n :
    ∀ (D : List (Int × Int)) (acc : St × List Bool × List (Nat × Nat)),
      (D.foldl pass1Step acc).1.n = acc.1.n := by
  intro D
  induction D with
  | nil => intro acc; rfl
  | cons e D ih =>
    intro acc
    simp only [List.foldl_cons]
    rw [ih (pass1Step acc e), pass1Step_n]

theorem pass1_fold_alive_sub :
    ∀ (D : List (Int × Int)) (acc : St × List Bool × List (Nat × Nat))
      (k : Nat), k ∈ (D.foldl pass1Step acc).1.alive → k ∈ acc.1.alive := by
  intro D
  induction D with
  | nil => intro acc k h; exact h
  | cons e D ih =>
    intro acc k h
    simp only [List.foldl_cons] at h
    exact pass1Step_alive_sub (ih (pass1Step acc e) k h)

theorem pass1_fold_removes :
    ∀ (D : List (Int × Int)) (acc : St × List Bool × List (Nat × Nat)),
      ∀ e ∈ D, 0 ≤ e.1 → e.1 < (acc.1.n : Int) → 0 ≤ e.2 →
        e.2 < (acc.1.n : Int) →
        encodeEdge e.1.toNat e.2.toNat ∉ (D.foldl pass1Step acc).1.alive := by
  intro D
  induction D with
  | nil => intro acc e he; exact absurd he (List.not_mem_nil e)
  | cons e0 D ih =>
    intro acc e he h1 h2 h3 h4
    simp only [List.foldl_cons]
    rcases List.mem_cons.mp he with rfl | hmem
    · -- the step for `e` itself kills its key; later steps only shrink
      intro hin
      have hstep : encodeEdge e.1.toNat e.2.toNat ∉ (pass1Step acc e).1.alive := by
        obtain ⟨st, pd, te⟩ := acc
        obtain ⟨u, v⟩ := e
        simp only at h1 h2 h3 h4
        simp only [pass1Step]
        rw [if_neg (by push_neg; exact ⟨h1, h2, h3, h4⟩)]
        by_cases hc : st.alive.contains (encodeEdge u.toNat v.toNat) = true
        · rw [if_pos hc]
          split
          · intro hmem2
            have := (List.mem_filter.mp hmem2).2
            simp at this
          · intro hmem2
            have := (List.mem_filter.mp hmem2).2
            simp at this
        · rw [if_neg hc]
          intro hmem2
          exact hc (List.elem_iff.mpr hmem2)
      exact hstep (pass1_fold_alive_sub D (pass1Step acc e) _ hin)
    · exact ih (pass1Step acc e0) e hmem h1
        (by rw [pass1Step_n]; exact h2) h3 (by rw [pass1Step_n]; exact h4)

theorem pass2Step_pres {acc acc' : St × List Bool} {e : Nat × Nat}
    (h : pass2Step acc e = some acc') :
    acc'.1.alive = acc.1.alive ∧ acc'.1.n = acc.1.n ∧
    acc'.1.L = acc.1.L ∧ acc'.1.InPS = acc.1.InPS ∧
    acc'.1.Dist = acc.1.Dist := by
  obtain ⟨st, pd⟩ := acc
  simp only [pass2Step] at h
  split at h
  · exact Option.noConfusion h
  · split at h
    · split at h
      · exact Option.noConfusion h
      · obtain rfl := (Option.some.injEq _ _).mp h
        exact ⟨rfl, rfl, rfl, rfl, rfl⟩
    · obtain rfl := (Option.some.injEq _ _).mp h
      exact ⟨rfl, rfl, rfl, rfl, rfl⟩

theorem pass2_fold_pres :
    ∀ (te : List (Nat × Nat)) (acc acc' : St × List Bool),
      te.foldlM pass2Step acc = some acc' →
      acc'.1.alive = acc.1.alive ∧ acc'.1.n = acc.1.n ∧
      acc'.1.L = acc.1.L ∧ acc'.1.InPS = acc.1.InPS ∧
      acc'.1.Dist = acc.1.Dist := by
  intro te
  induction te with
  | nil =>
    intro acc acc' h
    obtain rfl := (Option.some.injEq _ _).mp h
    exact ⟨rfl, rfl, rfl, rfl, rfl⟩
  | cons e te ih =>
    intro acc acc' h
    rw [List.foldlM_cons] at h
    rcases hstep : pass2Step acc e with _ | acc1
    · rw [hstep] at h
      exact Option.noConfusion h
    · rw [hstep] at h
      simp only [Option.bind_eq_bind, Option.some_bind] at h
      obtain ⟨p1, p2, p3, p4, p5⟩ := pass2Step_pres hstep
      obtain ⟨q1, q2, q3, q4, q5⟩ := ih acc1 acc' h
      exact ⟨q1.trans p1, q2.trans p2, q3.trans p3, q4.trans p4, q5.trans p5⟩

theorem phaseStep_pres {acc acc' : St × List Nat} {v : Nat}
    (h : phaseStep acc v = some acc') :
    acc'.1.alive = acc.1.alive ∧ acc'.1.n = acc.1.n ∧
    acc'.1.L = acc.1.L ∧ acc'.1.InPS = acc.1.InPS ∧
    acc'.1.Dist = acc.1.Dist := by
  obtain ⟨st, unew⟩ := acc
  simp only [phaseStep] at h
  split at h
  · exact Option.noConfusion h
  · split at h
    · obtain rfl := (Option.some.injEq _ _).mp h
      exact ⟨rfl, rfl, rfl, rfl, rfl⟩
    · split at h
      · exact Option.noConfusion h
      · obtain rfl := (Option.some.injEq _ _).mp h
        exact ⟨rfl, rfl, rfl, rfl, rfl⟩

theorem phaseStep_fold_pres :
    ∀ (u : List Nat) (acc acc' : St × List Nat),
      u.foldlM phaseStep acc = some acc' →
      acc'.1.alive = acc.1.alive ∧ acc'.1.n = acc.1.n ∧
      acc'.1.L = acc.1.L ∧ acc'.1.InPS = acc.1.InPS ∧
      acc'.1.Dist = acc.1.Dist := by
  intro u
  induction u with
  | nil =>
    intro acc acc' h
    obtain rfl := (Option.some.injEq _ _).mp h
    exact ⟨rfl, rfl, rfl, rfl, rfl⟩
  | cons v u ih =>
    intro acc acc' h
    rw [List.foldlM_cons] at h
    rcases hstep : phaseStep acc v with _ | acc1
    · rw [hstep] at h
      exact Option.noConfusion h
    · rw [hstep] at h
      simp only [Option.bind_eq_bind, Option.some_bind] at h
      obtain ⟨p1, p2, p3, p4, p5⟩ := phaseStep_pres hstep
      obtain ⟨q1, q2, q3, q4, q5⟩ := ih acc1 acc' h
      exact ⟨q1.trans p1, q2.trans p2, q3.trans p3, q4.trans p4, q5.trans p5⟩

theorem phase_pres {acc acc' : St × List Bool × List Nat} {i : Nat}
    (h : phase acc i = some acc') :
    acc'.1.alive = acc.1.alive ∧ acc'.1.n = acc.1.n ∧
    acc'.1.L = acc.1.L ∧ acc'.1.InPS = acc.1.InPS ∧
    acc'.2.1 = acc.2.1 := by
  obtain ⟨st, pd, u⟩ := acc
  simp only [phase] at h
  rcases hfold : u.foldlM phaseStep (st, []) with _ | acc1
  · rw [hfold] at h
    exact Option.noConfusion h
  · rw [hfold] at h
    obtain ⟨p1, p2, p3, p4, p5⟩ := phaseStep_fold_pres u (st, []) acc1 hfold
    obtain ⟨st1, unew⟩ := acc1
    simp only at h
    obtain rfl := (Option.some.injEq _ _).mp h
    exact ⟨p1, p2, p3, p4, rfl⟩

theorem phase_fold_pres :
    ∀ (l : List Nat) (acc acc' : St × List Bool × List Nat),
      l.foldlM phase acc = some acc' →
      acc'.1.alive = acc.1.alive ∧ acc'.1.n = acc.1.n ∧
      acc'.1.L = acc.1.L ∧ acc'.1.InPS = acc.1.InPS ∧
      acc'.2.1 = acc.2.1 := by
  intro l
  induction l with
  | nil =>
    intro acc acc' h
    obtain rfl := (Option.some.injEq _ _).mp h
    exact ⟨rfl, rfl, rfl, rfl, rfl⟩
  | cons i l ih =>
    intro acc acc' h
    rw [List.foldlM_cons] at h
    rcases hstep : phase acc i with _ | acc1
    · rw [hstep] at h
      exact Option.noConfusion h
    · rw [hstep] at h
      simp only [Option.bind_eq_bind, Option.some_bind] at h
      obtain ⟨p1, p2, p3, p4, p5⟩ := phase_pres hstep
      obtain ⟨q1, q2, q3, q4, q5⟩ := ih acc1 acc' h
      exact ⟨q1.trans p1, q2.trans p2, q3.trans p3, q4.trans p4, q5.trans p5⟩

end DS

namespace DS

theorem getD_replicate_false {n v : Nat} :
    (List.replicate n false).getD v false = false := by
  unfold List.getD
  rw [List.get?_eq_getElem?, List.getElem?_replicate]
  split
  · rfl
  · rfl

theorem pass1Step_dead {acc : St × List Bool × List (Nat × Nat)}
    {e : Int × Int}
    (h : e.1 < 0 ∨ e.1 ≥ (acc.1.n : Int) ∨ e.2 < 0 ∨ e.2 ≥ (acc.1.n : Int) ∨
      encodeEdge e.1.toNat e.2.toNat ∉ acc.1.alive) :
    pass1Step acc e = acc := by
  by_cases hv : e.1 < 0 ∨ e.1 ≥ (acc.1.n : Int) ∨ e.2 < 0 ∨ e.2 ≥ (acc.1.n : Int)
  · exact pass1Step_invalid hv
  · have hdead : encodeEdge e.1.toNat e.2.toNat ∉ acc.1.alive := by tauto
    obtain ⟨st, pd, te⟩ := acc
    obtain ⟨u, v⟩ := e
    simp only [pass1Step]
    rw [if_neg hv]
    rw [if_neg (fun hc => hdead (List.elem_iff.mp hc))]

theorem pass1_fold_dead :
    ∀ (D : List (Int × Int)) (acc : St × List Bool × List (Nat × Nat)),
      (∀ e ∈ D, e.1 < 0 ∨ e.1 ≥ (acc.1.n : Int) ∨ e.2 < 0 ∨
        e.2 ≥ (acc.1.n : Int) ∨ encodeEdge e.1.toNat e.2.toNat ∉ acc.1.alive) →
      D.foldl pass1Step acc = acc := by
  intro D
  induction D with
  | nil => intro acc _; rfl
  | cons e D ih =>
    intro acc h
    simp only [List.foldl_cons]
    rw [pass1Step_dead (h e (by simp))]
    exact ih acc (fun x hx => h x (by simp [hx]))

theorem seed_noop {st : St} {pd : List Bool} {i : Nat} {unew : List Nat}
    (hpd : ∀ v, pd.getD v false = false) :
    seed st pd i unew = unew := by
  unfold seed
  generalize List.range st.n = l
  have hgen : ∀ (l2 : List Nat) (acc : List Nat),
      l2.foldl
        (fun acc v =>
          if st.Dist.getD v 0 == (i : Int) + 1 ∧ pd.getD v false then
            uInsert v acc
          else acc)
        acc = acc := by
    intro l2
    induction l2 with
    | nil => intro acc; rfl
    | cons v l2 ih =>
      intro acc
      simp only [List.foldl_cons]
      rw [if_neg (by rw [hpd v]; simp)]
      exact ih acc
  exact hgen l unew

theorem phase_noop {st : St} {pd : List Bool} {i : Nat}
    (hpd : ∀ v, pd.getD v false = false) :
    phase (st, pd, []) i = some (st, pd, []) := by
  simp only [phase, List.foldlM_nil]
  rw [seed_noop hpd]
  rfl

theorem phase_fold_noop :
    ∀ (l : List Nat) (st : St) (pd : List Bool),
      (∀ v, pd.getD v false = false) →
      l.foldlM phase (st, pd, ([] : List Nat)) = some (st, pd, []) := by
  intro l
  induction l with
  | nil => intro st pd _; rfl
  | cons i l ih =>
    intro st pd hpd
    rw [List.foldlM_cons, phase_noop hpd]
    simp only [Option.bind_eq_bind, Option.some_bind]
    exact ih st pd hpd

theorem batchDelete_dead_batch {st : St} {D : List (Int × Int)}
    (h : ∀ e ∈ D, e.1 < 0 ∨ e.1 ≥ (st.n : Int) ∨ e.2 < 0 ∨
      e.2 ≥ (st.n : Int) ∨ encodeEdge e.1.toNat e.2.toNat ∉ st.alive) :
    batchDelete st D = some st := by
  simp only [batchDelete]
  rw [pass1_fold_dead D (st, List.replicate st.n false, []) h]
  simp only [List.foldlM_nil]
  rw [phase_fold_noop (List.range (st.L + 1)) st
    (List.replicate st.n false) (fun v => getD_replicate_false)]

end DS

/-- C7.  `batch_delete(D); batch_delete(D)` has the same final state as
`batch_delete(D)`: after a successful `batchDelete(D)`, running the same
batch again is the identity — every in-range pair of `D` is already dead
(removed from the live set by the first call, which never re-inserts), so
the first pass does nothing, no vertex is flagged, and every phase runs
with an empty `U`. -/
theorem batchDelete_idempotent (st st1 : DS.St) (D : List (Int × Int))
    (h : DS.batchDelete st D = some st1) :
    DS.batchDelete st1 D = some st1 := by
  simp only [DS.batchDelete] at h
  rcases hP : D.foldl DS.pass1Step (st, List.replicate st.n false, [])
    with ⟨stp, pdp, tep⟩
  rw [hP] at h
  rcases hp2 : tep.foldlM DS.pass2Step (stp, pdp) with _ | acc2
  · rw [hp2] at h
    simp at h
  · rw [hp2] at h
    obtain ⟨st2, pd2⟩ := acc2
    simp only at h
    rcases hp3 : (List.range (st2.L + 1)).foldlM DS.phase (st2, pd2, ([] : List Nat))
      with _ | acc3
    · rw [hp3] at h
      simp at h
    · rw [hp3] at h
      obtain ⟨st3, pd3, u3⟩ := acc3
      simp only [Option.some.injEq] at h
      subst h
      obtain ⟨a1, a2, _, _, _⟩ := DS.pass2_fold_pres tep (stp, pdp) (st2, pd2) hp2
      obtain ⟨b1, b2, _, _, _⟩ := DS.phase_fold_pres (List.range (st2.L + 1))
        (st2, pd2, []) (st3, pd3, u3) hp3
      have hn : st3.n = st.n := by
        rw [b2, a2]
        have := DS.pass1_fold_n D (st, List.replicate st.n false, [])
        rw [hP] at this
        exact this
      have halive : st3.alive = stp.alive := by rw [b1, a1]
      apply DS.batchDelete_dead_batch
      intro e he
      by_cases hv : 0 ≤ e.1 ∧ e.1 < (st.n : Int) ∧ 0 ≤ e.2 ∧ e.2 < (st.n : Int)
      · right; right; right; right
        rw [halive]
        have := DS.pass1_fold_removes D (st, List.replicate st.n false, [])
          e he hv.1 hv.2.1 hv.2.2.1 hv.2.2.2
        rw [hP] at this
        exact this
      · rw [hn]
        omega

/-- The constructed state for the cycle graph, used by witnesses. -/
def cycleSt : DS.St := (DS.construct cycleAdj 0 3).getD emptySt

/-- The state after one `batchDelete({(0,1),(1,0)})` on `cycleSt`, used by
witnesses. -/
def cycleSt1 : DS.St := (DS.batchDelete cycleSt [(0,1),(1,0)]).getD emptySt

/-- Witness for C7 at a concrete input: the cycle graph and the batch
`{(0,1),(1,0)}`. -/
theorem batchDelete_idempotent_witness :
    DS.batchDelete cycleSt1 [(0,1),(1,0)] = some cycleSt1 :=
  batchDelete_idempotent cycleSt cycleSt1 [(0,1),(1,0)] (by decide)

namespace PS

theorem countP_sorted_prefix :
    ∀ (l : List (Int × Nat)) (mid : Nat),
      (∀ j k, j < k → k < l.length →
        (l.getD j (0,0)).2 < (l.getD k (0,0)).2) →
      ∀ j, j < l.length →
        (j < l.countP (fun pr => pr.2 ≤ mid) ↔ (l.getD j (0,0)).2 ≤ mid) := by
  intro l
  induction l with
  | nil => intro mid _ j hj; simp at hj
  | cons pr rest ih =>
    intro mid hsort j hj
    by_cases hpr : pr.2 ≤ mid
    · rw [List.countP_cons_of_pos _ _ (by simpa using hpr)]
      cases j with
      | zero => simpa using hpr
      | succ m =>
        have hrec := ih mid
          (fun a b hab hb => hsort (a+1) (b+1) (by omega) (by simpa using hb))
          m (by simpa using hj)
        simp only [List.getD_cons_succ]
        rw [← hrec]
        omega
    · rw [List.countP_cons_of_neg _ _ (by simpa using hpr)]
      have hzero : rest.countP (fun pr => pr.2 ≤ mid) = 0 := by
        apply List.countP_eq_zero.mpr
        intro a ha
        obtain ⟨k, hk, hak⟩ := List.mem_iff_getElem.mp ha
        have := hsort 0 (k+1) (by omega) (by simpa using hk)
        simp only [List.getD_cons_zero, List.getD_cons_succ] at this
        rw [List.getD_eq_getElem rest (0,0) hk, hak] at this
        simp only [decide_eq_true_eq]
        omega
      rw [hzero]
      simp only [Nat.not_lt_zero, false_iff]
      cases j with
      | zero => simpa using hpr
      | succ m =>
        have := hsort 0 (m+1) (by omega) hj
        simp only [List.getD_cons_zero, List.getD_cons_succ] at this ⊢
        omega

theorem getD_slice {items : List (Int × Nat)} {start stop j : Nat}
    (h1 : start ≤ j) (h2 : j < stop) (h3 : stop ≤ items.length) :
    ((items.drop start).take (stop - start)).getD (j - start) (0,0) =
      items.getD j (0,0) := by
  have hlt : j - start < stop - start := by omega
  have hdlen : start + (j - start) < items.length := by omega
  have hdrop : j - start < (items.drop start).length := by
    rw [List.length_drop]
    omega
  rw [List.getD_eq_getElem _ (0,0) (by
    rw [List.length_take, List.length_drop]
    omega)]
  rw [List.getElem_take, List.getElem_drop]
  rw [List.getD_eq_getElem items (0,0) (by omega)]
  congr 1
  omega

theorem slice_length {items : List (Int × Nat)} {start stop : Nat}
    (h1 : start ≤ stop) (h3 : stop ≤ items.length) :
    ((items.drop start).take (stop - start)).length = stop - start := by
  rw [List.length_take, List.length_drop]
  omega

theorem lowerBoundIdx_ge {items : List (Int × Nat)} {start stop mid : Nat} :
    start ≤ lowerBoundIdx items start stop mid := by
  unfold lowerBoundIdx
  omega

theorem lowerBoundIdx_le {items : List (Int × Nat)} {start stop mid : Nat} :
    lowerBoundIdx items start stop mid ≤ max start stop := by
  unfold lowerBoundIdx
  have := List.countP_le_length
    (p := fun (pr : Int × Nat) => decide (pr.2 ≤ mid))
    (l := (items.drop start).take (stop - start))
  have h2 : ((items.drop start).take (stop - start)).length ≤ stop - start := by
    rw [List.length_take]
    omega
  omega

theorem lowerBoundIdx_spec {items : List (Int × Nat)} {start stop mid : Nat}
    (hss : start ≤ stop) (hlen : stop ≤ items.length)
    (hsort : ∀ j k, start ≤ j → j < k → k < stop →
      (items.getD j (0,0)).2 < (items.getD k (0,0)).2) :
    ∀ j, start ≤ j → j < stop →
      (j < lowerBoundIdx items start stop mid ↔
        (items.getD j (0,0)).2 ≤ mid) := by
  intro j hj1 hj2
  have hslen := @slice_length items start stop hss hlen
  set sl := (items.drop start).take (stop - start) with hsl
  have hgets : ∀ a, start ≤ a → a < stop →
      sl.getD (a - start) (0,0) = items.getD a (0,0) := by
    intro a h1 h2
    exact getD_slice h1 h2 hlen
  have hsliceSort : ∀ a b, a < b → b < sl.length →
      (sl.getD a (0,0)).2 < (sl.getD b (0,0)).2 := by
    intro a b hab hb
    rw [hslen] at hb
    have ha2 : sl.getD a (0,0) = items.getD (start + a) (0,0) := by
      have := hgets (start + a) (by omega) (by omega)
      rw [show start + a - start = a by omega] at this
      exact this
    have hb2 : sl.getD b (0,0) = items.getD (start + b) (0,0) := by
      have := hgets (start + b) (by omega) (by omega)
      rw [show start + b - start = b by omega] at this
      exact this
    rw [ha2, hb2]
    exact hsort (start + a) (start + b) (by omega) (by omega) (by omega)
  have hmain := countP_sorted_prefix sl mid hsliceSort (j - start)
    (by rw [hslen]; omega)
  rw [hgets j hj1 hj2] at hmain
  unfold lowerBoundIdx
  rw [← hsl]
  constructor
  · intro h
    exact hmain.mp (by omega)
  · intro h
    have := hmain.mpr h
    omega

end PS

namespace PS

/-- A `nwFrom` result other than `size+1` is a satisfying rank at or
after the start position. -/
theorem nwFrom_ne_top {n : Nat} {g : Nat → Bool} {p j : Nat}
    (h : nwFrom n g p = j) (hne : j ≠ n + 1) :
    p ≤ j ∧ j ≤ n ∧ g j = true := by
  unfold nwFrom firstSat at h
  rcases hf : (List.range' p (n + 1 - p)).find? g with _ | j2
  · rw [hf] at h
    simp only at h
    omega
  · rw [hf] at h
    simp only at h
    have hg := List.find?_some hf
    have hmem := List.mem_of_find?_eq_some hf
    rw [List.mem_range'_1] at hmem
    subst h
    exact ⟨hmem.1, by omega, hg⟩

/-- A successful `nextWith` call that does not return `size+1` found a
rank in `[1, size]` whose `query` value satisfies the predicate. -/
theorem nextWith_found {maxP : Nat} {t : NTree} {k : Int} {f : Int → Bool}
    {j : Nat} (hwf : wfT t 1 maxP = true)
    (h : nextWith maxP t k f = some j) (hne : j ≠ sizePS t + 1) :
    1 ≤ j ∧ j ≤ sizePS t ∧
      ∃ val, queryPS maxP t (j : Int) = some val ∧ f val = true := by
  by_cases hz : sizePS t = 0
  · unfold nextWith at h
    rw [if_pos hz] at h
    simp only [Option.some.injEq] at h
    omega
  · have hn : 1 ≤ sizePS t := by omega
    rw [nextWith_eq hwf f k hn] at h
    simp only [Option.some.injEq] at h
    have hcl : 1 ≤ (if k < 1 then 1 else k.toNat) := by
      split
      · omega
      · omega
    obtain ⟨h1, h2, h3⟩ := nwFrom_ne_top h hne
    have hj1 : 1 ≤ j := by omega
    refine ⟨hj1, h2, (elems maxP t).getD (j - 1) 0, ?_, h3⟩
    have hq := queryPS_eq (k := (j : Int)) hwf (by omega) (by omega)
    simp only [Int.toNat_natCast] at hq
    exact hq

/-- A successful `query` returns one of the stored elements. -/
theorem queryPS_mem_elems {maxP : Nat} {t : NTree} {x val : Int}
    (hwf : wfT t 1 maxP = true) (h : queryPS maxP t x = some val) :
    val ∈ elems maxP t := by
  obtain ⟨h1, h2⟩ := queryPS_some_bounds h
  rw [queryPS_eq hwf h1 h2] at h
  simp only [Option.some.injEq] at h
  have hlen : (elems maxP t).length = sizePS t := elemsOf_length hwf
  have hidx : x.toNat - 1 < (elems maxP t).length := by
    rw [hlen]
    omega
  rw [List.getD_eq_getElem _ _ hidx] at h
  rw [← h]
  exact List.getElem_mem hidx

/-- The count stored at the root of `buildFromSorted` is the slice
length. -/
theorem cntOf_build :
    ∀ (fuel : Nat) (items : List (Int × Nat)) (start stop L R : Nat),
      0 < fuel →
      cntOf (buildFromSortedF fuel items start stop L R) = stop - start := by
  intro fuel items start stop L R hf
  match fuel, hf with
  | f+1, _ =>
    simp only [buildFromSortedF]
    by_cases hss : start ≥ stop
    · rw [if_pos hss]
      show 0 = stop - start
      omega
    · rw [if_neg hss]
      by_cases hLR : L = R
      · rw [if_pos hLR]
        rfl
      · rw [if_neg hLR]
        rfl

/-- `buildFromSorted` produces a structurally well-formed segment tree
when the slice is strictly sorted by priority, all slice priorities lie
in `[L, R]`, and the fuel exceeds the interval depth. -/
theorem wfT_build :
    ∀ (fuel : Nat) (items : List (Int × Nat)) (start stop L R : Nat),
      R - L < fuel → L ≤ R → stop ≤ items.length →
      (∀ j k, start ≤ j → j < k → k < stop →
        (items.getD j (0,0)).2 < (items.getD k (0,0)).2) →
      (∀ j, start ≤ j → j < stop →
        L ≤ (items.getD j (0,0)).2 ∧ (items.getD j (0,0)).2 ≤ R) →
      wfT (buildFromSortedF fuel items start stop L R) L R = true := by
  intro fuel
  induction fuel with
  | zero =>
    intro items start stop L R hf
    omega
  | succ f ih =>
    intro items start stop L R hf hLR hlen hsort hrange
    simp only [buildFromSortedF]
    by_cases hss : start ≥ stop
    · rw [if_pos hss]
      rfl
    · rw [if_neg hss]
      push_neg at hss
      by_cases hLReq : L = R
      · rw [if_pos hLReq]
        have hone : stop - start = 1 := by
          by_contra hc
          have h2 : start + 1 < stop := by omega
          have hs := hsort start (start+1) (Nat.le_refl _) (by omega) h2
          have hr1 := hrange start (Nat.le_refl _) (by omega)
          have hr2 := hrange (start+1) (by omega) h2
          omega
        simp only [wfT, hone, if_pos hLReq]
        rfl
      · rw [if_neg hLReq]
        have hLltR : L < R := by omega
        have hfpos : 0 < f := by omega
        have hm1 : start ≤ lowerBoundIdx items start stop ((L+R)/2) :=
          lowerBoundIdx_ge
        have hm2 : lowerBoundIdx items start stop ((L+R)/2) ≤ stop := by
          have := @lowerBoundIdx_le items start stop ((L+R)/2)
          omega
        have hspec := @lowerBoundIdx_spec items start stop ((L+R)/2)
          (by omega) hlen (fun j k hj hjk hk => hsort j k hj hjk hk)
        simp only [wfT, if_neg hLReq, Bool.and_eq_true, decide_eq_true_eq]
        refine ⟨⟨?_, ?_⟩, ?_⟩
        · rw [cntOf_build f items start _ L ((L+R)/2) hfpos,
            cntOf_build f items _ stop ((L+R)/2 + 1) R hfpos]
          omega
        · apply ih items start _ L ((L+R)/2) (by omega) (by omega)
            (by omega) (fun j k hj hjk hk => hsort j k hj hjk (by omega))
          intro j hj1 hj2
          have hj3 : j < stop := by omega
          have := (hspec j hj1 hj3).mp (by omega)
          have := hrange j hj1 hj3
          omega
        · apply ih items _ stop ((L+R)/2 + 1) R (by omega) (by omega) hlen
            (fun j k hj hjk hk => hsort j k (by omega) hjk hk)
          intro j hj1 hj2
          have hj0 : start ≤ j := by omega
          have hnot : ¬ j < lowerBoundIdx items start stop ((L+R)/2) := by
            omega
          have hiff := hspec j hj0 hj2
          have := hrange j hj0 hj2
          omega
        

/-- Every stored value of a `buildFromSorted` tree is the value of some
slice entry. -/
theorem elemsOf_build_val :
    ∀ (fuel : Nat) (items : List (Int × Nat)) (start stop L R : Nat),
      ∀ x ∈ elemsOf (buildFromSortedF fuel items start stop L R) L R,
        ∃ j, start ≤ j ∧ j < stop ∧ x = (items.getD j (0,0)).1 := by
  intro fuel
  induction fuel with
  | zero =>
    intro items start stop L R x hx
    simp only [buildFromSortedF, elemsOf] at hx
    exact absurd hx (List.not_mem_nil x)
  | succ f ih =>
    intro items start stop L R x hx
    simp only [buildFromSortedF] at hx
    by_cases hss : start ≥ stop
    · rw [if_pos hss] at hx
      exact absurd hx (List.not_mem_nil x)
    · rw [if_neg hss] at hx
      push_neg at hss
      by_cases hLReq : L = R
      · rw [if_pos hLReq] at hx
        simp only [elemsOf, if_pos hLReq] at hx
        rw [if_pos trivial, List.mem_singleton] at hx
        exact ⟨start, Nat.le_refl _, hss, hx⟩
      · rw [if_neg hLReq] at hx
        have hm1 : start ≤ lowerBoundIdx items start stop ((L+R)/2) :=
          lowerBoundIdx_ge
        have hm2 : lowerBoundIdx items start stop ((L+R)/2) ≤ stop := by
          have := @lowerBoundIdx_le items start stop ((L+R)/2)
          omega
        simp only [elemsOf, if_neg hLReq, List.mem_append] at hx
        rcases hx with hx | hx
        · obtain ⟨j, hj1, hj2, hj3⟩ := ih items _ stop ((L+R)/2 + 1) R x hx
          exact ⟨j, by omega, hj2, hj3⟩
        · obtain ⟨j, hj1, hj2, hj3⟩ := ih items start _ L ((L+R)/2) x hx
          exact ⟨j, hj1, by omega, hj3⟩

/-- One insertion step permutes: `insertByPriority x l` is `x :: l` up to
order. -/
theorem insertByPriority_perm (x : Int × Nat) :
    ∀ (l : List (Int × Nat)), List.Perm (insertByPriority x l) (x :: l) := by
  intro l
  induction l with
  | nil => exact List.Perm.refl _
  | cons y ys ih =>
    simp only [insertByPriority]
    split
    · exact List.Perm.refl _
    · exact (ih.cons y).trans (List.Perm.swap x y ys)

/-- The sort of `initialize` permutes its input. -/
theorem sortByPriority_perm :
    ∀ (l : List (Int × Nat)), List.Perm (sortByPriority l) l := by
  intro l
  induction l with
  | nil => exact List.Perm.refl _
  | cons x xs ih =>
    simp only [sortByPriority]
    exact (insertByPriority_perm x (sortByPriority xs)).trans (ih.cons x)

/-- Inserting into a list sorted by priority keeps it sorted. -/
theorem insertByPriority_sorted {x : Int × Nat} :
    ∀ {l : List (Int × Nat)},
      List.Pairwise (fun a b : Int × Nat => a.2 ≤ b.2) l →
      List.Pairwise (fun a b : Int × Nat => a.2 ≤ b.2) (insertByPriority x l) := by
  intro l
  induction l with
  | nil =>
    intro _
    simp [insertByPriority]
  | cons y ys ih =>
    intro h
    rw [List.pairwise_cons] at h
    obtain ⟨hy, hys⟩ := h
    simp only [insertByPriority]
    split
    · rw [List.pairwise_cons]
      refine ⟨?_, List.pairwise_cons.mpr ⟨hy, hys⟩⟩
      intro b hb
      rcases List.mem_cons.mp hb with hb | hb
      · subst hb
        assumption
      · have := hy b hb
        omega
    · rw [List.pairwise_cons]
      refine ⟨?_, ih hys⟩
      intro b hb
      have hmem := (insertByPriority_perm x ys).mem_iff.mp hb
      rcases List.mem_cons.mp hmem with hb2 | hb2
      · subst hb2
        omega
      · exact hy b hb2

/-- The sort of `initialize` sorts by priority (non-strictly). -/
theorem sortByPriority_sorted :
    ∀ (l : List (Int × Nat)),
      List.Pairwise (fun a b : Int × Nat => a.2 ≤ b.2) (sortByPriority l) := by
  intro l
  induction l with
  | nil => exact List.Pairwise.nil
  | cons x xs ih =>
    simp only [sortByPriority]
    exact insertByPriority_sorted ih

/-- With pairwise-distinct priorities, the sorted list is strictly
increasing in priority, index by index. -/
theorem sortByPriority_strict {l : List (Int × Nat)}
    (hnd : (l.map (fun pr : Int × Nat => pr.2)).Nodup) :
    ∀ j k, j < k → k < (sortByPriority l).length →
      ((sortByPriority l).getD j (0,0)).2 <
        ((sortByPriority l).getD k (0,0)).2 := by
  intro j k hjk hk
  have hperm := sortByPriority_perm l
  have hnd2 : ((sortByPriority l).map (fun pr : Int × Nat => pr.2)).Nodup :=
    ((hperm.map (fun pr : Int × Nat => pr.2)).nodup_iff).mpr hnd
  have hsorted := sortByPriority_sorted l
  rw [List.pairwise_iff_getElem] at hsorted
  have hj : j < (sortByPriority l).length := by omega
  have hle := hsorted j k hj hk hjk
  have hne : ((sortByPriority l)[j]).2 ≠ ((sortByPriority l)[k]).2 := by
    have hndp := List.Pairwise.imp (fun h => h) hnd2
    rw [List.pairwise_iff_getElem] at hndp
    have := hndp j k (by simpa using hj) (by simpa using hk) hjk
    simpa using this
  rw [List.getD_eq_getElem _ _ hj, List.getD_eq_getElem _ _ hk]
  omega

/-- `initialize` of `priority_struct_TAS.cpp` builds a well-formed tree
when the priorities are pairwise distinct and lie in `[1, maxP]`. -/
theorem initTAS_wf {maxP : Nat} {pairs : List (Int × Nat)}
    (hnd : (pairs.map (fun pr : Int × Nat => pr.2)).Nodup)
    (hrng : ∀ pr ∈ pairs, 1 ≤ pr.2 ∧ pr.2 ≤ maxP) :
    wfT (initTAS maxP pairs) 1 maxP = true := by
  unfold initTAS
  split
  · rfl
  · rename_i hne
    have hmaxP : 1 ≤ maxP := by
      match pairs, hne with
      | pr :: rest, _ =>
        have := hrng pr (List.mem_cons_self pr rest)
        omega
    apply wfT_build (maxP + 1) _ 0 _ 1 maxP (by omega) hmaxP (Nat.le_refl _)
    · intro j k hj hjk hk
      exact sortByPriority_strict hnd j k hjk hk
    · intro j hj1 hj2
      have hmem : (sortByPriority pairs).getD j (0,0) ∈ sortByPriority pairs := by
        rw [List.getD_eq_getElem _ _ hj2]
        exact List.getElem_mem hj2
      have hmem2 := (sortByPriority_perm pairs).mem_iff.mp hmem
      exact hrng _ hmem2

/-- Every value stored by `initialize` of `priority_struct_TAS.cpp` is the
value of one of the input pairs. -/
theorem initTAS_val_mem {maxP : Nat} {pairs : List (Int × Nat)} {x : Int}
    (hx : x ∈ elems maxP (initTAS maxP pairs)) :
    ∃ pr ∈ pairs, x = pr.1 := by
  unfold initTAS at hx
  split at hx
  · exact absurd hx (List.not_mem_nil x)
  · obtain ⟨j, hj1, hj2, hj3⟩ :=
      elemsOf_build_val (maxP + 1) (sortByPriority pairs) 0
        (sortByPriority pairs).length 1 maxP x hx
    have hmem : (sortByPriority pairs).getD j (0,0) ∈ sortByPriority pairs := by
      rw [List.getD_eq_getElem _ _ hj2]
      exact List.getElem_mem hj2
    exact ⟨_, (sortByPriority_perm pairs).mem_iff.mp hmem, hj3⟩

end PS

namespace DS

theorem gset_self {α : Type} {l : List α} {i : Nat} {x d : α}
    (h : i < l.length) : (l.set i x).getD i d = x := by
  unfold List.getD
  rw [List.get?_set_eq, List.get?_eq_getElem?, List.getElem?_eq_getElem h]
  rfl

theorem gset_ne {α : Type} {l : List α} {i j : Nat} {x d : α}
    (h : j ≠ i) : (l.set i x).getD j d = l.getD j d := by
  unfold List.getD
  rw [List.get?_set_ne _ _ (Ne.symm h)]

theorem gset_getD {α : Type} {l : List α} {i j : Nat} {x d : α} :
    (l.set i x).getD j d =
      if j = i ∧ i < l.length then x else l.getD j d := by
  by_cases hj : j = i
  · subst hj
    by_cases hl : j < l.length
    · rw [gset_self hl, if_pos ⟨rfl, hl⟩]
    · rw [if_neg (by omega)]
      rw [List.set_eq_of_length_le (by omega)]
  · rw [gset_ne hj, if_neg (by simp [hj])]

/-- Membership in a `uInsert`. -/
theorem uInsert_mem {x : Nat} :
    ∀ {l : List Nat} {z : Nat}, z ∈ uInsert x l ↔ z = x ∨ z ∈ l := by
  intro l
  induction l with
  | nil => intro z; simp [uInsert]
  | cons y ys ih =>
    intro z
    simp only [uInsert]
    by_cases h1 : x < y
    · rw [if_pos h1]
      simp
    · rw [if_neg h1]
      by_cases h2 : x = y
      · rw [if_pos h2]
        subst h2
        simp only [List.mem_cons]
        constructor
        · intro h
          exact Or.inr h
        · rintro (h | h)
          · subst h
            exact Or.inl rfl
          · exact h
      · rw [if_neg h2]
        simp only [List.mem_cons, ih]
        tauto

/-- `uInsert` preserves strict sortedness. -/
theorem uInsert_pairwise {x : Nat} :
    ∀ {l : List Nat}, List.Pairwise (· < ·) l →
      List.Pairwise (· < ·) (uInsert x l) := by
  intro l
  induction l with
  | nil => intro _; simp [uInsert]
  | cons y ys ih =>
    intro h
    rw [List.pairwise_cons] at h
    obtain ⟨hy, hys⟩ := h
    simp only [uInsert]
    by_cases h1 : x < y
    · rw [if_pos h1]
      rw [List.pairwise_cons]
      refine ⟨?_, List.pairwise_cons.mpr ⟨hy, hys⟩⟩
      intro b hb
      rcases List.mem_cons.mp hb with hb | hb
      · omega
      · have := hy b hb
        omega
    · rw [if_neg h1]
      by_cases h2 : x = y
      · rw [if_pos h2]
        exact List.pairwise_cons.mpr ⟨hy, hys⟩
      · rw [if_neg h2]
        rw [List.pairwise_cons]
        refine ⟨?_, ih hys⟩
        intro b hb
        rcases uInsert_mem.mp hb with hb | hb
        · omega
        · exact hy b hb

/-- Membership in the unconditional `uInsert` fold used by the failure
branch of a phase step. -/
theorem uFold_mem :
    ∀ (l : List Nat) (acc : List Nat) (z : Nat),
      z ∈ l.foldl (fun a c => uInsert c a) acc ↔ z ∈ l ∨ z ∈ acc := by
  intro l
  induction l with
  | nil => intro acc z; simp
  | cons c cs ih =>
    intro acc z
    simp only [List.foldl_cons]
    rw [ih]
    simp only [List.mem_cons, uInsert_mem]
    tauto

theorem uFold_pairwise :
    ∀ (l : List Nat) (acc : List Nat),
      List.Pairwise (· < ·) acc →
      List.Pairwise (· < ·) (l.foldl (fun a c => uInsert c a) acc) := by
  intro l
  induction l with
  | nil => intro acc h; exact h
  | cons c cs ih =>
    intro acc h
    simp only [List.foldl_cons]
    exact ih _ (uInsert_pairwise h)

/-- Membership in the conditional `uInsert` fold used by `seed`. -/
theorem seedFold_mem (P : Nat → Prop) [DecidablePred P] :
    ∀ (l : List Nat) (acc : List Nat) (z : Nat),
      z ∈ l.foldl (fun a v => if P v then uInsert v a else a) acc ↔
        (z ∈ l ∧ P z) ∨ z ∈ acc := by
  intro l
  induction l with
  | nil => intro acc z; simp
  | cons c cs ih =>
    intro acc z
    simp only [List.foldl_cons]
    by_cases hc : P c
    · rw [if_pos hc, ih]
      simp only [List.mem_cons, uInsert_mem]
      constructor
      · rintro (⟨h1, h2⟩ | (h | h))
        · exact Or.inl ⟨Or.inr h1, h2⟩
        · subst h
          exact Or.inl ⟨Or.inl rfl, hc⟩
        · exact Or.inr h
      · rintro (⟨h1 | h1, h2⟩ | h)
        · subst h1
          exact Or.inr (Or.inl rfl)
        · exact Or.inl ⟨h1, h2⟩
        · exact Or.inr (Or.inr h)
    · rw [if_neg hc, ih]
      simp only [List.mem_cons]
      constructor
      · rintro (⟨h1, h2⟩ | h)
        · exact Or.inl ⟨Or.inr h1, h2⟩
        · exact Or.inr h
      · rintro (⟨h1 | h1, h2⟩ | h)
        · subst h1
          exact absurd h2 hc
        · exact Or.inl ⟨h1, h2⟩
        · exact Or.inr h

theorem seedFold_pairwise (P : Nat → Prop) [DecidablePred P] :
    ∀ (l : List Nat) (acc : List Nat),
      List.Pairwise (· < ·) acc →
      List.Pairwise (· < ·)
        (l.foldl (fun a v => if P v then uInsert v a else a) acc) := by
  intro l
  induction l with
  | nil => intro acc h; exact h
  | cons c cs ih =>
    intro acc h
    simp only [List.foldl_cons]
    by_cases hc : P c
    · rw [if_pos hc]
      exact ih _ (uInsert_pairwise h)
    · rw [if_neg hc]
      exact ih _ h

/-- The bulk distance assignment of a phase (`for v in U: Dist[v] = i+1`),
read entry by entry. -/
theorem distFold_getD {c : Int} :
    ∀ (l : List Nat) (dist : List Int) (x : Nat),
      (l.foldl (fun d v => d.set v c) dist).getD x 0 =
        if x ∈ l ∧ x < dist.length then c else dist.getD x 0 := by
  intro l
  induction l with
  | nil => intro dist x; simp
  | cons v vs ih =>
    intro dist x
    simp only [List.foldl_cons]
    rw [ih]
    simp only [List.length_set, List.mem_cons]
    by_cases hm : x ∈ vs
    · by_cases hl : x < dist.length
      · rw [if_pos ⟨hm, hl⟩, if_pos ⟨Or.inr hm, hl⟩]
      · rw [if_neg (by tauto), if_neg (by tauto)]
        rw [gset_getD, if_neg (by omega)]
    · rw [if_neg (by tauto)]
      by_cases hx : x = v
      · subst hx
        by_cases hl : x < dist.length
        · rw [gset_self hl, if_pos ⟨Or.inl rfl, hl⟩]
        · rw [if_neg (by tauto)]
          rw [List.set_eq_of_length_le (by omega)]
      · rw [gset_ne hx, if_neg (by tauto)]

theorem distFold_length {c : Int} :
    ∀ (l : List Nat) (dist : List Int),
      (l.foldl (fun d v => d.set v c) dist).length = dist.length := by
  intro l
  induction l with
  | nil => intro dist; rfl
  | cons v vs ih =>
    intro dist
    simp only [List.foldl_cons]
    rw [ih, List.length_set]

/-- The state invariant maintained between batches: array lengths match
`n`, the `In(v)` trees are well-formed with stored values in `[0, n)`,
every recorded child is in range with distance at most one more than its
parent, and the parent map agrees with the children lists. -/
structure StInv (st : St) : Prop where
  hDlen : st.Dist.length = st.n
  hPlen : st.Parent.length = st.n
  hTlen : st.Tv.length = st.n
  hIlen : st.InPS.length = st.n
  hW : ∀ v, v < st.n → PS.wfT (st.InPS.getD v PS.NTree.nil) 1 st.n = true
  hV : ∀ v, v < st.n → ∀ x ∈ PS.elems st.n (st.InPS.getD v PS.NTree.nil),
        0 ≤ x ∧ x < (st.n : Int)
  hB : ∀ p c, c ∈ st.Tv.getD p [] → c < st.n ∧
        st.Dist.getD c 0 ≤ st.Dist.getD p 0 + 1
  hPar : ∀ p c, c ∈ st.Tv.getD p [] → st.Parent.getD c 0 = Int.ofNat p

end DS


namespace DS

/-- Invariant carried through the first pass of `batchDelete`: distances
are untouched, the state invariant holds, flagged vertices are detached
from the tree, and every recorded tree edge points at a flagged, in-range,
detached child, no child being recorded twice. -/
def P1Inv (st0 : St) (acc : St × List Bool × List (Nat × Nat)) : Prop :=
  acc.1.Dist = st0.Dist ∧
  StInv acc.1 ∧
  acc.2.1.length = acc.1.n ∧
  (∀ c, acc.2.1.getD c false = true → ∀ p, c ∉ acc.1.Tv.getD p []) ∧
  (∀ e ∈ acc.2.2, e.2 < acc.1.n ∧ acc.2.1.getD e.2 false = true ∧
    acc.1.Parent.getD e.2 0 = -1) ∧
  (acc.2.2.map (fun e => e.2)).Nodup

theorem pass1Step_inv {st0 : St} {acc : St × List Bool × List (Nat × Nat)}
    {e : Int × Int} (h : P1Inv st0 acc) : P1Inv st0 (pass1Step acc e) := by
  obtain ⟨st, pd, te⟩ := acc
  obtain ⟨u, v⟩ := e
  obtain ⟨hDf, hSI, hpdl, hPD, hTE, hND⟩ := h
  simp only [pass1Step]
  split
  · exact ⟨hDf, hSI, hpdl, hPD, hTE, hND⟩
  · rename_i hval
    push_neg at hval
    have huN : u.toNat < st.n := by omega
    have hvN : v.toNat < st.n := by omega
    have hul : u.toNat < st.Tv.length := by
      rw [hSI.hTlen]
      exact huN
    have hpl : v.toNat < st.Parent.length := by
      rw [hSI.hPlen]
      exact hvN
    split
    · rename_i halive
      split
      · rename_i hpar
        have hpar2 : st.Parent.getD v.toNat 0 = Int.ofNat u.toNat :=
          beq_iff_eq.mp hpar
        have hPlen2 : (st.Parent.set v.toNat (-1)).length = st.n := by
          rw [List.length_set]
          exact hSI.hPlen
        have hTlen2 : (st.Tv.set u.toNat
            ((st.Tv.getD u.toNat []).filter (fun x => x ≠ v.toNat))).length
            = st.n := by
          rw [List.length_set]
          exact hSI.hTlen
        have hB2 : ∀ p c, c ∈ (st.Tv.set u.toNat
            ((st.Tv.getD u.toNat []).filter
              (fun x => x ≠ v.toNat))).getD p [] →
            c < st.n ∧ st.Dist.getD c 0 ≤ st.Dist.getD p 0 + 1 := by
          intro p c hc
          rw [gset_getD] at hc
          by_cases hpe : p = u.toNat
          · rw [if_pos ⟨hpe, hul⟩] at hc
            have hc2 := List.mem_filter.mp hc
            have := hSI.hB u.toNat c hc2.1
            rw [hpe]
            exact this
          · rw [if_neg (fun hco => hpe hco.1)] at hc
            exact hSI.hB p c hc
        have hParX : ∀ p c, c ∈ (st.Tv.set u.toNat
            ((st.Tv.getD u.toNat []).filter
              (fun x => x ≠ v.toNat))).getD p [] →
            (st.Parent.set v.toNat (-1)).getD c 0 = Int.ofNat p := by
          intro p c hc
          rw [gset_getD] at hc
          by_cases hpe : p = u.toNat
          · rw [if_pos ⟨hpe, hul⟩] at hc
            have hc2 := List.mem_filter.mp hc
            have hcv : c ≠ v.toNat := by
              have := hc2.2
              simpa using this
            rw [gset_ne hcv, hpe]
            exact hSI.hPar u.toNat c hc2.1
          · rw [if_neg (fun hco => hpe hco.1)] at hc
            have hold := hSI.hPar p c hc
            have hcv : c ≠ v.toNat := by
              intro hcontra
              rw [hcontra] at hold
              rw [hpar2] at hold
              exact hpe (Int.ofNat.inj hold).symm
            rw [gset_ne hcv]
            exact hold
        have hpdl2 : (pd.set v.toNat true).length = st.n := by
          rw [List.length_set]
          exact hpdl
        have hPD2 : ∀ c, (pd.set v.toNat true).getD c false = true →
            ∀ p, c ∉ (st.Tv.set u.toNat
              ((st.Tv.getD u.toNat []).filter
                (fun x => x ≠ v.toNat))).getD p [] := by
          intro c hc p hmem
          rw [gset_getD] at hmem
          by_cases hcv : c = v.toNat
          · rw [hcv] at hmem
            by_cases hpe : p = u.toNat
            · rw [if_pos ⟨hpe, hul⟩] at hmem
              have := (List.mem_filter.mp hmem).2
              simp at this
            · rw [if_neg (fun hco => hpe hco.1)] at hmem
              have hold := hSI.hPar p v.toNat hmem
              rw [hpar2] at hold
              exact hpe (Int.ofNat.inj hold).symm
          · rw [gset_getD, if_neg (fun hco => hcv hco.1)] at hc
            have hold := hPD c hc
            by_cases hpe : p = u.toNat
            · rw [if_pos ⟨hpe, hul⟩] at hmem
              exact hold u.toNat (List.mem_filter.mp hmem).1
            · rw [if_neg (fun hco => hpe hco.1)] at hmem
              exact hold p hmem
        have hTE2 : ∀ e2 ∈ te ++ [(u.toNat, v.toNat)],
            e2.2 < st.n ∧ (pd.set v.toNat true).getD e2.2 false = true ∧
            (st.Parent.set v.toNat (-1)).getD e2.2 0 = -1 := by
          intro e2 he2
          rcases List.mem_append.mp he2 with he2 | he2
          · obtain ⟨h1, h2, h3⟩ := hTE e2 he2
            refine ⟨h1, ?_, ?_⟩
            · rw [gset_getD]
              split
              · rfl
              · exact h2
            · by_cases hev : e2.2 = v.toNat
              · rw [hev, gset_self hpl]
              · rw [gset_ne hev]
                exact h3
          · rw [List.mem_singleton] at he2
            rw [he2]
            refine ⟨hvN, ?_, ?_⟩
            · show (pd.set v.toNat true).getD v.toNat false = true
              rw [gset_self (by rw [hpdl]; exact hvN)]
            · show (st.Parent.set v.toNat (-1)).getD v.toNat 0 = -1
              rw [gset_self hpl]
        have hND2 : ((te ++ [(u.toNat, v.toNat)]).map
            (fun e2 => e2.2)).Nodup := by
          rw [List.map_append, List.nodup_append]
          refine ⟨hND, List.nodup_singleton _, ?_⟩
          intro a ha hb
          simp only [List.map_singleton, List.mem_singleton] at hb
          rw [List.mem_map] at ha
          obtain ⟨e2, he2, he22⟩ := ha
          have h3 := (hTE e2 he2).2.2
          rw [he22, hb] at h3
          rw [hpar2] at h3
          have h4 : (u.toNat : Int) = -1 := h3
          omega
        exact ⟨hDf,
          ⟨hSI.hDlen, hPlen2, hTlen2, hSI.hIlen, hSI.hW, hSI.hV, hB2, hParX⟩,
          hpdl2, hPD2, hTE2, hND2⟩
      · exact ⟨hDf,
          ⟨hSI.hDlen, hSI.hPlen, hSI.hTlen, hSI.hIlen, hSI.hW, hSI.hV,
            hSI.hB, hSI.hPar⟩,
          hpdl, hPD, hTE, hND⟩
    · exact ⟨hDf, hSI, hpdl, hPD, hTE, hND⟩

theorem pass1_fold_inv {st0 : St} :
    ∀ (D : List (Int × Int)) (acc : St × List Bool × List (Nat × Nat)),
      P1Inv st0 acc → P1Inv st0 (D.foldl pass1Step acc) := by
  intro D
  induction D with
  | nil => intro acc h; exact h
  | cons e es ih =>
    intro acc h
    simp only [List.foldl_cons]
    exact ih _ (pass1Step_inv h)

end DS

namespace DS

/-- Invariant carried through the second pass: distances untouched, state
invariant, and flagged vertices detached from the tree. -/
def P2Inv (st0 : St) (acc : St × List Bool) : Prop :=
  acc.1.Dist = st0.Dist ∧
  StInv acc.1 ∧
  acc.2.length = acc.1.n ∧
  (∀ c, acc.2.getD c false = true → ∀ p, c ∉ acc.1.Tv.getD p [])

theorem pass2Step_inv {st0 : St} {acc acc' : St × List Bool} {e : Nat × Nat}
    (hinv : P2Inv st0 acc)
    (he : e.2 < acc.1.n ∧ acc.2.getD e.2 false = true)
    (h : pass2Step acc e = some acc') :
    P2Inv st0 acc' ∧ acc'.1.n = acc.1.n ∧
      (∀ x, x ≠ e.2 → acc'.2.getD x false = acc.2.getD x false) := by
  obtain ⟨st, pd⟩ := acc
  obtain ⟨hDf, hSI, hpdl, hPD⟩ := hinv
  obtain ⟨hvn, hpdv⟩ := he
  have hSI : StInv st := hSI
  have hpdl : pd.length = st.n := hpdl
  have hPD : ∀ c, pd.getD c false = true → ∀ p, c ∉ st.Tv.getD p [] := hPD
  have hDf : st.Dist = st0.Dist := hDf
  have hvn : e.2 < st.n := hvn
  have hpdv : pd.getD e.2 false = true := hpdv
  simp only [pass2Step] at h
  split at h
  · exact absurd h (by simp)
  · rename_i sc hnw
    split at h
    · rename_i hsc
      split at h
      · exact absurd h (by simp)
      · rename_i w hq
        simp only [Option.some.injEq] at h
        subst h
        have hwf := hSI.hW e.2 hvn
        obtain ⟨hj1, hj2, val, hqval, hfval⟩ := PS.nextWith_found hwf hnw hsc
        have hq2 : PS.queryPS st.n (st.InPS.getD e.2 PS.NTree.nil)
            (sc : Int) = some w := hq
        rw [hqval] at hq2
        have hwval : w = val := by
          have := hq2
          simp only [Option.some.injEq] at this
          exact this.symm
        subst hwval
        simp only [pred0, Bool.and_eq_true, beq_iff_eq] at hfval
        have hdeq : st.Dist.getD w.toNat 0 = st.Dist.getD e.2 0 - 1 :=
          hfval.1
        have hmem := PS.queryPS_mem_elems hwf hqval
        have hrange := hSI.hV e.2 hvn w hmem
        have hw0 : 0 ≤ w := hrange.1
        have hwn : w.toNat < st.n := by omega
        have hofN : Int.ofNat w.toNat = w := Int.toNat_of_nonneg hw0
        have hwtl : w.toNat < st.Tv.length := by
          rw [hSI.hTlen]
          exact hwn
        have hptl : e.2 < st.Parent.length := by
          rw [hSI.hPlen]
          exact hvn
        have hdetached := hPD e.2 hpdv
        refine ⟨⟨hDf, ?_, ?_, ?_⟩, rfl, ?_⟩
        · refine ⟨hSI.hDlen, ?_, ?_, hSI.hIlen, hSI.hW, hSI.hV, ?_, ?_⟩
          · show (st.Parent.set e.2 w).length = st.n
            rw [List.length_set]
            exact hSI.hPlen
          · show (st.Tv.set w.toNat (st.Tv.getD w.toNat [] ++ [e.2])).length
              = st.n
            rw [List.length_set]
            exact hSI.hTlen
          · intro p c hc
            show c < st.n ∧ st.Dist.getD c 0 ≤ st.Dist.getD p 0 + 1
            have hc2 : c ∈ (st.Tv.set w.toNat
                (st.Tv.getD w.toNat [] ++ [e.2])).getD p [] := hc
            rw [gset_getD] at hc2
            by_cases hpe : p = w.toNat
            · rw [if_pos ⟨hpe, hwtl⟩] at hc2
              rcases List.mem_append.mp hc2 with hc3 | hc3
              · have := hSI.hB w.toNat c hc3
                rw [hpe]
                exact this
              · rw [List.mem_singleton] at hc3
                rw [hc3, hpe]
                exact ⟨hvn, by omega⟩
            · rw [if_neg (fun hco => hpe hco.1)] at hc2
              exact hSI.hB p c hc2
          · intro p c hc
            show (st.Parent.set e.2 w).getD c 0 = Int.ofNat p
            have hc2 : c ∈ (st.Tv.set w.toNat
                (st.Tv.getD w.toNat [] ++ [e.2])).getD p [] := hc
            rw [gset_getD] at hc2
            by_cases hpe : p = w.toNat
            · rw [if_pos ⟨hpe, hwtl⟩] at hc2
              rcases List.mem_append.mp hc2 with hc3 | hc3
              · have hcv : c ≠ e.2 := by
                  intro hcon
                  rw [hcon] at hc3
                  exact hdetached w.toNat hc3
                rw [gset_ne hcv, hpe]
                exact hSI.hPar w.toNat c hc3
              · rw [List.mem_singleton] at hc3
                rw [hc3, gset_self hptl, hpe]
                exact hofN.symm
            · rw [if_neg (fun hco => hpe hco.1)] at hc2
              have hcv : c ≠ e.2 := by
                intro hcon
                rw [hcon] at hc2
                exact hdetached p hc2
              rw [gset_ne hcv]
              exact hSI.hPar p c hc2
        · show (pd.set e.2 false).length = st.n
          rw [List.length_set]
          exact hpdl
        · intro c hc p hmem2
          have hc2 : (pd.set e.2 false).getD c false = true := hc
          rw [gset_getD] at hc2
          by_cases hce : c = e.2
          · rw [if_pos ⟨hce, by rw [hpdl]; exact hvn⟩] at hc2
            exact absurd hc2 (by simp)
          · rw [if_neg (fun hco => hce hco.1)] at hc2
            have hold := hPD c hc2
            have hmem3 : c ∈ (st.Tv.set w.toNat
                (st.Tv.getD w.toNat [] ++ [e.2])).getD p [] := hmem2
            rw [gset_getD] at hmem3
            by_cases hpe : p = w.toNat
            · rw [if_pos ⟨hpe, hwtl⟩] at hmem3
              rcases List.mem_append.mp hmem3 with hc3 | hc3
              · exact hold w.toNat hc3
              · rw [List.mem_singleton] at hc3
                exact hce hc3
            · rw [if_neg (fun hco => hpe hco.1)] at hmem3
              exact hold p hmem3
        · intro x hx
          show (pd.set e.2 false).getD x false = pd.getD x false
          rw [gset_ne hx]
    · simp only [Option.some.injEq] at h
      subst h
      exact ⟨⟨hDf,
        ⟨hSI.hDlen, hSI.hPlen, hSI.hTlen, hSI.hIlen, hSI.hW, hSI.hV,
          hSI.hB, hSI.hPar⟩, hpdl, hPD⟩, rfl, fun x hx => rfl⟩

theorem pass2_fold_inv {st0 : St} :
    ∀ (te : List (Nat × Nat)) (acc acc' : St × List Bool),
      P2Inv st0 acc →
      (∀ e ∈ te, e.2 < acc.1.n ∧ acc.2.getD e.2 false = true) →
      (te.map (fun e => e.2)).Nodup →
      te.foldlM pass2Step acc = some acc' →
      P2Inv st0 acc' := by
  intro te
  induction te with
  | nil =>
    intro acc acc' hinv _ _ h
    simp only [List.foldlM_nil, Option.pure_def, Option.some.injEq] at h
    rw [← h]
    exact hinv
  | cons e es ih =>
    intro acc acc' hinv hte hnd h
    rw [List.foldlM_cons] at h
    rcases hstep : pass2Step acc e with _ | acc1
    · rw [hstep] at h
      exact absurd h (by simp)
    · rw [hstep] at h
      simp only [Option.bind_eq_bind, Option.some_bind] at h
      have he := hte e (List.mem_cons_self e es)
      obtain ⟨hinv1, hn1, hpd1⟩ := pass2Step_inv hinv he hstep
      rw [List.map_cons, List.nodup_cons] at hnd
      apply ih acc1 acc' hinv1 ?_ hnd.2 h
      intro e' he'
      have h1 := hte e' (List.mem_cons_of_mem e he')
      have hne : e'.2 ≠ e.2 := by
        intro hcon
        exact hnd.1 (hcon ▸ List.mem_map_of_mem (fun x => x.2) he')
      refine ⟨?_, ?_⟩
      · rw [hn1]
        exact h1.1
      · rw [hpd1 e'.2 hne]
        exact h1.2

end DS

namespace DS

/-- Invariant carried through the inner vertex loop of one phase `i`
(lines 6–11 of Algorithm 1), with `r` the still-unprocessed members of
`U`: the state invariant, the bound that flagged tree members sit at
distance at most `i`, bounds and detachment for the collected `U_new`,
and detachment, distance `i` and freshness for the remaining members. -/
def PhFold (i : Nat) (pd : List Bool) (r : List Nat) (acc : St × List Nat) :
    Prop :=
  StInv acc.1 ∧
  (∀ c p, pd.getD c false = true → c ∈ acc.1.Tv.getD p [] →
    acc.1.Dist.getD c 0 ≤ (i : Int)) ∧
  (∀ x ∈ acc.2, x < acc.1.n ∧ acc.1.Dist.getD x 0 ≤ (i : Int) + 1) ∧
  (∀ x ∈ acc.2, ∀ p, x ∉ acc.1.Tv.getD p []) ∧
  List.Pairwise (· < ·) acc.2 ∧
  (∀ x ∈ r, (∀ p, x ∉ acc.1.Tv.getD p []) ∧ x ∉ acc.2 ∧ x < acc.1.n ∧
    acc.1.Dist.getD x 0 = (i : Int))

theorem phaseStep_inv2 {i : Nat} {pd : List Bool} {v : Nat} {r : List Nat}
    {acc acc' : St × List Nat}
    (hinv : PhFold i pd (v :: r) acc)
    (hrnd : ∀ x ∈ r, x ≠ v)
    (h : phaseStep acc v = some acc') :
    PhFold i pd r acc' := by
  obtain ⟨st, unew⟩ := acc
  obtain ⟨hSI, hE, hUD, hUT, hUS, hR⟩ := hinv
  have hSI : StInv st := hSI
  have hE : ∀ c p, pd.getD c false = true → c ∈ st.Tv.getD p [] →
      st.Dist.getD c 0 ≤ (i : Int) := hE
  have hUD : ∀ x ∈ unew, x < st.n ∧ st.Dist.getD x 0 ≤ (i : Int) + 1 := hUD
  have hUT : ∀ x ∈ unew, ∀ p, x ∉ st.Tv.getD p [] := hUT
  have hUS : List.Pairwise (· < ·) unew := hUS
  have hRv := hR v (List.mem_cons_self v r)
  have hvT : ∀ p, v ∉ st.Tv.getD p [] := hRv.1
  have hvU : v ∉ unew := hRv.2.1
  have hvn : v < st.n := hRv.2.2.1
  have hvD : st.Dist.getD v 0 = (i : Int) := hRv.2.2.2
  have hRr : ∀ x ∈ r, (∀ p, x ∉ st.Tv.getD p []) ∧ x ∉ unew ∧ x < st.n ∧
      st.Dist.getD x 0 = (i : Int) :=
    fun x hx => hR x (List.mem_cons_of_mem v hx)
  have hvtl : v < st.Tv.length := by
    rw [hSI.hTlen]
    exact hvn
  simp only [phaseStep] at h
  split at h
  · exact absurd h (by simp)
  · rename_i sc hnw
    split at h
    · -- exhausted scan: reset, move v and its children to U_new
      simp only [Option.some.injEq] at h
      subst h
      refine ⟨?_, ?_, ?_, ?_, ?_, ?_⟩
      · refine ⟨hSI.hDlen, hSI.hPlen, ?_, hSI.hIlen, hSI.hW, hSI.hV,
          ?_, ?_⟩
        · show (st.Tv.set v []).length = st.n
          rw [List.length_set]
          exact hSI.hTlen
        · intro p c hc
          show c < st.n ∧ st.Dist.getD c 0 ≤ st.Dist.getD p 0 + 1
          have hc2 : c ∈ (st.Tv.set v []).getD p [] := hc
          rw [gset_getD] at hc2
          by_cases hpe : p = v
          · rw [if_pos ⟨hpe, hvtl⟩] at hc2
            exact absurd hc2 (List.not_mem_nil c)
          · rw [if_neg (fun hco => hpe hco.1)] at hc2
            exact hSI.hB p c hc2
        · intro p c hc
          show st.Parent.getD c 0 = Int.ofNat p
          have hc2 : c ∈ (st.Tv.set v []).getD p [] := hc
          rw [gset_getD] at hc2
          by_cases hpe : p = v
          · rw [if_pos ⟨hpe, hvtl⟩] at hc2
            exact absurd hc2 (List.not_mem_nil c)
          · rw [if_neg (fun hco => hpe hco.1)] at hc2
            exact hSI.hPar p c hc2
      · intro c p hc hm
        have hm2 : c ∈ (st.Tv.set v []).getD p [] := hm
        rw [gset_getD] at hm2
        by_cases hpe : p = v
        · rw [if_pos ⟨hpe, hvtl⟩] at hm2
          exact absurd hm2 (List.not_mem_nil c)
        · rw [if_neg (fun hco => hpe hco.1)] at hm2
          exact hE c p hc hm2
      · intro x hx
        show x < st.n ∧ st.Dist.getD x 0 ≤ (i : Int) + 1
        have hx2 := (uFold_mem _ _ x).mp hx
        rcases hx2 with hx2 | hx2
        · have := hSI.hB v x hx2
          refine ⟨this.1, ?_⟩
          have := this.2
          omega
        · rcases uInsert_mem.mp hx2 with hx3 | hx3
          · rw [hx3]
            exact ⟨hvn, by omega⟩
          · exact hUD x hx3
      · intro x hx p hm
        have hm2 : x ∈ (st.Tv.set v []).getD p [] := hm
        rw [gset_getD] at hm2
        by_cases hpe : p = v
        · rw [if_pos ⟨hpe, hvtl⟩] at hm2
          exact absurd hm2 (List.not_mem_nil x)
        · rw [if_neg (fun hco => hpe hco.1)] at hm2
          have hx2 := (uFold_mem _ _ x).mp hx
          rcases hx2 with hx2 | hx2
          · have h1 := hSI.hPar v x hx2
            have h2 := hSI.hPar p x hm2
            rw [h1] at h2
            exact hpe (Int.ofNat.inj h2).symm
          · rcases uInsert_mem.mp hx2 with hx3 | hx3
            · rw [hx3] at hm2
              exact hvT p hm2
            · exact hUT x hx3 p hm2
      · exact uFold_pairwise _ _ (uInsert_pairwise hUS)
      · intro x hx
        have hxr := hRr x hx
        have hxv := hrnd x hx
        refine ⟨?_, ?_, hxr.2.2.1, hxr.2.2.2⟩
        · intro p hm
          have hm2 : x ∈ (st.Tv.set v []).getD p [] := hm
          rw [gset_getD] at hm2
          by_cases hpe : p = v
          · rw [if_pos ⟨hpe, hvtl⟩] at hm2
            exact absurd hm2 (List.not_mem_nil x)
          · rw [if_neg (fun hco => hpe hco.1)] at hm2
            exact hxr.1 p hm2
        · intro hm
          have hm2 := (uFold_mem _ _ x).mp hm
          rcases hm2 with hm2 | hm2
          · exact hxr.1 v hm2
          · rcases uInsert_mem.mp hm2 with hm3 | hm3
            · exact hxv hm3
            · exact hxr.2.1 hm3
    · rename_i hsc
      split at h
      · exact absurd h (by simp)
      · rename_i w hq
        simp only [Option.some.injEq] at h
        subst h
        have hwf := hSI.hW v hvn
        obtain ⟨hj1, hj2, val, hqval, hfval⟩ := PS.nextWith_found hwf hnw hsc
        have hq2 : PS.queryPS st.n (st.InPS.getD v PS.NTree.nil)
            (sc : Int) = some w := hq
        rw [hqval] at hq2
        have hwval : w = val := by
          have := hq2
          simp only [Option.some.injEq] at this
          exact this.symm
        subst hwval
        simp only [pred0, Bool.and_eq_true, beq_iff_eq] at hfval
        have hdeq : st.Dist.getD w.toNat 0 = st.Dist.getD v 0 - 1 :=
          hfval.1
        have hmem := PS.queryPS_mem_elems hwf hqval
        have hrange := hSI.hV v hvn w hmem
        have hw0 : 0 ≤ w := hrange.1
        have hwn : w.toNat < st.n := by omega
        have hofN : Int.ofNat w.toNat = w := Int.toNat_of_nonneg hw0
        have hwtl : w.toNat < st.Tv.length := by
          rw [hSI.hTlen]
          exact hwn
        have hptl : v < st.Parent.length := by
          rw [hSI.hPlen]
          exact hvn
        refine ⟨?_, ?_, ?_, ?_, hUS, ?_⟩
        · refine ⟨hSI.hDlen, ?_, ?_, hSI.hIlen, hSI.hW, hSI.hV, ?_, ?_⟩
          · show (st.Parent.set v w).length = st.n
            rw [List.length_set]
            exact hSI.hPlen
          · show (st.Tv.set w.toNat (st.Tv.getD w.toNat [] ++ [v])).length
              = st.n
            rw [List.length_set]
            exact hSI.hTlen
          · intro p c hc
            show c < st.n ∧ st.Dist.getD c 0 ≤ st.Dist.getD p 0 + 1
            have hc2 : c ∈ (st.Tv.set w.toNat
                (st.Tv.getD w.toNat [] ++ [v])).getD p [] := hc
            rw [gset_getD] at hc2
            by_cases hpe : p = w.toNat
            · rw [if_pos ⟨hpe, hwtl⟩] at hc2
              rcases List.mem_append.mp hc2 with hc3 | hc3
              · have := hSI.hB w.toNat c hc3
                rw [hpe]
                exact this
              · rw [List.mem_singleton] at hc3
                rw [hc3, hpe]
                refine ⟨hvn, ?_⟩
                omega
            · rw [if_neg (fun hco => hpe hco.1)] at hc2
              exact hSI.hB p c hc2
          · intro p c hc
            show (st.Parent.set v w).getD c 0 = Int.ofNat p
            have hc2 : c ∈ (st.Tv.set w.toNat
                (st.Tv.getD w.toNat [] ++ [v])).getD p [] := hc
            rw [gset_getD] at hc2
            by_cases hpe : p = w.toNat
            · rw [if_pos ⟨hpe, hwtl⟩] at hc2
              rcases List.mem_append.mp hc2 with hc3 | hc3
              · have hcv : c ≠ v := by
                  intro hcon
                  rw [hcon] at hc3
                  exact hvT w.toNat hc3
                rw [gset_ne hcv, hpe]
                exact hSI.hPar w.toNat c hc3
              · rw [List.mem_singleton] at hc3
                rw [hc3, gset_self hptl, hpe]
                exact hofN.symm
            · rw [if_neg (fun hco => hpe hco.1)] at hc2
              have hcv : c ≠ v := by
                intro hcon
                rw [hcon] at hc2
                exact hvT p hc2
              rw [gset_ne hcv]
              exact hSI.hPar p c hc2
        · intro c p hc hm
          have hm2 : c ∈ (st.Tv.set w.toNat
              (st.Tv.getD w.toNat [] ++ [v])).getD p [] := hm
          rw [gset_getD] at hm2
          by_cases hpe : p = w.toNat
          · rw [if_pos ⟨hpe, hwtl⟩] at hm2
            rcases List.mem_append.mp hm2 with hc3 | hc3
            · exact hE c w.toNat hc hc3
            · rw [List.mem_singleton] at hc3
              rw [hc3, hvD]
          · rw [if_neg (fun hco => hpe hco.1)] at hm2
            exact hE c p hc hm2
        · exact hUD
        · intro x hx p hm
          have hm2 : x ∈ (st.Tv.set w.toNat
              (st.Tv.getD w.toNat [] ++ [v])).getD p [] := hm
          rw [gset_getD] at hm2
          by_cases hpe : p = w.toNat
          · rw [if_pos ⟨hpe, hwtl⟩] at hm2
            rcases List.mem_append.mp hm2 with hc3 | hc3
            · exact hUT x hx w.toNat hc3
            · rw [List.mem_singleton] at hc3
              rw [hc3] at hx
              exact hvU hx
          · rw [if_neg (fun hco => hpe hco.1)] at hm2
            exact hUT x hx p hm2
        · intro x hx
          have hxr := hRr x hx
          have hxv := hrnd x hx
          refine ⟨?_, hxr.2.1, hxr.2.2.1, hxr.2.2.2⟩
          intro p hm
          have hm2 : x ∈ (st.Tv.set w.toNat
              (st.Tv.getD w.toNat [] ++ [v])).getD p [] := hm
          rw [gset_getD] at hm2
          by_cases hpe : p = w.toNat
          · rw [if_pos ⟨hpe, hwtl⟩] at hm2
            rcases List.mem_append.mp hm2 with hc3 | hc3
            · exact hxr.1 w.toNat hc3
            · rw [List.mem_singleton] at hc3
              exact hxv hc3
          · rw [if_neg (fun hco => hpe hco.1)] at hm2
            exact hxr.1 p hm2

theorem phase_fold_inv {i : Nat} {pd : List Bool} :
    ∀ (u : List Nat) (acc acc' : St × List Nat),
      PhFold i pd u acc →
      List.Pairwise (· < ·) u →
      u.foldlM phaseStep acc = some acc' →
      PhFold i pd [] acc' := by
  intro u
  induction u with
  | nil =>
    intro acc acc' hinv _ h
    simp only [List.foldlM_nil, Option.pure_def, Option.some.injEq] at h
    rw [← h]
    exact hinv
  | cons v vs ih =>
    intro acc acc' hinv hnd h
    rw [List.foldlM_cons] at h
    rcases hstep : phaseStep acc v with _ | acc1
    · rw [hstep] at h
      exact absurd h (by simp)
    · rw [hstep] at h
      simp only [Option.bind_eq_bind, Option.some_bind] at h
      rw [List.pairwise_cons] at hnd
      have hrnd : ∀ x ∈ vs, x ≠ v := by
        intro x hx
        have := hnd.1 x hx
        omega
      exact ih acc1 acc' (phaseStep_inv2 hinv hrnd hstep) hnd.2 h

end DS

namespace DS

/-- Invariant at the start of phase `i`: the state invariant, flagged
tree members at distance at most `i`, and `U` a sorted set of in-range
vertices at recorded distance exactly `i`, disjoint from the tree. -/
def PhInv (i : Nat) (acc : St × List Bool × List Nat) : Prop :=
  StInv acc.1 ∧
  (∀ c p, acc.2.1.getD c false = true → c ∈ acc.1.Tv.getD p [] →
    acc.1.Dist.getD c 0 ≤ (i : Int)) ∧
  (∀ x ∈ acc.2.2, x < acc.1.n ∧ acc.1.Dist.getD x 0 = (i : Int)) ∧
  (∀ x ∈ acc.2.2, ∀ p, x ∉ acc.1.Tv.getD p []) ∧
  List.Pairwise (· < ·) acc.2.2

theorem phase_inv {i : Nat} {acc acc' : St × List Bool × List Nat}
    (hinv : PhInv i acc) (h : phase acc i = some acc') :
    PhInv (i+1) acc' ∧
      ∀ x : Nat, acc.1.Dist.getD x 0 ≤ acc'.1.Dist.getD x 0 := by
  obtain ⟨st, pd, u⟩ := acc
  obtain ⟨hSI, hE, hU, hUT, hUS⟩ := hinv
  have hSI : StInv st := hSI
  have hE : ∀ c p, pd.getD c false = true → c ∈ st.Tv.getD p [] →
      st.Dist.getD c 0 ≤ (i : Int) := hE
  have hU : ∀ x ∈ u, x < st.n ∧ st.Dist.getD x 0 = (i : Int) := hU
  have hUT : ∀ x ∈ u, ∀ p, x ∉ st.Tv.getD p [] := hUT
  have hUS : List.Pairwise (· < ·) u := hUS
  simp only [phase] at h
  split at h
  · exact absurd h (by simp)
  · rename_i st1 unew hfold
    simp only [Option.some.injEq] at h
    have hfold0 : PhFold i pd u (st, []) := by
      refine ⟨hSI, hE, ?_, ?_, List.Pairwise.nil, ?_⟩
      · intro x hx
        exact absurd hx (List.not_mem_nil x)
      · intro x hx
        exact absurd hx (List.not_mem_nil x)
      · intro x hx
        exact ⟨hUT x hx, List.not_mem_nil x, (hU x hx).1, (hU x hx).2⟩
    obtain ⟨hSI1, hE1, hUD1, hUT1, hUS1, _⟩ :=
      phase_fold_inv u (st, []) (st1, unew) hfold0 hUS hfold
    have hSI1 : StInv st1 := hSI1
    have hE1 : ∀ c p, pd.getD c false = true → c ∈ st1.Tv.getD p [] →
        st1.Dist.getD c 0 ≤ (i : Int) := hE1
    have hUD1 : ∀ x ∈ unew, x < st1.n ∧ st1.Dist.getD x 0 ≤ (i : Int) + 1 :=
      hUD1
    have hUT1 : ∀ x ∈ unew, ∀ p, x ∉ st1.Tv.getD p [] := hUT1
    have hUS1 : List.Pairwise (· < ·) unew := hUS1
    have hseed : ∀ z, z ∈ seed st1 pd i unew ↔
        ((z ∈ List.range st1.n ∧
          ((st1.Dist.getD z 0 == (i : Int) + 1) = true ∧
            pd.getD z false = true)) ∨ z ∈ unew) := by
      intro z
      unfold seed
      exact seedFold_mem _ (List.range st1.n) unew z
    have hseedS : List.Pairwise (· < ·) (seed st1 pd i unew) := by
      unfold seed
      exact seedFold_pairwise _ (List.range st1.n) unew hUS1
    have hU1 : ∀ x ∈ seed st1 pd i unew,
        x < st1.n ∧ st1.Dist.getD x 0 ≤ (i : Int) + 1 := by
      intro x hx
      rcases (hseed x).mp hx with ⟨hxr, hxd, _⟩ | hx2
      · rw [beq_iff_eq] at hxd
        exact ⟨List.mem_range.mp hxr, by omega⟩
      · exact hUD1 x hx2
    have hU1T : ∀ x ∈ seed st1 pd i unew, ∀ p, x ∉ st1.Tv.getD p [] := by
      intro x hx p hm
      rcases (hseed x).mp hx with ⟨hxr, hxd, hxp⟩ | hx2
      · rw [beq_iff_eq] at hxd
        have := hE1 x p hxp hm
        omega
      · exact hUT1 x hx2 p hm
    have hmono : ∀ x : Nat, st1.Dist.getD x 0 ≤
        ((seed st1 pd i unew).foldl
          (fun d v => d.set v ((i : Int) + 1)) st1.Dist).getD x 0 := by
      intro x
      rw [distFold_getD]
      split
      · rename_i hc
        have := (hU1 x hc.1).2
        omega
      · exact le_refl _
    rw [← h]
    refine ⟨⟨?_, ?_, ?_, ?_, hseedS⟩, ?_⟩
    · -- StInv of the phase result
      refine ⟨?_, hSI1.hPlen, hSI1.hTlen, hSI1.hIlen, hSI1.hW, hSI1.hV,
        ?_, hSI1.hPar⟩
      · show ((seed st1 pd i unew).foldl
            (fun d v => d.set v ((i : Int) + 1)) st1.Dist).length = st1.n
        rw [distFold_length]
        exact hSI1.hDlen
      · intro p c hc
        show c < st1.n ∧
          ((seed st1 pd i unew).foldl
            (fun d v => d.set v ((i : Int) + 1)) st1.Dist).getD c 0 ≤
          ((seed st1 pd i unew).foldl
            (fun d v => d.set v ((i : Int) + 1)) st1.Dist).getD p 0 + 1
        have hcb := hSI1.hB p c hc
        refine ⟨hcb.1, ?_⟩
        have hcu : c ∉ seed st1 pd i unew := by
          intro hcon
          exact hU1T c hcon p hc
        have hc2 : ((seed st1 pd i unew).foldl
            (fun d v => d.set v ((i : Int) + 1)) st1.Dist).getD c 0 =
            st1.Dist.getD c 0 := by
          rw [distFold_getD, if_neg (fun hco => hcu hco.1)]
        rw [hc2]
        have := hmono p
        omega
    · intro c p hc hm
      have hcu : c ∉ seed st1 pd i unew := by
        intro hcon
        exact hU1T c hcon p hm
      have hc2 : ((seed st1 pd i unew).foldl
          (fun d v => d.set v ((i : Int) + 1)) st1.Dist).getD c 0 =
          st1.Dist.getD c 0 := by
        rw [distFold_getD, if_neg (fun hco => hcu hco.1)]
      show ((seed st1 pd i unew).foldl
          (fun d v => d.set v ((i : Int) + 1)) st1.Dist).getD c 0 ≤
        ((i + 1 : Nat) : Int)
      rw [hc2]
      have := hE1 c p hc hm
      push_cast
      omega
    · intro x hx
      have hx1 := hU1 x hx
      refine ⟨hx1.1, ?_⟩
      show ((seed st1 pd i unew).foldl
          (fun d v => d.set v ((i : Int) + 1)) st1.Dist).getD x 0 =
        ((i + 1 : Nat) : Int)
      rw [distFold_getD, if_pos ⟨hx, by rw [hSI1.hDlen]; exact hx1.1⟩]
      push_cast
      rfl
    · exact hU1T
    · intro x
      have hd1 : st1.Dist = st.Dist :=
        (phaseStep_fold_pres u (st, []) (st1, unew) hfold).2.2.2.2
      show st.Dist.getD x 0 ≤ _
      rw [← hd1]
      exact hmono x

theorem phase_range_inv :
    ∀ (len i0 : Nat) (acc acc' : St × List Bool × List Nat),
      PhInv i0 acc →
      (List.range' i0 len).foldlM phase acc = some acc' →
      StInv acc'.1 ∧
        ∀ x : Nat, acc.1.Dist.getD x 0 ≤ acc'.1.Dist.getD x 0 := by
  intro len
  induction len with
  | zero =>
    intro i0 acc acc' hinv h
    simp only [List.range', List.foldlM_nil, Option.pure_def,
      Option.some.injEq] at h
    rw [← h]
    exact ⟨hinv.1, fun x => le_refl _⟩
  | succ m ih =>
    intro i0 acc acc' hinv h
    rw [List.range'_succ, List.foldlM_cons] at h
    rcases hp : phase acc i0 with _ | acc1
    · rw [hp] at h
      exact absurd h (by simp)
    · rw [hp] at h
      simp only [Option.bind_eq_bind, Option.some_bind] at h
      obtain ⟨hinv1, hmono1⟩ := phase_inv hinv hp
      obtain ⟨hSI2, hmono2⟩ := ih (i0+1) acc1 acc' hinv1 h
      exact ⟨hSI2, fun x => le_trans (hmono1 x) (hmono2 x)⟩

end DS

namespace DS

/-- On a state satisfying the invariant, a successful `batchDelete`
preserves the invariant and never decreases any recorded distance. -/
theorem batchDelete_mono_of_inv {st st' : St} {D : List (Int × Int)}
    (hinv : StInv st) (h : batchDelete st D = some st') :
    StInv st' ∧ ∀ x : Nat, st.Dist.getD x 0 ≤ st'.Dist.getD x 0 := by
  simp only [batchDelete] at h
  rcases hP : D.foldl pass1Step (st, List.replicate st.n false, [])
    with ⟨stp, pdp, tep⟩
  rw [hP] at h
  have h1 : P1Inv st (st, List.replicate st.n false, []) := by
    refine ⟨rfl, hinv, ?_, ?_, ?_, List.nodup_nil⟩
    · show (List.replicate st.n false).length = st.n
      exact List.length_replicate st.n false
    · intro c hc
      rw [getD_replicate_false] at hc
      exact absurd hc (by simp)
    · intro e he
      exact absurd he (List.not_mem_nil e)
  have h2 := pass1_fold_inv D (st, List.replicate st.n false, []) h1
  rw [hP] at h2
  obtain ⟨hDf1, hSI1, hpdl1, hPD1, hTE1, hND1⟩ := h2
  have hDf1 : stp.Dist = st.Dist := hDf1
  have hSI1 : StInv stp := hSI1
  have hpdl1 : pdp.length = stp.n := hpdl1
  have hPD1 : ∀ c, pdp.getD c false = true → ∀ p, c ∉ stp.Tv.getD p [] := hPD1
  have hTE1 : ∀ e ∈ tep, e.2 < stp.n ∧ pdp.getD e.2 false = true ∧
      stp.Parent.getD e.2 0 = -1 := hTE1
  have hND1 : (tep.map (fun e => e.2)).Nodup := hND1
  rcases hp2 : tep.foldlM pass2Step (stp, pdp) with _ | acc2
  · rw [hp2] at h
    exact absurd h (by simp)
  · rw [hp2] at h
    obtain ⟨st2, pd2⟩ := acc2
    simp only at h
    have h3 : P2Inv st (stp, pdp) := ⟨hDf1, hSI1, hpdl1, hPD1⟩
    have h4 := pass2_fold_inv tep (stp, pdp) (st2, pd2) h3
      (fun e he => ⟨(hTE1 e he).1, (hTE1 e he).2.1⟩) hND1 hp2
    obtain ⟨hDf2, hSI2, hpdl2, hPD2⟩ := h4
    have hDf2 : st2.Dist = st.Dist := hDf2
    have hSI2 : StInv st2 := hSI2
    have hPD2 : ∀ c, pd2.getD c false = true → ∀ p, c ∉ st2.Tv.getD p [] :=
      hPD2
    rcases hp3 : (List.range (st2.L + 1)).foldlM phase (st2, pd2, ([] : List Nat))
      with _ | acc3
    · rw [hp3] at h
      exact absurd h (by simp)
    · rw [hp3] at h
      obtain ⟨st3, pd3, u3⟩ := acc3
      simp only [Option.some.injEq] at h
      have h5 : PhInv 0 (st2, pd2, ([] : List Nat)) := by
        refine ⟨hSI2, ?_, ?_, ?_, List.Pairwise.nil⟩
        · intro c p hc hm
          exact absurd hm (hPD2 c hc p)
        · intro x hx
          exact absurd hx (List.not_mem_nil x)
        · intro x hx
          exact absurd hx (List.not_mem_nil x)
      rw [List.range_eq_range'] at hp3
      have h6 := phase_range_inv (st2.L + 1) 0 (st2, pd2, ([] : List Nat))
        (st3, pd3, u3) h5 hp3
      obtain ⟨hSI3, hmono3⟩ := h6
      rw [← h]
      refine ⟨hSI3, ?_⟩
      intro x
      have := hmono3 x
      rw [hDf2] at this
      exact this

end DS

namespace BFS

theorem bfsLoop_length {adj : List (List Nat)} :
    ∀ (steps i : Nat) (dist curr : List Nat),
      (bfsLoop adj steps i dist curr).length = dist.length := by
  intro steps
  induction steps with
  | zero => intro i dist curr; rfl
  | succ m ih =>
    intro i dist curr
    simp only [bfsLoop]
    split
    · rfl
    · rw [ih]
      exact (expand_spec curr).1

theorem bfs_array_length {adj : List (List Nat)} {s L : Nat} :
    (bfs_array adj s L).length = adj.length := by
  simp only [bfs_array]
  rw [bfsLoop_length, List.length_set, List.length_replicate]

end BFS

namespace DS

theorem getD_replicate {α : Type} {n v : Nat} {a d : α} :
    (List.replicate n a).getD v d = if v < n then a else d := by
  unfold List.getD
  rw [List.get?_eq_getElem?, List.getElem?_replicate]
  split
  · rfl
  · rfl

theorem getD_replicate_nil {n v : Nat} :
    (List.replicate n ([] : List Nat)).getD v [] = [] := by
  rw [getD_replicate]
  split
  · rfl
  · rfl

/-- Inner loop of the in-adjacency construction: push `u` onto the list
of every target in `ws`. -/
theorem adjInv_inner {u : Nat} {acc0 : List (List Nat)}
    (hlt : ∀ v x, x ∈ acc0.getD v [] → x < u) :
    ∀ (ws : List Nat) (acc : List (List Nat)),
      ws.Nodup →
      (∀ v, List.Pairwise (· < ·) (acc.getD v [])) →
      (∀ v x, x ∈ acc.getD v [] → x = u ∨ x ∈ acc0.getD v []) →
      (∀ w ∈ ws, acc.getD w [] = acc0.getD w []) →
      (∀ v, List.Pairwise (· < ·)
        ((ws.foldl (fun a w => a.set w (a.getD w [] ++ [u])) acc).getD v []))
      ∧ (∀ v x,
          x ∈ (ws.foldl (fun a w => a.set w (a.getD w [] ++ [u])) acc).getD
            v [] → x = u ∨ x ∈ acc0.getD v []) := by
  intro ws
  induction ws with
  | nil =>
    intro acc _ hpw hmem _
    exact ⟨hpw, hmem⟩
  | cons w ws ih =>
    intro acc hnd hpw hmem hslot
    rw [List.nodup_cons] at hnd
    simp only [List.foldl_cons]
    have hsw := hslot w (List.mem_cons_self w ws)
    apply ih
    · exact hnd.2
    · intro v
      rw [gset_getD]
      by_cases hv : v = w ∧ w < acc.length
      · rw [if_pos hv]
        rw [hsw]
        rw [List.pairwise_append]
        refine ⟨?_, List.pairwise_singleton _ _, ?_⟩
        · have := hpw w
          rw [hsw] at this
          exact this
        · intro a ha b hb
          rw [List.mem_singleton] at hb
          rw [hb]
          exact hlt w a ha
      · rw [if_neg hv]
        exact hpw v
    · intro v x hx
      rw [gset_getD] at hx
      by_cases hv : v = w ∧ w < acc.length
      · rw [if_pos hv] at hx
        rcases List.mem_append.mp hx with hx | hx
        · rw [hsw] at hx
          rw [hv.1]
          exact Or.inr hx
        · rw [List.mem_singleton] at hx
          exact Or.inl hx
      · rw [if_neg hv] at hx
        exact hmem v x hx
    · intro w2 hw2
      rw [gset_getD]
      rw [if_neg ?_]
      · exact hslot w2 (List.mem_cons_of_mem w hw2)
      · intro hco
        exact hnd.1 (hco.1 ▸ hw2)

/-- Outer loop of the in-adjacency construction: sources are processed in
increasing order, so every in-list stays strictly sorted and bounded. -/
theorem adjInv_outer {adj : List (List Nat)} {B : Nat} :
    ∀ (us : List Nat) (acc : List (List Nat)),
      List.Pairwise (· < ·) us →
      (∀ u ∈ us, u < B ∧ (adj.getD u []).Nodup) →
      (∀ v, List.Pairwise (· < ·) (acc.getD v [])) →
      (∀ v x, x ∈ acc.getD v [] → x < B ∧ ∀ u ∈ us, x < u) →
      (∀ v, List.Pairwise (· < ·)
        ((us.foldl (fun acc2 u => (adj.getD u []).foldl
          (fun a w => a.set w (a.getD w [] ++ [u])) acc2) acc).getD v []))
      ∧ (∀ v x,
          x ∈ (us.foldl (fun acc2 u => (adj.getD u []).foldl
            (fun a w => a.set w (a.getD w [] ++ [u])) acc2) acc).getD v [] →
          x < B) := by
  intro us
  induction us with
  | nil =>
    intro acc _ _ hpw hbd
    exact ⟨hpw, fun v x hx => (hbd v x hx).1⟩
  | cons u us ih =>
    intro acc hus hub hpw hbd
    rw [List.pairwise_cons] at hus
    simp only [List.foldl_cons]
    have hinner := adjInv_inner
      (fun v x hx => (hbd v x hx).2 u (List.mem_cons_self u us))
      (adj.getD u []) acc (hub u (List.mem_cons_self u us)).2 hpw
      (fun v x hx => Or.inr hx) (fun w _ => rfl)
    apply ih
    · exact hus.2
    · intro u2 hu2
      exact hub u2 (List.mem_cons_of_mem u hu2)
    · exact hinner.1
    · intro v x hx
      rcases hinner.2 v x hx with hx2 | hx2
      · rw [hx2]
        refine ⟨(hub u (List.mem_cons_self u us)).1, ?_⟩
        intro u2 hu2
        exact hus.1 u2 hu2
      · have := hbd v x hx2
        exact ⟨this.1, fun u2 hu2 => this.2 u2 (List.mem_cons_of_mem u hu2)⟩

theorem adjInv_facts {adj : List (List Nat)}
    (hnd : ∀ u, u < adj.length → (adj.getD u []).Nodup) :
    ∀ v, List.Pairwise (· < ·) ((adjInv adj).getD v []) ∧
      ∀ x ∈ (adjInv adj).getD v [], x < adj.length := by
  intro v
  simp only [adjInv]
  have hpw0 : ∀ v2, List.Pairwise (· < ·)
      ((List.replicate adj.length ([] : List Nat)).getD v2 []) := by
    intro v2
    rw [getD_replicate_nil]
    exact List.Pairwise.nil
  have hbd0 : ∀ v2 x,
      x ∈ (List.replicate adj.length ([] : List Nat)).getD v2 [] →
      x < adj.length ∧ ∀ u ∈ List.range adj.length, x < u := by
    intro v2 x hx
    rw [getD_replicate_nil] at hx
    exact absurd hx (List.not_mem_nil x)
  have h := adjInv_outer (List.range adj.length)
    (List.replicate adj.length []) (List.pairwise_lt_range adj.length)
    (fun u hu => ⟨List.mem_range.mp hu, hnd u (List.mem_range.mp hu)⟩)
    hpw0 hbd0
  exact ⟨h.1 v, h.2 v⟩

end DS

namespace DS

/-- The loop body of `initScanAndTree`, named for the lemmas below; it is
definitionally the function folded by `initScanAndTree`. -/
def istStep (n L : Nat) (dist : List Int) (inPS : List PS.NTree)
    (alive : List Nat)
    (acc : List Nat × List Int × List (List Nat)) (v : Nat) :
    Option (List Nat × List Int × List (List Nat)) :=
  let (scan, parent, tv) := acc
  let d := dist.getD v 0
  if d = 0 ∨ d > (L : Int) then some acc
  else
    let t := inPS.getD v PS.NTree.nil
    let f := fun (w : Int) =>
      decide (0 ≤ w) && decide (w < (n : Int)) && pred0 dist alive v w
    match PS.nextWith n t 1 f with
    | none => none
    | some pos =>
      let sz := PS.sizePS t
      if 1 ≤ pos ∧ pos ≤ sz then
        match PS.queryPS n t (pos : Int) with
        | none => none
        | some w =>
          some (scan.set v pos, parent.set v w,
            tv.set w.toNat (tv.getD w.toNat [] ++ [v]))
      else
        some (scan.set v (sz + 1), parent.set v (-1), tv)

theorem initScanAndTree_eq {n L : Nat} {dist : List Int}
    {inPS : List PS.NTree} {alive : List Nat} :
    initScanAndTree n L dist inPS alive =
      (List.range n).foldlM (istStep n L dist inPS alive)
        (List.replicate n 0, List.replicate n (-1), List.replicate n []) :=
  rfl

theorem istStep_inv {n L : Nat} {dist : List Int} {inPS : List PS.NTree}
    {alive : List Nat}
    (hW : ∀ v2, v2 < n → PS.wfT (inPS.getD v2 PS.NTree.nil) 1 n = true)
    {acc res : List Nat × List Int × List (List Nat)} {v : Nat}
    (hv : v < n)
    (hpl : acc.2.1.length = n) (htl : acc.2.2.length = n)
    (hB : ∀ p c, c ∈ acc.2.2.getD p [] → c < v ∧
      dist.getD c 0 ≤ dist.getD p 0 + 1)
    (hPar : ∀ p c, c ∈ acc.2.2.getD p [] → acc.2.1.getD c 0 = Int.ofNat p)
    (h : istStep n L dist inPS alive acc v = some res) :
    res.2.1.length = n ∧ res.2.2.length = n ∧
    (∀ p c, c ∈ res.2.2.getD p [] → c < v + 1 ∧
      dist.getD c 0 ≤ dist.getD p 0 + 1) ∧
    (∀ p c, c ∈ res.2.2.getD p [] → res.2.1.getD c 0 = Int.ofNat p) := by
  obtain ⟨scan, parent, tv⟩ := acc
  have hpl : parent.length = n := hpl
  have htl : tv.length = n := htl
  have hB : ∀ p c, c ∈ tv.getD p [] → c < v ∧
      dist.getD c 0 ≤ dist.getD p 0 + 1 := hB
  have hPar : ∀ p c, c ∈ tv.getD p [] → parent.getD c 0 = Int.ofNat p := hPar
  simp only [istStep] at h
  split at h
  · simp only [Option.some.injEq] at h
    rw [← h]
    exact ⟨hpl, htl,
      fun p c hc => ⟨by have := (hB p c hc).1; omega, (hB p c hc).2⟩, hPar⟩
  · split at h
    · exact absurd h (by simp)
    · rename_i pos hnw
      split at h
      · rename_i hcond
        split at h
        · exact absurd h (by simp)
        · rename_i w hq
          simp only [Option.some.injEq] at h
          rw [← h]
          have hwf := hW v hv
          have hne : pos ≠ PS.sizePS (inPS.getD v PS.NTree.nil) + 1 := by
            omega
          obtain ⟨hj1, hj2, val, hqval, hfval⟩ :=
            PS.nextWith_found hwf hnw hne
          have hq2 : PS.queryPS n (inPS.getD v PS.NTree.nil)
              (pos : Int) = some w := hq
          rw [hqval] at hq2
          have hwval : w = val := by
            have := hq2
            simp only [Option.some.injEq] at this
            exact this.symm
          subst hwval
          simp only [Bool.and_eq_true, decide_eq_true_eq] at hfval
          obtain ⟨⟨hw0, hwn⟩, hpred⟩ := hfval
          simp only [pred0, Bool.and_eq_true, beq_iff_eq] at hpred
          have hdeq : dist.getD w.toNat 0 = dist.getD v 0 - 1 := hpred.1
          have hwtn : w.toNat < n := by omega
          have hofN : Int.ofNat w.toNat = w := Int.toNat_of_nonneg hw0
          have hwtl : w.toNat < tv.length := by
            rw [htl]
            exact hwtn
          have hvpl : v < parent.length := by
            rw [hpl]
            exact hv
          refine ⟨?_, ?_, ?_, ?_⟩
          · show (parent.set v w).length = n
            rw [List.length_set]
            exact hpl
          · show (tv.set w.toNat (tv.getD w.toNat [] ++ [v])).length = n
            rw [List.length_set]
            exact htl
          · intro p c hc
            have hc2 : c ∈ (tv.set w.toNat
                (tv.getD w.toNat [] ++ [v])).getD p [] := hc
            rw [gset_getD] at hc2
            by_cases hpe : p = w.toNat
            · rw [if_pos ⟨hpe, hwtl⟩] at hc2
              rcases List.mem_append.mp hc2 with hc3 | hc3
              · have := hB w.toNat c hc3
                rw [hpe]
                exact ⟨by omega, this.2⟩
              · rw [List.mem_singleton] at hc3
                rw [hc3, hpe]
                exact ⟨by omega, by omega⟩
            · rw [if_neg (fun hco => hpe hco.1)] at hc2
              have := hB p c hc2
              exact ⟨by omega, this.2⟩
          · intro p c hc
            show (parent.set v w).getD c 0 = Int.ofNat p
            have hc2 : c ∈ (tv.set w.toNat
                (tv.getD w.toNat [] ++ [v])).getD p [] := hc
            rw [gset_getD] at hc2
            by_cases hpe : p = w.toNat
            · rw [if_pos ⟨hpe, hwtl⟩] at hc2
              rcases List.mem_append.mp hc2 with hc3 | hc3
              · have hcv : c ≠ v := by
                  have := (hB w.toNat c hc3).1
                  omega
                rw [gset_ne hcv, hpe]
                exact hPar w.toNat c hc3
              · rw [List.mem_singleton] at hc3
                rw [hc3, gset_self hvpl, hpe]
                exact hofN.symm
            · rw [if_neg (fun hco => hpe hco.1)] at hc2
              have hcv : c ≠ v := by
                have := (hB p c hc2).1
                omega
              rw [gset_ne hcv]
              exact hPar p c hc2
      · simp only [Option.some.injEq] at h
        rw [← h]
        refine ⟨?_, htl, ?_, ?_⟩
        · show (parent.set v (-1)).length = n
          rw [List.length_set]
          exact hpl
        · intro p c hc
          have := hB p c hc
          exact ⟨by omega, this.2⟩
        · intro p c hc
          show (parent.set v (-1)).getD c 0 = Int.ofNat p
          have hcv : c ≠ v := by
            have := (hB p c hc).1
            omega
          rw [gset_ne hcv]
          exact hPar p c hc

theorem istFold_inv {n L : Nat} {dist : List Int} {inPS : List PS.NTree}
    {alive : List Nat}
    (hW : ∀ v2, v2 < n → PS.wfT (inPS.getD v2 PS.NTree.nil) 1 n = true) :
    ∀ (len a : Nat) (acc res : List Nat × List Int × List (List Nat)),
      a + len ≤ n →
      acc.2.1.length = n → acc.2.2.length = n →
      (∀ p c, c ∈ acc.2.2.getD p [] → c < a ∧
        dist.getD c 0 ≤ dist.getD p 0 + 1) →
      (∀ p c, c ∈ acc.2.2.getD p [] → acc.2.1.getD c 0 = Int.ofNat p) →
      (List.range' a len).foldlM (istStep n L dist inPS alive) acc
        = some res →
      res.2.1.length = n ∧ res.2.2.length = n ∧
      (∀ p c, c ∈ res.2.2.getD p [] → c < n ∧
        dist.getD c 0 ≤ dist.getD p 0 + 1) ∧
      (∀ p c, c ∈ res.2.2.getD p [] → res.2.1.getD c 0 = Int.ofNat p) := by
  intro len
  induction len with
  | zero =>
    intro a acc res hle hpl htl hB hPar h
    simp only [List.range', List.foldlM_nil, Option.pure_def,
      Option.some.injEq] at h
    rw [← h]
    exact ⟨hpl, htl,
      fun p c hc => ⟨by have := (hB p c hc).1; omega, (hB p c hc).2⟩, hPar⟩
  | succ m ih =>
    intro a acc res hle hpl htl hB hPar h
    rw [List.range'_succ, List.foldlM_cons] at h
    rcases hstep : istStep n L dist inPS alive acc a with _ | acc1
    · rw [hstep] at h
      exact absurd h (by simp)
    · rw [hstep] at h
      simp only [Option.bind_eq_bind, Option.some_bind] at h
      obtain ⟨hpl1, htl1, hB1, hPar1⟩ :=
        istStep_inv hW (by omega) hpl htl hB hPar hstep
      exact ih (a+1) acc1 res (by omega) hpl1 htl1 hB1 hPar1 h

theorem initScanAndTree_inv {n L : Nat} {dist : List Int}
    {inPS : List PS.NTree} {alive : List Nat}
    (hW : ∀ v2, v2 < n → PS.wfT (inPS.getD v2 PS.NTree.nil) 1 n = true)
    {scan : List Nat} {parent : List Int} {tv : List (List Nat)}
    (h : initScanAndTree n L dist inPS alive = some (scan, parent, tv)) :
    parent.length = n ∧ tv.length = n ∧
    (∀ p c, c ∈ tv.getD p [] → c < n ∧
      dist.getD c 0 ≤ dist.getD p 0 + 1) ∧
    (∀ p c, c ∈ tv.getD p [] → parent.getD c 0 = Int.ofNat p) := by
  rw [initScanAndTree_eq, List.range_eq_range'] at h
  have h0 := istFold_inv hW n 0
    (List.replicate n 0, List.replicate n (-1), List.replicate n [])
    (scan, parent, tv) (by omega)
    (List.length_replicate n (-1)) (List.length_replicate n [])
    (fun p c hc => by
      rw [getD_replicate_nil] at hc
      exact absurd hc (List.not_mem_nil c))
    (fun p c hc => by
      rw [getD_replicate_nil] at hc
      exact absurd hc (List.not_mem_nil c))
    h
  exact h0

end DS

namespace DS

theorem inPS_getD {n : Nat} {f : Nat → PS.NTree} {v : Nat} (hv : v < n) :
    ((List.range n).map f).getD v PS.NTree.nil = f v := by
  rw [List.getD_eq_getElem _ _
    (by rw [List.length_map, List.length_range]; exact hv)]
  rw [List.getElem_map]
  congr 1
  exact List.getElem_range _ _

theorem initTAS_tree_wf {n : Nat} {l : List Nat}
    (hpw : List.Pairwise (· < ·) l) (hbd : ∀ x ∈ l, x < n) :
    PS.wfT (PS.initTAS n (l.map (fun u => (Int.ofNat u, u+1)))) 1 n
      = true := by
  apply PS.initTAS_wf
  · rw [List.map_map]
    show (l.map (fun u => u + 1)).Nodup
    have hp2 : List.Pairwise (· < ·) (l.map (fun u => u + 1)) :=
      List.Pairwise.map _ (fun a b hab => by omega) hpw
    exact List.Pairwise.imp (fun hab => Nat.ne_of_lt hab) hp2
  · intro pr hpr
    rw [List.mem_map] at hpr
    obtain ⟨u, hu, hgu⟩ := hpr
    rw [← hgu]
    have := hbd u hu
    constructor
    · omega
    · show u + 1 ≤ n
      omega

theorem initTAS_tree_val {n : Nat} {l : List Nat}
    (hbd : ∀ x ∈ l, x < n) :
    ∀ x ∈ PS.elems n (PS.initTAS n (l.map (fun u => (Int.ofNat u, u+1)))),
      0 ≤ x ∧ x < (n : Int) := by
  intro x hx
  obtain ⟨pr, hpr, hxpr⟩ := PS.initTAS_val_mem hx
  rw [List.mem_map] at hpr
  obtain ⟨u, hu, hgu⟩ := hpr
  rw [← hgu] at hxpr
  have hun := hbd u hu
  have hx2 : x = (u : Int) := hxpr
  omega

/-- The constructor of `DynamicSSSP` establishes the state invariant,
provided every out-adjacency list is duplicate-free. -/
theorem construct_StInv {adj : List (List Nat)} {s L : Nat} {st : St}
    (hnd : ∀ u, u < adj.length → (adj.getD u []).Nodup)
    (h : construct adj s L = some st) : StInv st := by
  simp only [construct] at h
  split at h
  · exact absurd h (by simp)
  · rename_i scan parent tv hist
    simp only [Option.some.injEq] at h
    have hWlist : ∀ v2, v2 < adj.length →
        PS.wfT (((List.range adj.length).map (fun v =>
          PS.initTAS adj.length (((adjInv adj).getD v []).map
            (fun u => (Int.ofNat u, u+1))))).getD v2 PS.NTree.nil) 1
          adj.length = true := by
      intro v2 hv2
      rw [inPS_getD hv2]
      exact initTAS_tree_wf (adjInv_facts hnd v2).1
        (fun x hx => (adjInv_facts hnd v2).2 x hx)
    have hVlist : ∀ v2, v2 < adj.length →
        ∀ x ∈ PS.elems adj.length
          (((List.range adj.length).map (fun v =>
            PS.initTAS adj.length (((adjInv adj).getD v []).map
              (fun u => (Int.ofNat u, u+1))))).getD v2 PS.NTree.nil),
          0 ≤ x ∧ x < (adj.length : Int) := by
      intro v2 hv2
      rw [inPS_getD hv2]
      exact initTAS_tree_val (fun x hx => (adjInv_facts hnd v2).2 x hx)
    obtain ⟨hpl, htl, hB, hPar⟩ := initScanAndTree_inv hWlist hist
    rw [← h]
    refine ⟨?_, hpl, htl, ?_, hWlist, hVlist, hB, hPar⟩
    · show ((BFS.bfs_array adj s L).map (fun d => Int.ofNat d)).length
        = adj.length
      rw [List.length_map]
      exact BFS.bfs_array_length
    · show ((List.range adj.length).map (fun v =>
        PS.initTAS adj.length (((adjInv adj).getD v []).map
          (fun u => (Int.ofNat u, u+1))))).length = adj.length
      rw [List.length_map, List.length_range]

end DS

namespace DS

/-- The stable states of a `DynamicSSSP` object: those reached from the
constructor by a sequence of successful `batchDelete` calls. -/
inductive ReachableSt (adj : List (List Nat)) (s L : Nat) : St → Prop where
  | base {st : St} : construct adj s L = some st → ReachableSt adj s L st
  | step {st st' : St} {D : List (Int × Int)} : ReachableSt adj s L st →
      batchDelete st D = some st' → ReachableSt adj s L st'

theorem reachable_StInv {adj : List (List Nat)} {s L : Nat} {st : St}
    (hnd : ∀ u, u < adj.length → (adj.getD u []).Nodup)
    (hr : ReachableSt adj s L st) : StInv st := by
  induction hr with
  | base h => exact construct_StInv hnd h
  | step hr hb ih => exact (batchDelete_mono_of_inv ih hb).1

end DS

/-- C6.  Under deletions, `Dist(v)` is monotone non-decreasing across
batches: starting from a `DynamicSSSP` constructed on duplicate-free
out-adjacency lists, along every sequence of successful `batchDelete`
calls, no call makes any recorded `Dist(v)` smaller than it was at the
preceding stable state. -/
theorem dist_monotone_across_batches {adj : List (List Nat)} {s L : Nat}
    {st st' : DS.St} {D : List (Int × Int)}
    (hnd : ∀ u, u < adj.length → (adj.getD u []).Nodup)
    (hr : DS.ReachableSt adj s L st)
    (h : DS.batchDelete st D = some st') (v : Nat) :
    st.Dist.getD v 0 ≤ st'.Dist.getD v 0 :=
  (DS.batchDelete_mono_of_inv (DS.reachable_StInv hnd hr) h).2 v

/-- Witness for C6 at a concrete input: the cycle graph, its constructed
state, and the batch `{(0,1),(1,0)}` (under which `Dist(1)` grows from 1
to 4). -/
theorem dist_monotone_across_batches_witness :
    cycleSt.Dist.getD 1 0 ≤ cycleSt1.Dist.getD 1 0 :=
  @dist_monotone_across_batches cycleAdj 0 3 cycleSt cycleSt1
    [(0,1),(1,0)] (by decide) (DS.ReachableSt.base (by decide))
    (by decide) 1

namespace BFS

theorem sdL_le_top {adj : List (List Nat)} {s L v : Nat} :
    sdL adj s L v ≤ L + 1 := by
  unfold sdL
  rcases hf : (List.range (L+1)).find? (fun d => decide (reachIn adj s d v))
    with _ | d
  · simp only
    omega
  · simp only
    have := List.mem_of_find?_eq_some hf
    rw [List.mem_range] at this
    omega

theorem reachIn_zero {adj : List (List Nat)} {s v : Nat} :
    reachIn adj s 0 v ↔ v = s := by
  unfold reachIn stepsFrom
  simp

theorem sdL_self {adj : List (List Nat)} {s L : Nat} :
    sdL adj s L s = 0 := by
  unfold sdL
  rw [List.range_succ_eq_map, List.find?_cons_of_pos _ (by
    simp [reachIn_zero])]

theorem sdL_reach {adj : List (List Nat)} {s L v d : Nat}
    (h : sdL adj s L v = d) (hd : d ≤ L) : reachIn adj s d v := by
  unfold sdL at h
  rcases hf : (List.range (L+1)).find? (fun d => decide (reachIn adj s d v))
    with _ | d2
  · rw [hf] at h
    simp only at h
    omega
  · rw [hf] at h
    simp only at h
    have := List.find?_some hf
    rw [decide_eq_true_eq] at this
    rw [← h]
    exact this

theorem sdL_min {adj : List (List Nat)} {s L v d : Nat}
    (h : sdL adj s L v = d) : ∀ d2, d2 < d → d2 ≤ L →
      ¬ reachIn adj s d2 v := by
  intro d2 hlt hle hr
  unfold sdL at h
  rcases hf : (List.range (L+1)).find? (fun d => decide (reachIn adj s d v))
    with _ | d3
  · have := List.find?_eq_none.mp hf d2 (by rw [List.mem_range]; omega)
    rw [decide_eq_true_eq] at this
    exact this hr
  · rw [hf] at h
    simp only at h
    subst h
    rw [List.range_eq_range'] at hf
    have := (PS.find?_range'_some hf).2.2.2 d2 (by omega) hlt
    rw [decide_eq_false_iff_not] at this
    exact this hr

theorem sdL_le_of_reach {adj : List (List Nat)} {s L v d : Nat}
    (h : reachIn adj s d v) (hd : d ≤ L) : sdL adj s L v ≤ d := by
  obtain ⟨d2, hd2, hm⟩ := reachIn_least h
  rw [sdL_of_minReach hm (by omega)]
  exact hd2

theorem sdL_eq_zero_imp {adj : List (List Nat)} {s L v : Nat}
    (h : sdL adj s L v = 0) : v = s := by
  have := sdL_reach h (Nat.zero_le L)
  exact reachIn_zero.mp this

theorem sdL_triangle {adj : List (List Nat)} {s L u v : Nat}
    (he : v ∈ adj.getD u []) :
    sdL adj s L v ≤ sdL adj s L u + 1 := by
  by_cases hu : sdL adj s L u ≤ L
  · have hru := sdL_reach rfl hu
    have hrv : reachIn adj s (sdL adj s L u + 1) v :=
      reachIn_succ.mpr ⟨u, hru, he⟩
    by_cases hL : sdL adj s L u + 1 ≤ L
    · exact sdL_le_of_reach hrv hL
    · have := @sdL_le_top adj s L v
      omega
  · have := @sdL_le_top adj s L v
    have := @sdL_le_top adj s L u
    omega

theorem sdL_pred {adj : List (List Nat)} {s L v d : Nat}
    (h : sdL adj s L v = d) (h1 : 1 ≤ d) (h2 : d ≤ L) :
    ∃ u, v ∈ adj.getD u [] ∧ sdL adj s L u = d - 1 := by
  have hm : minReach adj s v d := by
    refine ⟨sdL_reach h h2, ?_⟩
    intro d2 hd2
    exact sdL_min h d2 hd2 (by omega)
  match d, h1, hm with
  | d2+1, _, hm =>
    obtain ⟨w, hw, hvw⟩ := minReach_pred hm
    exact ⟨w, hvw, by rw [sdL_of_minReach hw (by omega)]; omega⟩

theorem stepsFrom_mono {adj1 adj2 : List (List Nat)} {s : Nat}
    (hsub : ∀ u, ∀ x ∈ adj2.getD u [], x ∈ adj1.getD u []) :
    ∀ d v, v ∈ stepsFrom adj2 s d → v ∈ stepsFrom adj1 s d := by
  intro d
  induction d with
  | zero => intro v h; exact h
  | succ d2 ih =>
    intro v h
    simp only [stepsFrom, List.mem_dedup, List.mem_flatMap] at h ⊢
    obtain ⟨w, hw, hvw⟩ := h
    exact ⟨w, ih w hw, hsub w v hvw⟩

theorem sdL_anti {adj1 adj2 : List (List Nat)} {s L v : Nat}
    (hsub : ∀ u, ∀ x ∈ adj2.getD u [], x ∈ adj1.getD u []) :
    sdL adj1 s L v ≤ sdL adj2 s L v := by
  by_cases h2 : sdL adj2 s L v ≤ L
  · have := sdL_reach rfl h2
    exact sdL_le_of_reach (stepsFrom_mono hsub _ v this) h2
  · have := @sdL_le_top adj1 s L v
    have := @sdL_le_top adj2 s L v
    omega

end BFS

namespace DS

theorem encodeEdge_inj {u v u2 v2 : Nat} (hv : v < 4294967296)
    (hv2 : v2 < 4294967296) (h : encodeEdge u v = encodeEdge u2 v2) :
    u = u2 ∧ v = v2 := by
  unfold encodeEdge at h
  omega

end DS

namespace PS

/-- Every slice entry's value is stored by `buildFromSorted` (the
completeness converse of `elemsOf_build_val`). -/
theorem elemsOf_build_complete :
    ∀ (fuel : Nat) (items : List (Int × Nat)) (start stop L R : Nat),
      R - L < fuel → L ≤ R → stop ≤ items.length →
      (∀ j k, start ≤ j → j < k → k < stop →
        (items.getD j (0,0)).2 < (items.getD k (0,0)).2) →
      (∀ j, start ≤ j → j < stop →
        L ≤ (items.getD j (0,0)).2 ∧ (items.getD j (0,0)).2 ≤ R) →
      ∀ j, start ≤ j → j < stop →
        (items.getD j (0,0)).1 ∈
          elemsOf (buildFromSortedF fuel items start stop L R) L R := by
  intro fuel
  induction fuel with
  | zero =>
    intro items start stop L R hf
    omega
  | succ f ih =>
    intro items start stop L R hf hLR hlen hsort hrange j hj1 hj2
    simp only [buildFromSortedF]
    rw [if_neg (by omega)]
    by_cases hLReq : L = R
    · rw [if_pos hLReq]
      have hone : stop - start = 1 := by
        by_contra hc
        have h2 : start + 1 < stop := by omega
        have hs := hsort start (start+1) (Nat.le_refl _) (by omega) h2
        have hr1 := hrange start (Nat.le_refl _) (by omega)
        have hr2 := hrange (start+1) (by omega) h2
        omega
      have hjs : j = start := by omega
      simp only [elemsOf, if_pos hLReq]
      rw [if_pos trivial, hjs, List.mem_singleton]
    · rw [if_neg hLReq]
      have hLltR : L < R := by omega
      have hm1 : start ≤ lowerBoundIdx items start stop ((L+R)/2) :=
        lowerBoundIdx_ge
      have hm2 : lowerBoundIdx items start stop ((L+R)/2) ≤ stop := by
        have := @lowerBoundIdx_le items start stop ((L+R)/2)
        omega
      have hspec := @lowerBoundIdx_spec items start stop ((L+R)/2)
        (by omega) hlen (fun a b ha hab hb => hsort a b ha hab hb)
      simp only [elemsOf, if_neg hLReq, List.mem_append]
      by_cases hjm : j < lowerBoundIdx items start stop ((L+R)/2)
      · right
        apply ih items start _ L ((L+R)/2) (by omega) (by omega)
          (by omega) (fun a b ha hab hb => hsort a b ha hab (by omega))
          ?_ j hj1 hjm
        intro a ha1 ha2
        have ha3 : a < stop := by omega
        have := (hspec a ha1 ha3).mp (by omega)
        have := hrange a ha1 ha3
        omega
      · left
        apply ih items _ stop ((L+R)/2 + 1) R (by omega) (by omega) hlen
          (fun a b ha hab hb => hsort a b (by omega) hab hb)
          ?_ j (by omega) hj2
        intro a ha1 ha2
        have ha0 : start ≤ a := by omega
        have hiff := hspec a ha0 ha2
        have := hrange a ha0 ha2
        omega

/-- Every stored element is returned by `query` at some rank. -/
theorem elems_rank {maxP : Nat} {t : NTree} {val : Int}
    (hwf : wfT t 1 maxP = true) (h : val ∈ elems maxP t) :
    ∃ j : Nat, 1 ≤ j ∧ j ≤ sizePS t ∧
      queryPS maxP t (j : Int) = some val := by
  obtain ⟨idx, hidx, hval⟩ := List.mem_iff_getElem.mp h
  have hlen : (elems maxP t).length = sizePS t := elemsOf_length hwf
  refine ⟨idx + 1, by omega, by omega, ?_⟩
  have hq := queryPS_eq (k := ((idx + 1 : Nat) : Int)) hwf (by omega)
    (by omega)
  rw [hq]
  simp only [Int.toNat_natCast]
  rw [show idx + 1 - 1 = idx by omega]
  rw [List.getD_eq_getElem _ _ (by omega), hval]

end PS

namespace DS

theorem usInsert_mem {x y : Nat} {l : List Nat} :
    y ∈ usInsert x l ↔ y = x ∨ y ∈ l := by
  unfold usInsert
  split
  · rename_i hx
    constructor
    · exact Or.inr
    · rintro (h | h)
      · rw [h]
        exact hx
      · exact h
  · rw [List.mem_append, List.mem_singleton]
    tauto

theorem aliveInit_inner {u : Nat} :
    ∀ (ws : List Nat) (acc : List Nat) (k : Nat),
      k ∈ ws.foldl (fun acc2 v => usInsert (encodeEdge u v) acc2) acc ↔
        (∃ v ∈ ws, k = encodeEdge u v) ∨ k ∈ acc := by
  intro ws
  induction ws with
  | nil =>
    intro acc k
    simp
  | cons w ws ih =>
    intro acc k
    simp only [List.foldl_cons]
    rw [ih]
    simp only [usInsert_mem, List.mem_cons]
    constructor
    · rintro (⟨v, hv, hk⟩ | (hk | hk))
      · exact Or.inl ⟨v, Or.inr hv, hk⟩
      · exact Or.inl ⟨w, Or.inl rfl, hk⟩
      · exact Or.inr hk
    · rintro (⟨v, hv | hv, hk⟩ | hk)
      · rw [hv] at hk
        exact Or.inr (Or.inl hk)
      · exact Or.inl ⟨v, hv, hk⟩
      · exact Or.inr (Or.inr hk)

theorem aliveInit_mem {adj : List (List Nat)} {k : Nat} :
    k ∈ aliveInit adj ↔
      ∃ u, u < adj.length ∧ ∃ v ∈ adj.getD u [], k = encodeEdge u v := by
  unfold aliveInit
  have houter : ∀ (us : List Nat) (acc : List Nat),
      k ∈ us.foldl (fun acc2 u =>
        (adj.getD u []).foldl
          (fun acc3 v => usInsert (encodeEdge u v) acc3) acc2) acc ↔
      (∃ u ∈ us, ∃ v ∈ adj.getD u [], k = encodeEdge u v) ∨ k ∈ acc := by
    intro us
    induction us with
    | nil => intro acc; simp
    | cons u us ih =>
      intro acc
      simp only [List.foldl_cons]
      rw [ih, aliveInit_inner]
      constructor
      · rintro (⟨u2, hu2, hv⟩ | (⟨v, hv, hk⟩ | hk))
        · exact Or.inl ⟨u2, List.mem_cons_of_mem u hu2, hv⟩
        · exact Or.inl ⟨u, List.mem_cons_self u us, v, hv, hk⟩
        · exact Or.inr hk
      · rintro (⟨u2, hu2, v, hv, hk⟩ | hk)
        · rcases List.mem_cons.mp hu2 with h2 | h2
          · rw [h2] at hv hk
            exact Or.inr (Or.inl ⟨v, hv, hk⟩)
          · exact Or.inl ⟨u2, h2, v, hv, hk⟩
        · exact Or.inr (Or.inr hk)
  rw [houter]
  simp only [List.not_mem_nil, or_false, List.mem_range]

end DS

namespace PS

/-- Completeness of the construct-time trees: every in-neighbour's value
is stored. -/
theorem initTAS_tree_complete {n : Nat} {l : List Nat}
    (hpw : List.Pairwise (· < ·) l) (hbd : ∀ x ∈ l, x < n) {u : Nat}
    (hu : u ∈ l) :
    Int.ofNat u ∈
      elems n (initTAS n (l.map (fun u2 => (Int.ofNat u2, u2+1)))) := by
  have hun := hbd u hu
  have hne : l.map (fun u2 => (Int.ofNat u2, u2+1)) ≠ [] := by
    intro hc
    rw [List.map_eq_nil] at hc
    rw [hc] at hu
    exact List.not_mem_nil u hu
  unfold initTAS
  rw [if_neg hne]
  have hnd : ((l.map (fun u2 => (Int.ofNat u2, u2+1))).map
      (fun pr : Int × Nat => pr.2)).Nodup := by
    rw [List.map_map]
    show (l.map (fun u2 => u2 + 1)).Nodup
    have hp2 : List.Pairwise (· < ·) (l.map (fun u2 => u2 + 1)) :=
      List.Pairwise.map _ (fun a b hab => by omega) hpw
    exact List.Pairwise.imp (fun hab => Nat.ne_of_lt hab) hp2
  have hsorted := sortByPriority_strict hnd
  have hperm := sortByPriority_perm (l.map (fun u2 => (Int.ofNat u2, u2+1)))
  have hmem : (Int.ofNat u, u + 1) ∈
      sortByPriority (l.map (fun u2 => (Int.ofNat u2, u2+1))) := by
    rw [hperm.mem_iff]
    exact List.mem_map_of_mem _ hu
  obtain ⟨idx, hidx, hval⟩ := List.mem_iff_getElem.mp hmem
  have hrng : ∀ j, 0 ≤ j →
      j < (sortByPriority (l.map (fun u2 => (Int.ofNat u2, u2+1)))).length →
      1 ≤ ((sortByPriority
          (l.map (fun u2 => (Int.ofNat u2, u2+1)))).getD j (0,0)).2 ∧
        ((sortByPriority
          (l.map (fun u2 => (Int.ofNat u2, u2+1)))).getD j (0,0)).2 ≤ n := by
    intro j _ hj
    have hmem2 : (sortByPriority
        (l.map (fun u2 => (Int.ofNat u2, u2+1)))).getD j (0,0) ∈
        sortByPriority (l.map (fun u2 => (Int.ofNat u2, u2+1))) := by
      rw [List.getD_eq_getElem _ _ hj]
      exact List.getElem_mem hj
    rw [hperm.mem_iff, List.mem_map] at hmem2
    obtain ⟨u2, hu2, hgu⟩ := hmem2
    rw [← hgu]
    have := hbd u2 hu2
    exact ⟨by omega, by omega⟩
  have hcomp := elemsOf_build_complete (n + 1)
    (sortByPriority (l.map (fun u2 => (Int.ofNat u2, u2+1)))) 0
    (sortByPriority (l.map (fun u2 => (Int.ofNat u2, u2+1)))).length 1 n
    (by omega) (by omega) (Nat.le_refl _)
    (fun a b ha hab hb => hsorted a b hab hb)
    (fun j hj1 hj2 => hrng j hj1 hj2)
    idx (by omega) hidx
  show _ ∈ elemsOf _ 1 n
  rw [List.getD_eq_getElem _ _ hidx, hval] at hcomp
  exact hcomp

end PS

namespace PS

/-- If some rank in `[p, n]` satisfies `g`, the scan start returns a rank
at most that one. -/
theorem nwFrom_le_sat {n : Nat} {g : Nat → Bool} {p j : Nat}
    (hp : p ≤ j) (hj : j ≤ n) (hg : g j = true) :
    p ≤ nwFrom n g p ∧ nwFrom n g p ≤ j := by
  unfold nwFrom firstSat
  rcases hf : (List.range' p (n + 1 - p)).find? g with _ | j2
  · have := find?_range'_none hf j hp (by omega)
    rw [hg] at this
    exact absurd this (by simp)
  · obtain ⟨h1, h2, h3, h4⟩ := find?_range'_some hf
    simp only
    by_cases hj2 : j2 ≤ j
    · exact ⟨h1, hj2⟩
    · have := h4 j hp (by omega)
      rw [hg] at this
      exact absurd this (by simp)

end PS

namespace DS

/-- The stable-state invariant of `DynamicSSSP`: the structural invariant,
in-range source, bounded `n`, live set synchronised with `Out`, recorded
distances optimal for the current graph, tree completeness of the `In`
structures, tree edges exact (distance step one, alive), every settled
vertex tree-supported, the source parentless, and every rank below a scan
cursor invalid. -/
structure SInv (st : St) : Prop where
  base : StInv st
  hs : st.s < st.n
  hn32 : st.n ≤ 4294967296
  hOlen : st.Out.length = st.n
  hOR : ∀ u, ∀ x ∈ st.Out.getD u [], x < st.n
  hSync : ∀ u v, u < st.n → v < st.n →
    (encodeEdge u v ∈ st.alive ↔ v ∈ st.Out.getD u [])
  hOpt : ∀ v, v < st.n → st.Dist.getD v 0 =
    Int.ofNat (BFS.sdL st.Out st.s st.L v)
  hElems : ∀ u v, u < st.n → v < st.n → encodeEdge u v ∈ st.alive →
    Int.ofNat u ∈ PS.elems st.n (st.InPS.getD v PS.NTree.nil)
  hEQ : ∀ p c, c ∈ st.Tv.getD p [] →
    st.Dist.getD c 0 = st.Dist.getD p 0 + 1
  hTAl : ∀ p c, c ∈ st.Tv.getD p [] → encodeEdge p c ∈ st.alive
  hSup : ∀ v, v < st.n → 1 ≤ st.Dist.getD v 0 →
    st.Dist.getD v 0 ≤ (st.L : Int) → ∃ p, p < st.n ∧ v ∈ st.Tv.getD p []
  hPs : st.Parent.getD st.s 0 = -1
  hSC : ∀ v, v < st.n → ∀ x : Nat, 1 ≤ x → x < st.Scan.getD v 0 →
    x ≤ PS.sizePS (st.InPS.getD v PS.NTree.nil) →
    ∀ w : Int,
      PS.queryPS st.n (st.InPS.getD v PS.NTree.nil) (x : Int) = some w →
      encodeEdge w.toNat v ∈ st.alive →
      st.Dist.getD w.toNat 0 ≠ st.Dist.getD v 0 - 1
  hScl : st.Scan.length = st.n

end DS

namespace PS

/-- Ranks before the one returned by the scan all fail the predicate. -/
theorem nwFrom_min {n : Nat} {g : Nat → Bool} {p : Nat} :
    ∀ x, p ≤ x → x < nwFrom n g p → x ≤ n → g x = false := by
  intro x hpx hx hxn
  unfold nwFrom firstSat at hx
  rcases hf : (List.range' p (n + 1 - p)).find? g with _ | j2
  · exact find?_range'_none hf x hpx (by omega)
  · rw [hf] at hx
    simp only at hx
    exact (find?_range'_some hf).2.2.2 x hpx hx

end PS

namespace DS

theorem intOfNat_eq (m : Nat) : Int.ofNat m = (m : Int) := rfl

theorem adjInv_inner_getD {u : Nat} :
    ∀ (ws : List Nat) (acc : List (List Nat)) (v : Nat),
      ws.Nodup →
      (ws.foldl (fun a w => a.set w (a.getD w [] ++ [u])) acc).getD v [] =
        if v ∈ ws ∧ v < acc.length then acc.getD v [] ++ [u]
        else acc.getD v [] := by
  intro ws
  induction ws with
  | nil =>
    intro acc v _
    simp
  | cons w ws ih =>
    intro acc v hnd
    rw [List.nodup_cons] at hnd
    simp only [List.foldl_cons]
    rw [ih _ v hnd.2]
    rw [List.length_set]
    by_cases hv : v ∈ ws
    · have hvw : v ≠ w := by
        intro hc
        rw [hc] at hv
        exact hnd.1 hv
      by_cases hvl : v < acc.length
      · rw [if_pos ⟨hv, hvl⟩, if_pos ⟨List.mem_cons_of_mem w hv, hvl⟩,
          gset_ne hvw]
      · rw [if_neg (by tauto), if_neg (by tauto), gset_ne hvw]
    · by_cases hvw : v = w
      · rw [if_neg (by tauto)]
        rw [hvw, gset_getD]
        by_cases hwl : w < acc.length
        · rw [if_pos ⟨rfl, hwl⟩,
            if_pos ⟨List.mem_cons_self w ws, hwl⟩]
        · rw [if_neg (by tauto), if_neg (by tauto)]
      · have hvc : v ∉ w :: ws := by
          rw [List.mem_cons]
          tauto
        rw [if_neg (by tauto), gset_ne hvw, if_neg (by tauto)]

theorem adjInv_inner_len {u : Nat} :
    ∀ (ws : List Nat) (acc : List (List Nat)),
      (ws.foldl (fun a w => a.set w (a.getD w [] ++ [u])) acc).length =
        acc.length := by
  intro ws
  induction ws with
  | nil => intro acc; rfl
  | cons w ws ih =>
    intro acc
    simp only [List.foldl_cons]
    rw [ih, List.length_set]

theorem adjInv_mem {adj : List (List Nat)}
    (hnd : ∀ u, u < adj.length → (adj.getD u []).Nodup) {v u0 : Nat} :
    u0 ∈ (adjInv adj).getD v [] ↔
      u0 < adj.length ∧ v ∈ adj.getD u0 [] ∧ v < adj.length := by
  unfold adjInv
  have hgen : ∀ (us : List Nat) (acc : List (List Nat)),
      (∀ u ∈ us, u < adj.length) →
      (u0 ∈ (us.foldl (fun acc2 u => (adj.getD u []).foldl
        (fun a w => a.set w (a.getD w [] ++ [u])) acc2) acc).getD v [] ↔
      ((u0 ∈ us ∧ v ∈ adj.getD u0 [] ∧ v < acc.length) ∨
        u0 ∈ acc.getD v [])) := by
    intro us
    induction us with
    | nil =>
      intro acc _
      simp
    | cons u us ih =>
      intro acc hus
      simp only [List.foldl_cons]
      rw [ih _ (fun x hx => hus x (List.mem_cons_of_mem u hx))]
      rw [adjInv_inner_len]
      rw [adjInv_inner_getD _ _ v (hnd u (hus u (List.mem_cons_self u us)))]
      by_cases hv : v ∈ adj.getD u [] ∧ v < acc.length
      · rw [if_pos hv]
        rw [List.mem_append, List.mem_singleton]
        constructor
        · rintro (⟨h1, h2, h3⟩ | (h | h))
          · exact Or.inl ⟨List.mem_cons_of_mem u h1, h2, h3⟩
          · exact Or.inr h
          · rw [h]
            exact Or.inl ⟨List.mem_cons_self u us, hv.1, hv.2⟩
        · rintro (⟨h1, h2, h3⟩ | h)
          · rcases List.mem_cons.mp h1 with h4 | h4
            · rw [h4]
              exact Or.inr (Or.inr rfl)
            · exact Or.inl ⟨h4, h2, h3⟩
          · exact Or.inr (Or.inl h)
      · rw [if_neg hv]
        constructor
        · rintro (⟨h1, h2, h3⟩ | h)
          · exact Or.inl ⟨List.mem_cons_of_mem u h1, h2, h3⟩
          · exact Or.inr h
        · rintro (⟨h1, h2, h3⟩ | h)
          · rcases List.mem_cons.mp h1 with h4 | h4
            · rw [h4] at h2
              exact absurd ⟨h2, h3⟩ hv
            · exact Or.inl ⟨h4, h2, h3⟩
          · exact Or.inr h
  rw [hgen (List.range adj.length) (List.replicate adj.length [])
    (fun x hx => List.mem_range.mp hx)]
  rw [getD_replicate_nil, List.length_replicate]
  simp only [List.mem_range, List.not_mem_nil, or_false]

end DS

namespace DS

theorem contains_iff_mem {l : List Nat} {k : Nat} :
    l.contains k = true ↔ k ∈ l :=
  List.elem_iff

theorem istStepFull {n L s : Nat} {O : List (List Nat)} {dist : List Int}
    {inPS : List PS.NTree} {alive : List Nat}
    (hW : ∀ v2, v2 < n → PS.wfT (inPS.getD v2 PS.NTree.nil) 1 n = true)
    (hVal : ∀ v2, v2 < n → ∀ x ∈ PS.elems n (inPS.getD v2 PS.NTree.nil),
      0 ≤ x ∧ x < (n : Int))
    (hOptD : ∀ v, v < n → dist.getD v 0 = Int.ofNat (BFS.sdL O s L v))
    (hOlen : O.length = n)
    (hSync : ∀ u v, u < n → v < n →
      (encodeEdge u v ∈ alive ↔ v ∈ O.getD u []))
    (hEl : ∀ u v, u < n → v < n → encodeEdge u v ∈ alive →
      Int.ofNat u ∈ PS.elems n (inPS.getD v PS.NTree.nil))
    (hs : s < n)
    {acc res : List Nat × List Int × List (List Nat)} {a : Nat} (ha : a < n)
    (hsl : acc.1.length = n) (hpl : acc.2.1.length = n)
    (htl : acc.2.2.length = n)
    (h2 : ∀ v, a ≤ v → acc.1.getD v 0 = 0)
    (h3 : ∀ p c, c ∈ acc.2.2.getD p [] → c < a ∧ p < n ∧
      dist.getD c 0 = dist.getD p 0 + 1 ∧ encodeEdge p c ∈ alive ∧
      acc.2.1.getD c 0 = Int.ofNat p)
    (h4 : ∀ v, v < a → 1 ≤ BFS.sdL O s L v → BFS.sdL O s L v ≤ L →
      ∃ p, p < n ∧ v ∈ acc.2.2.getD p [])
    (h5 : ∀ v, v < n → ∀ x : Nat, 1 ≤ x → x < acc.1.getD v 0 →
      x ≤ PS.sizePS (inPS.getD v PS.NTree.nil) →
      ∀ w : Int, PS.queryPS n (inPS.getD v PS.NTree.nil) (x : Int) = some w →
      encodeEdge w.toNat v ∈ alive →
      dist.getD w.toNat 0 ≠ dist.getD v 0 - 1)
    (h6 : acc.2.1.getD s 0 = -1)
    (h : istStep n L dist inPS alive acc a = some res) :
    res.1.length = n ∧ res.2.1.length = n ∧ res.2.2.length = n ∧
    (∀ v, a + 1 ≤ v → res.1.getD v 0 = 0) ∧
    (∀ p c, c ∈ res.2.2.getD p [] → c < a + 1 ∧ p < n ∧
      dist.getD c 0 = dist.getD p 0 + 1 ∧ encodeEdge p c ∈ alive ∧
      res.2.1.getD c 0 = Int.ofNat p) ∧
    (∀ v, v < a + 1 → 1 ≤ BFS.sdL O s L v → BFS.sdL O s L v ≤ L →
      ∃ p, p < n ∧ v ∈ res.2.2.getD p []) ∧
    (∀ v, v < n → ∀ x : Nat, 1 ≤ x → x < res.1.getD v 0 →
      x ≤ PS.sizePS (inPS.getD v PS.NTree.nil) →
      ∀ w : Int, PS.queryPS n (inPS.getD v PS.NTree.nil) (x : Int) = some w →
      encodeEdge w.toNat v ∈ alive →
      dist.getD w.toNat 0 ≠ dist.getD v 0 - 1) ∧
    res.2.1.getD s 0 = -1 := by
  obtain ⟨scan, parent, tv⟩ := acc
  have hsl : scan.length = n := hsl
  have hpl : parent.length = n := hpl
  have htl : tv.length = n := htl
  have h2 : ∀ v, a ≤ v → scan.getD v 0 = 0 := h2
  have h3 : ∀ p c, c ∈ tv.getD p [] → c < a ∧ p < n ∧
      dist.getD c 0 = dist.getD p 0 + 1 ∧ encodeEdge p c ∈ alive ∧
      parent.getD c 0 = Int.ofNat p := h3
  have h4 : ∀ v, v < a → 1 ≤ BFS.sdL O s L v → BFS.sdL O s L v ≤ L →
      ∃ p, p < n ∧ v ∈ tv.getD p [] := h4
  have h5 : ∀ v, v < n → ∀ x : Nat, 1 ≤ x → x < scan.getD v 0 →
      x ≤ PS.sizePS (inPS.getD v PS.NTree.nil) →
      ∀ w : Int, PS.queryPS n (inPS.getD v PS.NTree.nil) (x : Int) = some w →
      encodeEdge w.toNat v ∈ alive →
      dist.getD w.toNat 0 ≠ dist.getD v 0 - 1 := h5
  have h6 : parent.getD s 0 = -1 := h6
  have hda : dist.getD a 0 = Int.ofNat (BFS.sdL O s L a) := hOptD a ha
  simp only [istStep] at h
  split at h
  · -- skipped vertex: distance 0 or beyond L
    rename_i hskip
    simp only [Option.some.injEq] at h
    rw [← h]
    refine ⟨hsl, hpl, htl, fun v hv => h2 v (by omega), ?_, ?_, h5, h6⟩
    · intro p c hc
      obtain ⟨hc1, hc2, hc3, hc4, hc5⟩ := h3 p c hc
      exact ⟨by omega, hc2, hc3, hc4, hc5⟩
    · intro v hv hd1 hd2
      by_cases hva : v = a
      · exfalso
        rw [hva] at hd1 hd2
        rw [intOfNat_eq] at hda
        rcases hskip with hk | hk
        · rw [hk] at hda
          omega
        · rw [hda] at hk
          omega
      · exact h4 v (by omega) hd1 hd2
  · rename_i hskip
    push_neg at hskip
    rw [intOfNat_eq] at hda
    have hd1 : 1 ≤ BFS.sdL O s L a := by
      have := hskip.1
      omega
    have hd2 : BFS.sdL O s L a ≤ L := by
      have := hskip.2
      omega
    -- a settled vertex has an in-neighbour one level up
    obtain ⟨us, husm, husd⟩ := BFS.sdL_pred rfl hd1 hd2
    have husn : us < n := by
      by_contra hc
      rw [List.getD_eq_default _ _ (by omega)] at husm
      exact List.not_mem_nil a husm
    have husa : encodeEdge us a ∈ alive := (hSync us a husn ha).mpr husm
    have huse : ((us : Nat) : Int) ∈
        PS.elems n (inPS.getD a PS.NTree.nil) := hEl us a husn ha husa
    have hwf := hW a ha
    obtain ⟨jx, hjx1, hjxs, hjq⟩ := PS.elems_rank hwf huse
    have hfus : (fun w : Int =>
        decide (0 ≤ w) && decide (w < (n : Int)) &&
          pred0 dist alive a w) ((us : Nat) : Int) = true := by
      simp only [Bool.and_eq_true, decide_eq_true_eq]
      refine ⟨⟨by omega, by omega⟩, ?_⟩
      simp only [pred0, Bool.and_eq_true, beq_iff_eq]
      constructor
      · have hdus := hOptD us husn
        rw [intOfNat_eq] at hdus
        rw [Int.toNat_natCast, hdus, hda, husd]
        omega
      · rw [Int.toNat_natCast]
        exact contains_iff_mem.mpr husa
    have hsat : PS.satAt n (inPS.getD a PS.NTree.nil)
        (fun w : Int => decide (0 ≤ w) && decide (w < (n : Int)) &&
          pred0 dist alive a w) jx = true := by
      unfold PS.satAt
      have hq2 := PS.queryPS_eq (k := ((jx : Nat) : Int)) hwf (by omega)
        (by omega)
      rw [hq2] at hjq
      simp only [Option.some.injEq, Int.toNat_natCast] at hjq
      rw [hjq]
      exact hfus
    have hsz1 : 1 ≤ PS.sizePS (inPS.getD a PS.NTree.nil) := by omega
    split at h
    · exact absurd h (by simp)
    · rename_i pos hnw
      rw [PS.nextWith_eq hwf _ 1 hsz1] at hnw
      simp only [Option.some.injEq] at hnw
      have hclamp : (if (1 : Int) < 1 then 1 else (1 : Int).toNat) = 1 := by
        norm_num
      rw [hclamp] at hnw
      obtain ⟨hp1, hp2⟩ := PS.nwFrom_le_sat hjx1 hjxs hsat
      rw [hnw] at hp1 hp2
      have hposs : 1 ≤ pos ∧ pos ≤ PS.sizePS (inPS.getD a PS.NTree.nil) := by
        omega
      rw [if_pos hposs] at h
      split at h
      · exact absurd h (by simp)
      · rename_i w hq
        simp only [Option.some.injEq] at h
        rw [← h]
        -- the found parent satisfies the predicate
        have hsatpos : PS.satAt n (inPS.getD a PS.NTree.nil)
            (fun w : Int => decide (0 ≤ w) && decide (w < (n : Int)) &&
              pred0 dist alive a w) pos = true := by
          have := PS.nwFrom_ne_top (n := PS.sizePS (inPS.getD a PS.NTree.nil))
            hnw (by omega)
          exact this.2.2
        have hq2 := PS.queryPS_eq (k := ((pos : Nat) : Int)) hwf (by omega)
          (by omega)
        rw [hq2] at hq
        simp only [Option.some.injEq, Int.toNat_natCast] at hq
        unfold PS.satAt at hsatpos
        rw [hq] at hsatpos
        simp only [Bool.and_eq_true, decide_eq_true_eq] at hsatpos
        obtain ⟨⟨hw0, hwn⟩, hwpred⟩ := hsatpos
        simp only [pred0, Bool.and_eq_true, beq_iff_eq] at hwpred
        have hwdeq : dist.getD w.toNat 0 = dist.getD a 0 - 1 := hwpred.1
        have hwal : encodeEdge w.toNat a ∈ alive :=
          contains_iff_mem.mp hwpred.2
        have hwtn : w.toNat < n := by omega
        have hwtl : w.toNat < tv.length := by omega
        have hapl : a < parent.length := by omega
        have hasl : a < scan.length := by omega
        have hofN : Int.ofNat w.toNat = w := Int.toNat_of_nonneg hw0
        have hane : a ≠ s := by
          intro hc
          have := @BFS.sdL_self O s L
          rw [hc] at hd1
          omega
        refine ⟨?_, ?_, ?_, ?_, ?_, ?_, ?_, ?_⟩
        · show (scan.set a pos).length = n
          rw [List.length_set]
          exact hsl
        · show (parent.set a w).length = n
          rw [List.length_set]
          exact hpl
        · show (tv.set w.toNat (tv.getD w.toNat [] ++ [a])).length = n
          rw [List.length_set]
          exact htl
        · intro v hv
          show (scan.set a pos).getD v 0 = 0
          rw [gset_ne (by omega)]
          exact h2 v (by omega)
        · intro p c hc
          have hc2 : c ∈ (tv.set w.toNat
              (tv.getD w.toNat [] ++ [a])).getD p [] := hc
          rw [gset_getD] at hc2
          by_cases hpe : p = w.toNat
          · rw [if_pos ⟨hpe, hwtl⟩] at hc2
            rcases List.mem_append.mp hc2 with hc3 | hc3
            · obtain ⟨hk1, hk2, hk3, hk4, hk5⟩ := h3 w.toNat c hc3
              refine ⟨by omega, by rw [hpe]; exact hk2,
                by rw [hpe]; exact hk3, by rw [hpe]; exact hk4, ?_⟩
              show (parent.set a w).getD c 0 = Int.ofNat p
              rw [gset_ne (by omega), hpe]
              exact hk5
            · rw [List.mem_singleton] at hc3
              rw [hc3, hpe]
              refine ⟨by omega, hwtn, by omega, hwal, ?_⟩
              show (parent.set a w).getD a 0 = Int.ofNat w.toNat
              rw [gset_self hapl]
              exact hofN.symm
          · rw [if_neg (fun hco => hpe hco.1)] at hc2
            obtain ⟨hk1, hk2, hk3, hk4, hk5⟩ := h3 p c hc2
            refine ⟨by omega, hk2, hk3, hk4, ?_⟩
            show (parent.set a w).getD c 0 = Int.ofNat p
            rw [gset_ne (by omega)]
            exact hk5
        · intro v hv hv1 hv2
          by_cases hva : v = a
          · refine ⟨w.toNat, hwtn, ?_⟩
            rw [hva]
            show a ∈ (tv.set w.toNat (tv.getD w.toNat [] ++ [a])).getD
              w.toNat []
            rw [gset_self hwtl]
            rw [List.mem_append, List.mem_singleton]
            exact Or.inr rfl
          · obtain ⟨p, hpn, hpm⟩ := h4 v (by omega) hv1 hv2
            refine ⟨p, hpn, ?_⟩
            show v ∈ (tv.set w.toNat (tv.getD w.toNat [] ++ [a])).getD p []
            rw [gset_getD]
            by_cases hpe : p = w.toNat
            · rw [if_pos ⟨hpe, hwtl⟩, List.mem_append]
              rw [← hpe]
              exact Or.inl hpm
            · rw [if_neg (fun hco => hpe hco.1)]
              exact hpm
        · intro v hv x hx1 hx2 hx3 w2 hw2 hw2al
          by_cases hva : v = a
          · subst hva
            have hx2b : x < pos := by
              have : (scan.set v pos).getD v 0 = pos := gset_self hasl
              rw [this] at hx2
              exact hx2
            have hx2c := hx2b
            rw [← hnw] at hx2c
            have hsatx := PS.nwFrom_min x hx1 hx2c (by omega)
            unfold PS.satAt at hsatx
            have hqx := PS.queryPS_eq (k := ((x : Nat) : Int)) hwf (by omega)
              (by omega)
            rw [hqx] at hw2
            simp only [Option.some.injEq, Int.toNat_natCast] at hw2
            rw [hw2] at hsatx
            have hw2e : w2 ∈ PS.elems n (inPS.getD v PS.NTree.nil) := by
              rw [← hw2]
              have hlen2 : x - 1 <
                  (PS.elems n (inPS.getD v PS.NTree.nil)).length := by
                show x - 1 <
                  (PS.elemsOf (inPS.getD v PS.NTree.nil) 1 n).length
                rw [PS.elemsOf_length hwf]
                have hsz : PS.sizePS (inPS.getD v PS.NTree.nil) =
                    PS.cntOf (inPS.getD v PS.NTree.nil) := rfl
                omega
              rw [List.getD_eq_getElem _ _ hlen2]
              exact List.getElem_mem hlen2
            have hw2v := hVal v hv w2 hw2e
            have hdd1 : decide (0 ≤ w2) = true := by
              rw [decide_eq_true_eq]
              exact hw2v.1
            have hdd2 : decide (w2 < (n : Int)) = true := by
              rw [decide_eq_true_eq]
              exact hw2v.2
            have hsatx2 : (decide (0 ≤ w2) && decide (w2 < (n : Int)) &&
                pred0 dist alive v w2) = false := hsatx
            rw [hdd1, hdd2] at hsatx2
            simp only [Bool.true_and] at hsatx2
            have hsatx := hsatx2
            simp only [pred0, Bool.and_eq_false_iff] at hsatx
            rcases hsatx with hsx2 | hsx2
            · rw [beq_eq_false_iff_ne] at hsx2
              exact hsx2
            · rw [← Bool.not_eq_true, contains_iff_mem] at hsx2
              exact absurd hw2al hsx2
          · have : (scan.set a pos).getD v 0 = scan.getD v 0 :=
              gset_ne (by omega)
            rw [this] at hx2
            exact h5 v hv x hx1 hx2 hx3 w2 hw2 hw2al
        · show (parent.set a w).getD s 0 = -1
          rw [gset_ne (by omega)]
          exact h6

end DS

namespace DS

theorem mapOfNat_getD {l : List Nat} {v : Nat} (h : v < l.length) :
    (l.map (fun d => Int.ofNat d)).getD v 0 = Int.ofNat (l.getD v 0) := by
  rw [List.getD_eq_getElem _ _ (by rw [List.length_map]; exact h),
    List.getElem_map, List.getD_eq_getElem _ _ h]

theorem istFoldFull {n L s : Nat} {O : List (List Nat)} {dist : List Int}
    {inPS : List PS.NTree} {alive : List Nat}
    (hW : ∀ v2, v2 < n → PS.wfT (inPS.getD v2 PS.NTree.nil) 1 n = true)
    (hVal : ∀ v2, v2 < n → ∀ x ∈ PS.elems n (inPS.getD v2 PS.NTree.nil),
      0 ≤ x ∧ x < (n : Int))
    (hOptD : ∀ v, v < n → dist.getD v 0 = Int.ofNat (BFS.sdL O s L v))
    (hOlen : O.length = n)
    (hSync : ∀ u v, u < n → v < n →
      (encodeEdge u v ∈ alive ↔ v ∈ O.getD u []))
    (hEl : ∀ u v, u < n → v < n → encodeEdge u v ∈ alive →
      Int.ofNat u ∈ PS.elems n (inPS.getD v PS.NTree.nil))
    (hs : s < n) :
    ∀ (len a : Nat) (acc res : List Nat × List Int × List (List Nat)),
      a + len ≤ n →
      acc.1.length = n → acc.2.1.length = n → acc.2.2.length = n →
      (∀ v, a ≤ v → acc.1.getD v 0 = 0) →
      (∀ p c, c ∈ acc.2.2.getD p [] → c < a ∧ p < n ∧
        dist.getD c 0 = dist.getD p 0 + 1 ∧ encodeEdge p c ∈ alive ∧
        acc.2.1.getD c 0 = Int.ofNat p) →
      (∀ v, v < a → 1 ≤ BFS.sdL O s L v → BFS.sdL O s L v ≤ L →
        ∃ p, p < n ∧ v ∈ acc.2.2.getD p []) →
      (∀ v, v < n → ∀ x : Nat, 1 ≤ x → x < acc.1.getD v 0 →
        x ≤ PS.sizePS (inPS.getD v PS.NTree.nil) →
        ∀ w : Int,
          PS.queryPS n (inPS.getD v PS.NTree.nil) (x : Int) = some w →
          encodeEdge w.toNat v ∈ alive →
          dist.getD w.toNat 0 ≠ dist.getD v 0 - 1) →
      acc.2.1.getD s 0 = -1 →
      (List.range' a len).foldlM (istStep n L dist inPS alive) acc
        = some res →
      res.1.length = n ∧ res.2.1.length = n ∧ res.2.2.length = n ∧
      (∀ p c, c ∈ res.2.2.getD p [] → c < a + len ∧ p < n ∧
        dist.getD c 0 = dist.getD p 0 + 1 ∧ encodeEdge p c ∈ alive ∧
        res.2.1.getD c 0 = Int.ofNat p) ∧
      (∀ v, v < a + len → 1 ≤ BFS.sdL O s L v → BFS.sdL O s L v ≤ L →
        ∃ p, p < n ∧ v ∈ res.2.2.getD p []) ∧
      (∀ v, v < n → ∀ x : Nat, 1 ≤ x → x < res.1.getD v 0 →
        x ≤ PS.sizePS (inPS.getD v PS.NTree.nil) →
        ∀ w : Int,
          PS.queryPS n (inPS.getD v PS.NTree.nil) (x : Int) = some w →
          encodeEdge w.toNat v ∈ alive →
          dist.getD w.toNat 0 ≠ dist.getD v 0 - 1) ∧
      res.2.1.getD s 0 = -1 := by
  intro len
  induction len with
  | zero =>
    intro a acc res hle hsl hpl htl h2 h3 h4 h5 h6 h
    simp only [List.range', List.foldlM_nil, Option.pure_def,
      Option.some.injEq] at h
    rw [← h]
    exact ⟨hsl, hpl, htl,
      fun p c hc => by
        obtain ⟨k1, k2, k3, k4, k5⟩ := h3 p c hc
        exact ⟨by omega, k2, k3, k4, k5⟩,
      fun v hv => h4 v (by omega), h5, h6⟩
  | succ m ih =>
    intro a acc res hle hsl hpl htl h2 h3 h4 h5 h6 h
    rw [List.range'_succ, List.foldlM_cons] at h
    rcases hstep : istStep n L dist inPS alive acc a with _ | acc1
    · rw [hstep] at h
      exact absurd h (by simp)
    · rw [hstep] at h
      simp only [Option.bind_eq_bind, Option.some_bind] at h
      obtain ⟨k1, k2, k3, k4, k5, k6, k7, k8⟩ :=
        istStepFull hW hVal hOptD hOlen hSync hEl hs (by omega)
          hsl hpl htl h2 h3 h4 h5 h6 hstep
      have := ih (a+1) acc1 res (by omega) k1 k2 k3 k4 k5 k6 k7 k8 h
      exact ⟨this.1, this.2.1, this.2.2.1,
        fun p c hc => by
          obtain ⟨j1, j2, j3, j4, j5⟩ := this.2.2.2.1 p c hc
          exact ⟨by omega, j2, j3, j4, j5⟩,
        fun v hv => this.2.2.2.2.1 v (by omega),
        this.2.2.2.2.2.1, this.2.2.2.2.2.2⟩

theorem initScanAndTreeFull {n L s : Nat} {O : List (List Nat)}
    {dist : List Int} {inPS : List PS.NTree} {alive : List Nat}
    {scan : List Nat} {parent : List Int} {tv : List (List Nat)}
    (hW : ∀ v2, v2 < n → PS.wfT (inPS.getD v2 PS.NTree.nil) 1 n = true)
    (hVal : ∀ v2, v2 < n → ∀ x ∈ PS.elems n (inPS.getD v2 PS.NTree.nil),
      0 ≤ x ∧ x < (n : Int))
    (hOptD : ∀ v, v < n → dist.getD v 0 = Int.ofNat (BFS.sdL O s L v))
    (hOlen : O.length = n)
    (hSync : ∀ u v, u < n → v < n →
      (encodeEdge u v ∈ alive ↔ v ∈ O.getD u []))
    (hEl : ∀ u v, u < n → v < n → encodeEdge u v ∈ alive →
      Int.ofNat u ∈ PS.elems n (inPS.getD v PS.NTree.nil))
    (hs : s < n)
    (h : initScanAndTree n L dist inPS alive = some (scan, parent, tv)) :
    scan.length = n ∧ parent.length = n ∧ tv.length = n ∧
    (∀ p c, c ∈ tv.getD p [] → c < n ∧ p < n ∧
      dist.getD c 0 = dist.getD p 0 + 1 ∧ encodeEdge p c ∈ alive ∧
      parent.getD c 0 = Int.ofNat p) ∧
    (∀ v, v < n → 1 ≤ BFS.sdL O s L v → BFS.sdL O s L v ≤ L →
      ∃ p, p < n ∧ v ∈ tv.getD p []) ∧
    (∀ v, v < n → ∀ x : Nat, 1 ≤ x → x < scan.getD v 0 →
      x ≤ PS.sizePS (inPS.getD v PS.NTree.nil) →
      ∀ w : Int,
        PS.queryPS n (inPS.getD v PS.NTree.nil) (x : Int) = some w →
        encodeEdge w.toNat v ∈ alive →
        dist.getD w.toNat 0 ≠ dist.getD v 0 - 1) ∧
    parent.getD s 0 = -1 := by
  rw [initScanAndTree_eq, List.range_eq_range'] at h
  have hres := istFoldFull hW hVal hOptD hOlen hSync hEl hs n 0
    (List.replicate n 0, List.replicate n (-1), List.replicate n [])
    (scan, parent, tv) (by omega)
    (List.length_replicate _ _) (List.length_replicate _ _)
    (List.length_replicate _ _)
    (fun v hv => by
      rw [getD_replicate]
      split
      · rfl
      · rfl)
    (fun p c hc => by
      rw [getD_replicate_nil] at hc
      exact absurd hc (List.not_mem_nil c))
    (fun v hv => absurd hv (Nat.not_lt_zero v))
    (fun v hv x hx1 hx2 hx3 w hw hwal => by
      rw [getD_replicate] at hx2
      split at hx2
      · omega
      · omega)
    (by rw [getD_replicate, if_pos hs])
    h
  obtain ⟨g1, g2, g3, g4, g5, g6, g7⟩ := hres
  refine ⟨g1, g2, g3, ?_, ?_, g6, g7⟩
  · intro p c hc
    obtain ⟨k1, k2, k3, k4, k5⟩ := g4 p c hc
    exact ⟨by omega, k2, k3, k4, k5⟩
  · intro v hv
    exact g5 v (by omega)

/-- The constructor establishes the full stable-state invariant, given
duplicate-free in-range adjacency lists, an in-range source and a vertex
count below `2^32`. -/
theorem construct_SInv {adj : List (List Nat)} {s L : Nat} {st : St}
    (hnd : ∀ u, u < adj.length → (adj.getD u []).Nodup)
    (hadj : ∀ l2 ∈ adj, ∀ x ∈ l2, x < adj.length)
    (hs : s < adj.length) (h32 : adj.length ≤ 4294967296)
    (h : construct adj s L = some st) : SInv st := by
  have hbase := construct_StInv hnd h
  simp only [construct] at h
  split at h
  · exact absurd h (by simp)
  · rename_i scan parent tv hist
    simp only [Option.some.injEq] at h
    have hadj2 : ∀ u, ∀ x ∈ adj.getD u [], x < adj.length := by
      intro u x hx
      by_cases hu : u < adj.length
      · have hmem : adj.getD u [] ∈ adj := by
          rw [List.getD_eq_getElem _ _ hu]
          exact List.getElem_mem hu
        exact hadj _ hmem x hx
      · rw [List.getD_eq_default _ _ (by omega)] at hx
        exact absurd hx (List.not_mem_nil x)
    have hSync0 : ∀ u v, u < adj.length → v < adj.length →
        (encodeEdge u v ∈ aliveInit adj ↔ v ∈ adj.getD u []) := by
      intro u v hu hv
      constructor
      · intro hk
        obtain ⟨u2, hu2, v2, hv2, hk2⟩ := aliveInit_mem.mp hk
        have hv2n : v2 < adj.length := hadj2 u2 v2 hv2
        obtain ⟨he1, he2⟩ := encodeEdge_inj (by omega) (by omega) hk2
        rw [he1, he2]
        exact hv2
      · intro hm
        exact aliveInit_mem.mpr ⟨u, hu, v, hm, rfl⟩
    have hOpt0 : ∀ v, v < adj.length →
        ((BFS.bfs_array adj s L).map (fun d => Int.ofNat d)).getD v 0 =
          Int.ofNat (BFS.sdL adj s L v) := by
      intro v hv
      rw [mapOfNat_getD (by rw [BFS.bfs_array_length]; exact hv)]
      rw [BFS.bfs_array_eq_sdL hs hadj v hv]
    have hEl0 : ∀ u v, u < adj.length → v < adj.length →
        encodeEdge u v ∈ aliveInit adj →
        Int.ofNat u ∈ PS.elems adj.length
          (((List.range adj.length).map (fun v2 =>
            PS.initTAS adj.length (((adjInv adj).getD v2 []).map
              (fun u2 => (Int.ofNat u2, u2+1))))).getD v PS.NTree.nil) := by
      intro u v hu hv hk
      rw [inPS_getD hv]
      have hm := (hSync0 u v hu hv).mp hk
      have hmi : u ∈ (adjInv adj).getD v [] :=
        (adjInv_mem hnd).mpr ⟨hu, hm, hv⟩
      exact PS.initTAS_tree_complete (adjInv_facts hnd v).1
        (fun x hx => (adjInv_facts hnd v).2 x hx) hmi
    have hWl : ∀ v2, v2 < adj.length →
        PS.wfT (((List.range adj.length).map (fun v =>
          PS.initTAS adj.length (((adjInv adj).getD v []).map
            (fun u => (Int.ofNat u, u+1))))).getD v2 PS.NTree.nil) 1
          adj.length = true := by
      intro v2 hv2
      rw [inPS_getD hv2]
      exact initTAS_tree_wf (adjInv_facts hnd v2).1
        (fun x hx => (adjInv_facts hnd v2).2 x hx)
    have hVl : ∀ v2, v2 < adj.length →
        ∀ x ∈ PS.elems adj.length
          (((List.range adj.length).map (fun v =>
            PS.initTAS adj.length (((adjInv adj).getD v []).map
              (fun u => (Int.ofNat u, u+1))))).getD v2 PS.NTree.nil),
          0 ≤ x ∧ x < (adj.length : Int) := by
      intro v2 hv2
      rw [inPS_getD hv2]
      exact initTAS_tree_val (fun x hx => (adjInv_facts hnd v2).2 x hx)
    obtain ⟨f1, f2, f3, f4, f5, f6, f7⟩ :=
      initScanAndTreeFull hWl hVl hOpt0 rfl hSync0 hEl0 hs hist
    subst h
    refine ⟨hbase, hs, h32, rfl, hadj2, hSync0, hOpt0, hEl0, ?_, ?_, ?_,
      f7, ?_, f1⟩
    · intro p c hc
      exact (f4 p c hc).2.2.1
    · intro p c hc
      exact (f4 p c hc).2.2.2.1
    · intro v hv h1v h2v
      apply f5 v hv
      · have hq := hOpt0 v hv
        show 1 ≤ BFS.sdL adj s L v
        rw [intOfNat_eq] at hq
        rw [hq] at h1v
        exact_mod_cast h1v
      · have hq := hOpt0 v hv
        show BFS.sdL adj s L v ≤ L
        rw [intOfNat_eq] at hq
        rw [hq] at h2v
        exact_mod_cast h2v
    · intro v hv x hx1 hx2 hx3 w hw hwal
      exact f6 v hv x hx1 hx2 hx3 w hw hwal

end DS

namespace PS

/-- Every rank between the (clamped) cursor and the rank returned by
`nextWith` fails the predicate: the scan skips no valid candidate. -/
theorem nextWith_min_sound {n : Nat} {t : NTree} {k : Int} {f : Int → Bool}
    {pos : Nat} (hwf : wfT t 1 n = true) (hnw : nextWith n t k f = some pos) :
    ∀ x : Nat, (if k < 1 then 1 else k.toNat) ≤ x → x < pos → x ≤ sizePS t →
      ∀ w : Int, queryPS n t (x : Int) = some w → f w = false := by
  intro x hx1 hx2 hx3 w hq
  have hcl : 1 ≤ (if k < 1 then 1 else k.toNat) := by
    split
    · omega
    · omega
  by_cases hz : sizePS t = 0
  · omega
  · have hn1 : 1 ≤ sizePS t := by omega
    rw [nextWith_eq hwf f k hn1] at hnw
    simp only [Option.some.injEq] at hnw
    have hx2b : x < nwFrom (sizePS t) (satAt n t f)
        (if k < 1 then 1 else k.toNat) := by omega
    have hsatx := nwFrom_min x hx1 hx2b (by omega)
    have hsatx2 : f ((elems n t).getD (x - 1) 0) = false := hsatx
    have hqx := queryPS_eq (k := ((x : Nat) : Int)) hwf (by omega) (by omega)
    rw [hqx] at hq
    simp only [Option.some.injEq, Int.toNat_natCast] at hq
    rw [hq] at hsatx2
    exact hsatx2

/-- A successful `nextWith` followed by `query` at the returned rank yields
an element satisfying the predicate. -/
theorem nextWith_found_query {n : Nat} {t : NTree} {k : Int} {f : Int → Bool}
    {pos : Nat} {w : Int} (hwf : wfT t 1 n = true)
    (hnw : nextWith n t k f = some pos) (hne : pos ≠ sizePS t + 1)
    (hq : queryPS n t (pos : Int) = some w) :
    1 ≤ pos ∧ pos ≤ sizePS t ∧ f w = true := by
  obtain ⟨h1, h2, val, hqval, hfval⟩ := nextWith_found hwf hnw hne
  rw [hqval] at hq
  simp only [Option.some.injEq] at hq
  rw [hq] at hfval
  exact ⟨h1, h2, hfval⟩

end PS

namespace DS

theorem pass2Step_pres2 {acc acc' : St × List Bool} {e : Nat × Nat}
    (h : pass2Step acc e = some acc') :
    acc'.1.Out = acc.1.Out ∧ acc'.1.s = acc.1.s := by
  obtain ⟨st, pd⟩ := acc
  simp only [pass2Step] at h
  split at h
  · exact Option.noConfusion h
  · split at h
    · split at h
      · exact Option.noConfusion h
      · obtain rfl := (Option.some.injEq _ _).mp h
        exact ⟨rfl, rfl⟩
    · obtain rfl := (Option.some.injEq _ _).mp h
      exact ⟨rfl, rfl⟩

theorem pass2_fold_pres2 :
    ∀ (te : List (Nat × Nat)) (acc acc' : St × List Bool),
      te.foldlM pass2Step acc = some acc' →
      acc'.1.Out = acc.1.Out ∧ acc'.1.s = acc.1.s := by
  intro te
  induction te with
  | nil =>
    intro acc acc' h
    obtain rfl := (Option.some.injEq _ _).mp h
    exact ⟨rfl, rfl⟩
  | cons e te ih =>
    intro acc acc' h
    rw [List.foldlM_cons] at h
    rcases hstep : pass2Step acc e with _ | acc1
    · rw [hstep] at h
      exact Option.noConfusion h
    · rw [hstep] at h
      simp only [Option.bind_eq_bind, Option.some_bind] at h
      obtain ⟨p1, p2⟩ := pass2Step_pres2 hstep
      obtain ⟨q1, q2⟩ := ih acc1 acc' h
      exact ⟨q1.trans p1, q2.trans p2⟩

theorem phaseStep_pres2 {acc acc' : St × List Nat} {v : Nat}
    (h : phaseStep acc v = some acc') :
    acc'.1.Out = acc.1.Out ∧ acc'.1.s = acc.1.s := by
  obtain ⟨st, unew⟩ := acc
  simp only [phaseStep] at h
  split at h
  · exact Option.noConfusion h
  · split at h
    · obtain rfl := (Option.some.injEq _ _).mp h
      exact ⟨rfl, rfl⟩
    · split at h
      · exact Option.noConfusion h
      · obtain rfl := (Option.some.injEq _ _).mp h
        exact ⟨rfl, rfl⟩

theorem phaseStep_fold_pres2 :
    ∀ (u : List Nat) (acc acc' : St × List Nat),
      u.foldlM phaseStep acc = some acc' →
      acc'.1.Out = acc.1.Out ∧ acc'.1.s = acc.1.s := by
  intro u
  induction u with
  | nil =>
    intro acc acc' h
    obtain rfl := (Option.some.injEq _ _).mp h
    exact ⟨rfl, rfl⟩
  | cons v u ih =>
    intro acc acc' h
    rw [List.foldlM_cons] at h
    rcases hstep : phaseStep acc v with _ | acc1
    · rw [hstep] at h
      exact Option.noConfusion h
    · rw [hstep] at h
      simp only [Option.bind_eq_bind, Option.some_bind] at h
      obtain ⟨p1, p2⟩ := phaseStep_pres2 hstep
      obtain ⟨q1, q2⟩ := ih acc1 acc' h
      exact ⟨q1.trans p1, q2.trans p2⟩

theorem phase_pres2 {acc acc' : St × List Bool × List Nat} {i : Nat}
    (h : phase acc i = some acc') :
    acc'.1.Out = acc.1.Out ∧ acc'.1.s = acc.1.s := by
  obtain ⟨st, pd, u⟩ := acc
  simp only [phase] at h
  rcases hfold : u.foldlM phaseStep (st, []) with _ | acc1
  · rw [hfold] at h
    exact Option.noConfusion h
  · rw [hfold] at h
    obtain ⟨p1, p2⟩ := phaseStep_fold_pres2 u (st, []) acc1 hfold
    obtain ⟨st1, unew⟩ := acc1
    simp only at h
    obtain rfl := (Option.some.injEq _ _).mp h
    exact ⟨p1, p2⟩

end DS

namespace DS

/-- Invariant carried through the pruning pass for the optimality proof:
the first-pass invariant, frame equalities for the untouched fields,
`alive`/`Out` synchronisation, shrinkage of the live set, the out-lists
and the tree, liveness of tree edges, support-or-flagged for every
originally settled vertex, and the source neither flagged nor parented. -/
structure P1C (st0 : St) (acc : St × List Bool × List (Nat × Nat)) :
    Prop where
  base : P1Inv st0 acc
  hn : acc.1.n = st0.n
  hL : acc.1.L = st0.L
  hs : acc.1.s = st0.s
  hScan : acc.1.Scan = st0.Scan
  hIn : acc.1.InPS = st0.InPS
  hOl : acc.1.Out.length = st0.n
  hSy : ∀ u v, u < st0.n → v < st0.n →
    (encodeEdge u v ∈ acc.1.alive ↔ v ∈ acc.1.Out.getD u [])
  hAs : ∀ k ∈ acc.1.alive, k ∈ st0.alive
  hOs : ∀ u x, x ∈ acc.1.Out.getD u [] → x ∈ st0.Out.getD u []
  hTs : ∀ p c, c ∈ acc.1.Tv.getD p [] → c ∈ st0.Tv.getD p []
  hTA : ∀ p c, c ∈ acc.1.Tv.getD p [] → encodeEdge p c ∈ acc.1.alive
  hSup : ∀ v, v < st0.n → 1 ≤ st0.Dist.getD v 0 →
    st0.Dist.getD v 0 ≤ (st0.L : Int) →
    (∃ p, p < st0.n ∧ v ∈ acc.1.Tv.getD p []) ∨
      acc.2.1.getD v false = true
  hPs0 : acc.2.1.getD st0.s false = false
  hPsm : acc.1.Parent.getD st0.s 0 = -1

theorem pass1Step_C {st0 : St} (hn32 : st0.n ≤ 4294967296)
    {acc : St × List Bool × List (Nat × Nat)} {e : Int × Int}
    (h : P1C st0 acc) :
    P1C st0 (pass1Step acc e) ∧
    ∀ u v, u < st0.n → v < st0.n →
      (v ∈ (pass1Step acc e).1.Out.getD u [] ↔
        v ∈ acc.1.Out.getD u [] ∧ e ≠ (Int.ofNat u, Int.ofNat v)) := by
  have hbase := pass1Step_inv (e := e) h.base
  obtain ⟨st, pd, te⟩ := acc
  obtain ⟨hB, hn, hL, hs, hScan, hIn, hOl, hSy, hAs, hOs, hTs, hTA, hSup,
    hPs0, hPsm⟩ := h
  obtain ⟨u0, v0⟩ := e
  have hSI : StInv st := hB.2.1
  have hn : st.n = st0.n := hn
  have hL2 : st.L = st0.L := hL
  have hs2 : st.s = st0.s := hs
  have hScan : st.Scan = st0.Scan := hScan
  have hIn : st.InPS = st0.InPS := hIn
  have hOl : st.Out.length = st0.n := hOl
  have hSy : ∀ u v, u < st0.n → v < st0.n →
      (encodeEdge u v ∈ st.alive ↔ v ∈ st.Out.getD u []) := hSy
  have hAs : ∀ k ∈ st.alive, k ∈ st0.alive := hAs
  have hOs : ∀ u x, x ∈ st.Out.getD u [] → x ∈ st0.Out.getD u [] := hOs
  have hTs : ∀ p c, c ∈ st.Tv.getD p [] → c ∈ st0.Tv.getD p [] := hTs
  have hTA : ∀ p c, c ∈ st.Tv.getD p [] → encodeEdge p c ∈ st.alive := hTA
  have hSup : ∀ v, v < st0.n → 1 ≤ st0.Dist.getD v 0 →
      st0.Dist.getD v 0 ≤ (st0.L : Int) →
      (∃ p, p < st0.n ∧ v ∈ st.Tv.getD p []) ∨
        pd.getD v false = true := hSup
  have hPs0 : pd.getD st0.s false = false := hPs0
  have hPsm : st.Parent.getD st0.s 0 = -1 := hPsm
  simp only [pass1Step] at hbase ⊢
  split
  · -- a component out of range: no change
    rename_i hval
    rw [if_pos hval] at hbase
    refine ⟨⟨hbase, hn, hL2, hs2, hScan, hIn, hOl, hSy, hAs, hOs, hTs,
      hTA, hSup, hPs0, hPsm⟩, ?_⟩
    intro u v hu hv
    have hne : (u0, v0) ≠ (Int.ofNat u, Int.ofNat v) := by
      intro hcon
      rw [Prod.mk.injEq] at hcon
      have h1 : u0 = (u : Int) := hcon.1
      have h2 : v0 = (v : Int) := hcon.2
      rw [hn] at hval
      have hu2 : (u : Int) < (st0.n : Int) := by exact_mod_cast hu
      have hv2 : (v : Int) < (st0.n : Int) := by exact_mod_cast hv
      rcases hval with hk | hk | hk | hk <;> omega
    exact ⟨fun h1 => ⟨h1, hne⟩, fun h1 => h1.1⟩
  · rename_i hval
    rw [if_neg hval] at hbase
    push_neg at hval
    have huN : u0.toNat < st0.n := by
      have := hval.2.1
      rw [hn] at this
      omega
    have hvN : v0.toNat < st0.n := by
      have := hval.2.2.2
      rw [hn] at this
      omega
    have hkey : ∀ u v, u < st0.n → v < st0.n →
        (encodeEdge u v = encodeEdge u0.toNat v0.toNat ↔
          (u = u0.toNat ∧ v = v0.toNat)) := by
      intro u v hu hv
      constructor
      · intro hk
        exact encodeEdge_inj (by omega) (by omega) hk
      · intro hk
        rw [hk.1, hk.2]
    have hprod : ∀ u v, u < st0.n → v < st0.n →
        (((u0, v0) = (Int.ofNat u, Int.ofNat v)) ↔
          (u0.toNat = u ∧ v0.toNat = v)) := by
      intro u v hu hv
      rw [Prod.mk.injEq]
      constructor
      · intro hk
        rw [hk.1, hk.2]
        exact ⟨rfl, rfl⟩
      · intro hk
        have h0u := hval.1
        have h0v := hval.2.2.1
        have h1 : u0 = (u : Int) := by
          have := hk.1
          omega
        have h2 : v0 = (v : Int) := by
          have := hk.2
          omega
        exact ⟨h1, h2⟩
    have houtchar : ∀ u v, u < st0.n → v < st0.n →
        (v ∈ (st.Out.set u0.toNat
            ((st.Out.getD u0.toNat []).filter
              (fun x => x ≠ v0.toNat))).getD u [] ↔
          v ∈ st.Out.getD u [] ∧ (u0, v0) ≠ (Int.ofNat u, Int.ofNat v)) := by
      intro u v hu hv
      rw [gset_getD]
      by_cases hue : u = u0.toNat
      · rw [if_pos ⟨hue, by rw [hOl]; exact huN⟩]
        rw [List.mem_filter, ← hue]
        simp only [decide_eq_true_eq, ne_eq]
        constructor
        · intro ⟨h1, h2⟩
          refine ⟨h1, ?_⟩
          intro hcon
          exact h2 (((hprod u v hu hv).mp hcon).2.symm)
        · intro ⟨h1, h2⟩
          refine ⟨h1, ?_⟩
          intro hcon
          exact h2 ((hprod u v hu hv).mpr ⟨hue.symm, hcon.symm⟩)
      · rw [if_neg (fun hco => hue hco.1)]
        constructor
        · intro h1
          refine ⟨h1, ?_⟩
          intro hcon
          exact hue ((hprod u v hu hv).mp hcon).1.symm
        · intro ⟨h1, _⟩
          exact h1
    have halivechar : ∀ u v, u < st0.n → v < st0.n →
        (encodeEdge u v ∈ st.alive.filter
            (fun x => x ≠ encodeEdge u0.toNat v0.toNat) ↔
          (encodeEdge u v ∈ st.alive ∧
            ¬(u = u0.toNat ∧ v = v0.toNat))) := by
      intro u v hu hv
      rw [List.mem_filter]
      simp only [decide_eq_true_eq, ne_eq]
      rw [hkey u v hu hv]
    split
    · rename_i halive
      rw [if_pos halive] at hbase
      have hSy2 : ∀ u v, u < st0.n → v < st0.n →
          (encodeEdge u v ∈ st.alive.filter
              (fun x => x ≠ encodeEdge u0.toNat v0.toNat) ↔
            v ∈ (st.Out.set u0.toNat
              ((st.Out.getD u0.toNat []).filter
                (fun x => x ≠ v0.toNat))).getD u []) := by
        intro u v hu hv
        rw [halivechar u v hu hv, houtchar u v hu hv, hSy u v hu hv]
        constructor
        · intro ⟨h1, h2⟩
          refine ⟨h1, ?_⟩
          intro hcon
          have := (hprod u v hu hv).mp hcon
          exact h2 ⟨this.1.symm, this.2.symm⟩
        · intro ⟨h1, h2⟩
          refine ⟨h1, ?_⟩
          intro hcon
          exact h2 ((hprod u v hu hv).mpr ⟨hcon.1.symm, hcon.2.symm⟩)
      have hAs2 : ∀ k, k ∈ st.alive.filter
          (fun x => x ≠ encodeEdge u0.toNat v0.toNat) → k ∈ st0.alive := by
        intro k hk
        exact hAs k (List.mem_filter.mp hk).1
      have hOs2 : ∀ u x, x ∈ (st.Out.set u0.toNat
          ((st.Out.getD u0.toNat []).filter
            (fun x => x ≠ v0.toNat))).getD u [] →
          x ∈ st0.Out.getD u [] := by
        intro u x hx
        rw [gset_getD] at hx
        by_cases hue : u = u0.toNat
        · rw [if_pos ⟨hue, by rw [hOl]; exact huN⟩] at hx
          rw [hue]
          exact hOs u0.toNat x (List.mem_filter.mp hx).1
        · rw [if_neg (fun hco => hue hco.1)] at hx
          exact hOs u x hx
      split
      · -- the deleted edge was a tree edge
        rename_i hpar
        rw [if_pos hpar] at hbase
        have hpar2 : st.Parent.getD v0.toNat 0 = Int.ofNat u0.toNat :=
          beq_iff_eq.mp hpar
        have hpdl : pd.length = st.n := hB.2.2.1
        have hvpd : v0.toNat < pd.length := by
          rw [hpdl, hn]
          exact hvN
        have hvtv : u0.toNat < st.Tv.length := by
          rw [hSI.hTlen, hn]
          exact huN
        refine ⟨⟨hbase, hn, hL2, hs2, hScan, hIn, ?_, hSy2, hAs2, hOs2,
          ?_, ?_, ?_, ?_, ?_⟩, ?_⟩
        · show (st.Out.set u0.toNat _).length = st0.n
          rw [List.length_set]
          exact hOl
        · intro p c hc
          have hc2 : c ∈ (st.Tv.set u0.toNat
              ((st.Tv.getD u0.toNat []).filter
                (fun x => x ≠ v0.toNat))).getD p [] := hc
          rw [gset_getD] at hc2
          by_cases hpe : p = u0.toNat
          · rw [if_pos ⟨hpe, hvtv⟩] at hc2
            rw [hpe]
            exact hTs u0.toNat c (List.mem_filter.mp hc2).1
          · rw [if_neg (fun hco => hpe hco.1)] at hc2
            exact hTs p c hc2
        · intro p c hc
          have hc2 : c ∈ (st.Tv.set u0.toNat
              ((st.Tv.getD u0.toNat []).filter
                (fun x => x ≠ v0.toNat))).getD p [] := hc
          rw [gset_getD] at hc2
          by_cases hpe : p = u0.toNat
          · rw [if_pos ⟨hpe, hvtv⟩] at hc2
            have hcm := List.mem_filter.mp hc2
            have hcv : c ≠ v0.toNat := by
              have := hcm.2
              simpa using this
            have hcn : c < st0.n := by
              have := (hSI.hB u0.toNat c hcm.1).1
              rw [hn] at this
              exact this
            rw [hpe]
            show encodeEdge u0.toNat c ∈ st.alive.filter _
            rw [List.mem_filter]
            simp only [decide_eq_true_eq, ne_eq]
            refine ⟨hTA u0.toNat c hcm.1, ?_⟩
            intro hcon
            exact hcv ((hkey u0.toNat c huN hcn).mp hcon).2
          · rw [if_neg (fun hco => hpe hco.1)] at hc2
            have hcn : c < st0.n := by
              have := (hSI.hB p c hc2).1
              rw [hn] at this
              exact this
            show encodeEdge p c ∈ st.alive.filter _
            rw [List.mem_filter]
            simp only [decide_eq_true_eq, ne_eq]
            refine ⟨hTA p c hc2, ?_⟩
            intro hcon
            have hpn : p < st0.n := by
              by_contra hpc
              rw [List.getD_eq_default _ _
                (by rw [hSI.hTlen, hn]; omega)] at hc2
              exact List.not_mem_nil c hc2
            exact hpe ((hkey p c hpn hcn).mp hcon).1
        · intro v hv h1 h2
          rcases hSup v hv h1 h2 with ⟨p, hpn, hpm⟩ | hflag
          · by_cases hrem : p = u0.toNat ∧ v = v0.toNat
            · right
              show (pd.set v0.toNat true).getD v false = true
              rw [hrem.2]
              rw [gset_self hvpd]
            · left
              refine ⟨p, hpn, ?_⟩
              show v ∈ (st.Tv.set u0.toNat
                ((st.Tv.getD u0.toNat []).filter
                  (fun x => x ≠ v0.toNat))).getD p []
              rw [gset_getD]
              by_cases hpe : p = u0.toNat
              · rw [if_pos ⟨hpe, hvtv⟩, List.mem_filter]
                simp only [decide_eq_true_eq, ne_eq]
                rw [← hpe]
                refine ⟨hpm, ?_⟩
                intro hcon
                exact hrem ⟨hpe, hcon⟩
              · rw [if_neg (fun hco => hpe hco.1)]
                exact hpm
          · right
            show (pd.set v0.toNat true).getD v false = true
            rw [gset_getD]
            split
            · rfl
            · exact hflag
        · show (pd.set v0.toNat true).getD st0.s false = false
          have hsv : st0.s ≠ v0.toNat := by
            intro hcon
            rw [← hcon] at hpar2
            rw [hPsm] at hpar2
            have : (u0.toNat : Int) = -1 := hpar2.symm
            omega
          rw [gset_ne hsv]
          exact hPs0
        · show (st.Parent.set v0.toNat (-1)).getD st0.s 0 = -1
          rw [gset_getD]
          split
          · rfl
          · exact hPsm
        · intro u v hu hv
          exact houtchar u v hu hv
      · -- alive edge but not a tree edge
        rename_i hpar
        rw [if_neg hpar] at hbase
        refine ⟨⟨hbase, hn, hL2, hs2, hScan, hIn, ?_, hSy2, hAs2, hOs2,
          hTs, ?_, hSup, hPs0, hPsm⟩, ?_⟩
        · show (st.Out.set u0.toNat _).length = st0.n
          rw [List.length_set]
          exact hOl
        · intro p c hc
          have hc2 : c ∈ st.Tv.getD p [] := hc
          have hcn : c < st0.n := by
            have := (hSI.hB p c hc2).1
            rw [hn] at this
            exact this
          show encodeEdge p c ∈ st.alive.filter _
          rw [List.mem_filter]
          simp only [decide_eq_true_eq, ne_eq]
          refine ⟨hTA p c hc2, ?_⟩
          intro hcon
          have hpn : p < st0.n := by
            by_contra hpc
            rw [List.getD_eq_default _ _
              (by rw [hSI.hTlen, hn]; omega)] at hc2
            exact List.not_mem_nil c hc2
          obtain ⟨he1, he2⟩ := (hkey p c hpn hcn).mp hcon
          rw [he1, he2] at hc2
          exact absurd (beq_iff_eq.mpr (hSI.hPar u0.toNat v0.toNat hc2)) hpar
        · intro u v hu hv
          exact houtchar u v hu hv
    · -- edge not alive: no change to the state
      rename_i halive
      rw [if_neg halive] at hbase
      refine ⟨⟨hbase, hn, hL2, hs2, hScan, hIn, hOl, hSy, hAs, hOs, hTs,
        hTA, hSup, hPs0, hPsm⟩, ?_⟩
      intro u v hu hv
      constructor
      · intro h1
        refine ⟨h1, ?_⟩
        intro hcon
        obtain ⟨huu, hvv⟩ := (hprod u v hu hv).mp hcon
        have : encodeEdge u v ∈ st.alive := (hSy u v hu hv).mpr h1
        rw [← huu, ← hvv] at this
        exact halive (contains_iff_mem.mpr this)
      · intro ⟨h1, _⟩
        exact h1

end DS

namespace DS

theorem pass1_fold_C {st0 : St} (hn32 : st0.n ≤ 4294967296) :
    ∀ (D : List (Int × Int)) (acc : St × List Bool × List (Nat × Nat)),
      P1C st0 acc →
      P1C st0 (D.foldl pass1Step acc) ∧
      ∀ u v, u < st0.n → v < st0.n →
        (v ∈ (D.foldl pass1Step acc).1.Out.getD u [] ↔
          v ∈ acc.1.Out.getD u [] ∧
            (Int.ofNat u, Int.ofNat v) ∉ D) := by
  intro D
  induction D with
  | nil =>
    intro acc h
    refine ⟨h, ?_⟩
    intro u v hu hv
    simp only [List.foldl_nil, List.not_mem_nil, not_false_iff, and_true]
  | cons e es ih =>
    intro acc h
    obtain ⟨h1, hchar1⟩ := pass1Step_C hn32 (e := e) h
    obtain ⟨h2, hchar2⟩ := ih (pass1Step acc e) h1
    rw [List.foldl_cons]
    refine ⟨h2, ?_⟩
    intro u v hu hv
    rw [hchar2 u v hu hv, hchar1 u v hu hv]
    constructor
    · intro ⟨⟨hm, hne⟩, hnin⟩
      refine ⟨hm, ?_⟩
      intro hcon
      rcases List.mem_cons.mp hcon with hc | hc
      · exact hne hc.symm
      · exact hnin hc
    · intro ⟨hm, hnin⟩
      refine ⟨⟨hm, ?_⟩, ?_⟩
      · intro hcon
        exact hnin (hcon ▸ List.mem_cons_self e es)
      · intro hcon
        exact hnin (List.mem_cons_of_mem e hcon)

end DS

namespace DS

/-- Invariant carried through the cheap re-parent pass for the
optimality proof: the second-pass invariant, frames, exact tree-edge
distances, liveness of tree edges, support-or-flagged for settled
vertices, soundness of every rank below a scan cursor, and the source
neither flagged nor parented. -/
structure P2C (st0 st1 : St) (acc : St × List Bool) : Prop where
  base : P2Inv st0 acc
  hn : acc.1.n = st0.n
  hL : acc.1.L = st0.L
  hs : acc.1.s = st0.s
  hOut : acc.1.Out = st1.Out
  hAl : acc.1.alive = st1.alive
  hIn : acc.1.InPS = st0.InPS
  hEQ : ∀ p c, c ∈ acc.1.Tv.getD p [] →
    acc.1.Dist.getD c 0 = acc.1.Dist.getD p 0 + 1
  hTA : ∀ p c, c ∈ acc.1.Tv.getD p [] → encodeEdge p c ∈ st1.alive
  hSup : ∀ v, v < st0.n → 1 ≤ st0.Dist.getD v 0 →
    st0.Dist.getD v 0 ≤ (st0.L : Int) →
    (∃ p, p < st0.n ∧ v ∈ acc.1.Tv.getD p []) ∨ acc.2.getD v false = true
  hSC : ∀ v, v < st0.n → ∀ x : Nat, 1 ≤ x → x < acc.1.Scan.getD v 0 →
    x ≤ PS.sizePS (st0.InPS.getD v PS.NTree.nil) →
    ∀ w : Int,
      PS.queryPS st0.n (st0.InPS.getD v PS.NTree.nil) (x : Int) = some w →
      encodeEdge w.toNat v ∈ st1.alive →
      st0.Dist.getD w.toNat 0 ≠ st0.Dist.getD v 0 - 1
  hPs0 : acc.2.getD st0.s false = false
  hPsm : acc.1.Parent.getD st0.s 0 = -1
  hScl : acc.1.Scan.length = st0.n

theorem pass2Step_C {st0 st1 : St} {acc acc' : St × List Bool}
    {e : Nat × Nat} (hinv : P2C st0 st1 acc)
    (he : e.2 < acc.1.n ∧ acc.2.getD e.2 false = true)
    (h : pass2Step acc e = some acc') :
    P2C st0 st1 acc' ∧ acc'.1.n = acc.1.n ∧
      (∀ x, x ≠ e.2 → acc'.2.getD x false = acc.2.getD x false) := by
  obtain ⟨hbase, hn2, hpdfr⟩ := pass2Step_inv hinv.base he h
  obtain ⟨st, pd⟩ := acc
  obtain ⟨hP2, hn, hL, hs, hOut, hAl, hIn, hEQ, hTA, hSup, hSC, hPs0,
    hPsm, hScl⟩ := hinv
  have hDf : st.Dist = st0.Dist := hP2.1
  have hSI : StInv st := hP2.2.1
  have hpdl : pd.length = st.n := hP2.2.2.1
  have hPD : ∀ c, pd.getD c false = true → ∀ p, c ∉ st.Tv.getD p [] :=
    hP2.2.2.2
  have hn : st.n = st0.n := hn
  have hL : st.L = st0.L := hL
  have hs : st.s = st0.s := hs
  have hOut : st.Out = st1.Out := hOut
  have hAl : st.alive = st1.alive := hAl
  have hIn : st.InPS = st0.InPS := hIn
  have hEQ : ∀ p c, c ∈ st.Tv.getD p [] →
      st.Dist.getD c 0 = st.Dist.getD p 0 + 1 := hEQ
  have hTA : ∀ p c, c ∈ st.Tv.getD p [] → encodeEdge p c ∈ st1.alive := hTA
  have hSup : ∀ v, v < st0.n → 1 ≤ st0.Dist.getD v 0 →
      st0.Dist.getD v 0 ≤ (st0.L : Int) →
      (∃ p, p < st0.n ∧ v ∈ st.Tv.getD p []) ∨
        pd.getD v false = true := hSup
  have hSC : ∀ v, v < st0.n → ∀ x : Nat, 1 ≤ x → x < st.Scan.getD v 0 →
      x ≤ PS.sizePS (st0.InPS.getD v PS.NTree.nil) →
      ∀ w : Int,
        PS.queryPS st0.n (st0.InPS.getD v PS.NTree.nil) (x : Int) = some w →
        encodeEdge w.toNat v ∈ st1.alive →
        st0.Dist.getD w.toNat 0 ≠ st0.Dist.getD v 0 - 1 := hSC
  have hPs0 : pd.getD st0.s false = false := hPs0
  have hPsm : st.Parent.getD st0.s 0 = -1 := hPsm
  have hScl : st.Scan.length = st0.n := hScl
  obtain ⟨hvn, hpdv⟩ := he
  have hvn : e.2 < st.n := hvn
  have hpdv : pd.getD e.2 false = true := hpdv
  have hwf := hSI.hW e.2 hvn
  have hvs : e.2 ≠ st0.s := by
    intro hcon
    rw [hcon] at hpdv
    rw [hPs0] at hpdv
    exact Bool.false_ne_true hpdv
  -- soundness of the skipped ranks, shared by both branches
  have hskip : ∀ sc2, PS.nextWith st.n (st.InPS.getD e.2 PS.NTree.nil)
      ((st.Scan.getD e.2 0 : Nat) : Int)
      (pred0 st.Dist st.alive e.2) = some sc2 →
      ∀ x : Nat, 1 ≤ x → x < sc2 →
      x ≤ PS.sizePS (st0.InPS.getD e.2 PS.NTree.nil) →
      ∀ w : Int,
        PS.queryPS st0.n (st0.InPS.getD e.2 PS.NTree.nil) (x : Int) =
          some w →
        encodeEdge w.toNat e.2 ∈ st1.alive →
        st0.Dist.getD w.toNat 0 ≠ st0.Dist.getD e.2 0 - 1 := by
    intro sc2 hnw2 x hx1 hx2 hx3 w hqw hwal
    by_cases hxold : x < st.Scan.getD e.2 0
    · exact hSC e.2 (by omega) x hx1 hxold hx3 w hqw hwal
    · have hxcl : (if ((st.Scan.getD e.2 0 : Nat) : Int) < 1 then 1
          else ((st.Scan.getD e.2 0 : Nat) : Int).toNat) ≤ x := by
        split
        · omega
        · simp only [Int.toNat_natCast]
          omega
      have hq2 : PS.queryPS st.n (st.InPS.getD e.2 PS.NTree.nil)
          ((x : Nat) : Int) = some w := by
        rw [hIn, hn]
        exact hqw
      have hx3b : x ≤ PS.sizePS (st.InPS.getD e.2 PS.NTree.nil) := by
        rw [hIn]
        exact hx3
      have hf := PS.nextWith_min_sound hwf hnw2 x hxcl hx2 hx3b w hq2
      simp only [pred0, Bool.and_eq_false_iff] at hf
      rcases hf with hf | hf
      · rw [beq_eq_false_iff_ne] at hf
        rw [hDf] at hf
        exact hf
      · rw [← Bool.not_eq_true, contains_iff_mem] at hf
        rw [hAl] at hf
        exact absurd hwal hf
  simp only [pass2Step] at h
  split at h
  · exact absurd h (by simp)
  · rename_i sc hnw
    split at h
    · rename_i hsc
      split at h
      · exact absurd h (by simp)
      · rename_i w hq
        simp only [Option.some.injEq] at h
        subst h
        obtain ⟨hj1, hj2, hfw⟩ := PS.nextWith_found_query hwf hnw hsc hq
        simp only [pred0, Bool.and_eq_true, beq_iff_eq] at hfw
        have hdeq : st.Dist.getD w.toNat 0 = st.Dist.getD e.2 0 - 1 :=
          hfw.1
        have hwal : encodeEdge w.toNat e.2 ∈ st.alive :=
          contains_iff_mem.mp hfw.2
        have hmem := PS.queryPS_mem_elems hwf hq
        have hrange := hSI.hV e.2 hvn w hmem
        have hwn : w.toNat < st.n := by omega
        have hwtl : w.toNat < st.Tv.length := by
          rw [hSI.hTlen]
          exact hwn
        have hptl : e.2 < st.Parent.length := by
          rw [hSI.hPlen]
          exact hvn
        have hdetached := hPD e.2 hpdv
        refine ⟨⟨hbase, hn, hL, hs, hOut, hAl, hIn, ?_, ?_, ?_, ?_, ?_,
          ?_, ?_⟩, rfl, ?_⟩
        · intro p c hc
          show st.Dist.getD c 0 = st.Dist.getD p 0 + 1
          have hc2 : c ∈ (st.Tv.set w.toNat
              (st.Tv.getD w.toNat [] ++ [e.2])).getD p [] := hc
          rw [gset_getD] at hc2
          by_cases hpe : p = w.toNat
          · rw [if_pos ⟨hpe, hwtl⟩] at hc2
            rcases List.mem_append.mp hc2 with hc3 | hc3
            · rw [hpe]
              exact hEQ w.toNat c hc3
            · rw [List.mem_singleton] at hc3
              rw [hc3, hpe]
              omega
          · rw [if_neg (fun hco => hpe hco.1)] at hc2
            exact hEQ p c hc2
        · intro p c hc
          have hc2 : c ∈ (st.Tv.set w.toNat
              (st.Tv.getD w.toNat [] ++ [e.2])).getD p [] := hc
          rw [gset_getD] at hc2
          by_cases hpe : p = w.toNat
          · rw [if_pos ⟨hpe, hwtl⟩] at hc2
            rcases List.mem_append.mp hc2 with hc3 | hc3
            · rw [hpe]
              exact hTA w.toNat c hc3
            · rw [List.mem_singleton] at hc3
              rw [hc3, hpe]
              rw [← hAl]
              exact hwal
          · rw [if_neg (fun hco => hpe hco.1)] at hc2
            exact hTA p c hc2
        · intro v2 hv2 h1 h2
          rcases hSup v2 hv2 h1 h2 with ⟨p, hpn, hpm⟩ | hflag
          · left
            refine ⟨p, hpn, ?_⟩
            show v2 ∈ (st.Tv.set w.toNat
              (st.Tv.getD w.toNat [] ++ [e.2])).getD p []
            rw [gset_getD]
            by_cases hpe : p = w.toNat
            · rw [if_pos ⟨hpe, hwtl⟩, List.mem_append]
              rw [← hpe]
              exact Or.inl hpm
            · rw [if_neg (fun hco => hpe hco.1)]
              exact hpm
          · by_cases hv2e : v2 = e.2
            · left
              refine ⟨w.toNat, by omega, ?_⟩
              rw [hv2e]
              show e.2 ∈ (st.Tv.set w.toNat
                (st.Tv.getD w.toNat [] ++ [e.2])).getD w.toNat []
              rw [gset_self hwtl, List.mem_append, List.mem_singleton]
              exact Or.inr rfl
            · right
              show (pd.set e.2 false).getD v2 false = true
              rw [gset_ne hv2e]
              exact hflag
        · intro v2 hv2 x hx1 hx2 hx3 w2 hqw hwal2
          by_cases hv2e : v2 = e.2
          · subst hv2e
            have hsetr : (st.Scan.set e.2 sc).getD e.2 0 = sc :=
              gset_self (by rw [hScl]; omega)
            rw [hsetr] at hx2
            exact hskip sc hnw x hx1 hx2 hx3 w2 hqw hwal2
          · have hsetr : (st.Scan.set e.2 sc).getD v2 0 =
                st.Scan.getD v2 0 := gset_ne (fun hco => hv2e hco)
            rw [hsetr] at hx2
            exact hSC v2 hv2 x hx1 hx2 hx3 w2 hqw hwal2
        · show (pd.set e.2 false).getD st0.s false = false
          rw [gset_getD]
          split
          · rfl
          · exact hPs0
        · show (st.Parent.set e.2 w).getD st0.s 0 = -1
          rw [gset_ne (fun hco => hvs hco.symm)]
          exact hPsm
        · show (st.Scan.set e.2 sc).length = st0.n
          rw [List.length_set]
          exact hScl
        · intro x hx
          show (pd.set e.2 false).getD x false = pd.getD x false
          rw [gset_ne hx]
    · rename_i hsc
      simp only [Option.some.injEq] at h
      subst h
      refine ⟨⟨hbase, hn, hL, hs, hOut, hAl, hIn, hEQ, hTA, hSup, ?_,
        hPs0, hPsm, ?_⟩, rfl, fun x hx => rfl⟩
      swap
      · show (st.Scan.set e.2 sc).length = st0.n
        rw [List.length_set]
        exact hScl
      intro v2 hv2 x hx1 hx2 hx3 w2 hqw hwal2
      by_cases hv2e : v2 = e.2
      · subst hv2e
        have hsetr : (st.Scan.set e.2 sc).getD e.2 0 = sc :=
          gset_self (by rw [hScl]; omega)
        rw [hsetr] at hx2
        exact hskip sc hnw x hx1 hx2 hx3 w2 hqw hwal2
      · have hsetr : (st.Scan.set e.2 sc).getD v2 0 =
            st.Scan.getD v2 0 := gset_ne (fun hco => hv2e hco)
        rw [hsetr] at hx2
        exact hSC v2 hv2 x hx1 hx2 hx3 w2 hqw hwal2

end DS

namespace DS

theorem pass2_fold_C {st0 st1 : St} :
    ∀ (te : List (Nat × Nat)) (acc acc' : St × List Bool),
      P2C st0 st1 acc →
      (∀ e ∈ te, e.2 < acc.1.n ∧ acc.2.getD e.2 false = true) →
      (te.map (fun e => e.2)).Nodup →
      te.foldlM pass2Step acc = some acc' →
      P2C st0 st1 acc' := by
  intro te
  induction te with
  | nil =>
    intro acc acc' hinv _ _ h
    simp only [List.foldlM_nil, Option.pure_def, Option.some.injEq] at h
    rw [← h]
    exact hinv
  | cons e es ih =>
    intro acc acc' hinv hte hnd h
    rw [List.foldlM_cons] at h
    rcases hstep : pass2Step acc e with _ | acc1
    · rw [hstep] at h
      exact absurd h (by simp)
    · rw [hstep] at h
      simp only [Option.bind_eq_bind, Option.some_bind] at h
      have he := hte e (List.mem_cons_self e es)
      obtain ⟨hinv1, hn1, hpd1⟩ := pass2Step_C hinv he hstep
      rw [List.map_cons, List.nodup_cons] at hnd
      apply ih acc1 acc' hinv1 ?_ hnd.2 h
      intro e2 he2
      have h1 := hte e2 (List.mem_cons_of_mem e he2)
      have hne : e2.2 ≠ e.2 := by
        intro hcon
        exact hnd.1 (hcon ▸ List.mem_map_of_mem (fun x => x.2) he2)
      refine ⟨?_, ?_⟩
      · rw [hn1]
        exact h1.1
      · rw [hpd1 e2.2 hne]
        exact h1.2

end DS

namespace DS

/-- When a vertex at label `i` exhausts its scan without finding a parent
one level up, its distance in the pruned graph is at least `i + 1`:
a shorter distance would give a settled in-neighbour at the right level,
which either the scan or the cursor-soundness invariant would have
caught. -/
theorem fail_sdL_lb {n L s i : Nat} {O : List (List Nat)} {A : List Nat}
    {inPS : List PS.NTree} {dist : List Int} {scan : List Nat} {v : Nat}
    (hOl : O.length = n) (hiL : i ≤ L)
    (hSy : ∀ u v2, u < n → v2 < n →
      (encodeEdge u v2 ∈ A ↔ v2 ∈ O.getD u []))
    (hEl : ∀ u v2, u < n → v2 < n → encodeEdge u v2 ∈ A →
      Int.ofNat u ∈ PS.elems n (inPS.getD v2 PS.NTree.nil))
    (hW : PS.wfT (inPS.getD v PS.NTree.nil) 1 n = true)
    (hNO : ∀ v2, v2 < n → dist.getD v2 0 ≤ Int.ofNat (BFS.sdL O s L v2))
    (hSETo : ∀ v2, v2 < n → dist.getD v2 0 < (i : Int) →
      dist.getD v2 0 = Int.ofNat (BFS.sdL O s L v2))
    (hvn : v < n) (hvD : dist.getD v 0 = (i : Int)) (hvs : v ≠ s)
    (hSCv : ∀ x : Nat, 1 ≤ x → x < scan.getD v 0 →
      x ≤ PS.sizePS (inPS.getD v PS.NTree.nil) →
      ∀ w : Int,
        PS.queryPS n (inPS.getD v PS.NTree.nil) (x : Int) = some w →
        encodeEdge w.toNat v ∈ A →
        dist.getD w.toNat 0 ≠ dist.getD v 0 - 1)
    (hnw : PS.nextWith n (inPS.getD v PS.NTree.nil)
      ((scan.getD v 0 : Nat) : Int) (pred0 dist A v) =
      some (PS.sizePS (inPS.getD v PS.NTree.nil) + 1)) :
    i + 1 ≤ BFS.sdL O s L v := by
  by_contra hcon
  push_neg at hcon
  have hNOv := hNO v hvn
  rw [hvD, intOfNat_eq] at hNOv
  have hdel : BFS.sdL O s L v = i := by
    have := hNOv
    omega
  have hdel1 : 1 ≤ BFS.sdL O s L v := by
    by_contra hz
    push_neg at hz
    have : BFS.sdL O s L v = 0 := by omega
    exact hvs (BFS.sdL_eq_zero_imp this)
  obtain ⟨p, hpm, hpd⟩ := BFS.sdL_pred hdel (by omega) (by omega)
  have hpn : p < n := by
    by_contra hpc
    rw [List.getD_eq_default _ _ (by omega)] at hpm
    exact List.not_mem_nil v hpm
  have hpal : encodeEdge p v ∈ A := (hSy p v hpn hvn).mpr hpm
  have hpe := hEl p v hpn hvn hpal
  obtain ⟨jx, hjx1, hjxs, hjq⟩ := PS.elems_rank hW hpe
  have hpD : dist.getD p 0 = (i : Int) - 1 := by
    have h1 := hNO p hpn
    rw [intOfNat_eq, hpd] at h1
    have h2 := hSETo p hpn (by omega)
    rw [intOfNat_eq, hpd] at h2
    omega
  have hfp : pred0 dist A v ((p : Nat) : Int) = true := by
    simp only [pred0, Bool.and_eq_true, beq_iff_eq]
    constructor
    · rw [Int.toNat_natCast, hpD, hvD]
    · rw [Int.toNat_natCast]
      exact contains_iff_mem.mpr hpal
  by_cases hjc : jx < scan.getD v 0
  · have hjq2 : PS.queryPS n (inPS.getD v PS.NTree.nil)
        ((jx : Nat) : Int) = some ((p : Nat) : Int) := hjq
    have := hSCv jx hjx1 hjc hjxs ((p : Nat) : Int) hjq2 (by
      rw [Int.toNat_natCast]
      exact hpal)
    rw [Int.toNat_natCast, hpD, hvD] at this
    exact this (by omega)
  · have hxcl : (if ((scan.getD v 0 : Nat) : Int) < 1 then 1
        else ((scan.getD v 0 : Nat) : Int).toNat) ≤ jx := by
      split
      · omega
      · simp only [Int.toNat_natCast]
        omega
    have hf := PS.nextWith_min_sound hW hnw jx hxcl (by omega) hjxs
      ((p : Nat) : Int) hjq
    rw [hfp] at hf
    exact Bool.noConfusion hf

/-- When a vertex at label `i` finds a live in-neighbour recorded one
level down, its distance in the pruned graph is exactly `i`. -/
theorem success_sdL_eq {n L s i : Nat} {O : List (List Nat)} {A : List Nat}
    {dist : List Int} {v : Nat} {w : Int}
    (hOl : O.length = n)
    (hSy : ∀ u v2, u < n → v2 < n →
      (encodeEdge u v2 ∈ A ↔ v2 ∈ O.getD u []))
    (hNO : ∀ v2, v2 < n → dist.getD v2 0 ≤ Int.ofNat (BFS.sdL O s L v2))
    (hSETo : ∀ v2, v2 < n → dist.getD v2 0 < (i : Int) →
      dist.getD v2 0 = Int.ofNat (BFS.sdL O s L v2))
    (hvn : v < n) (hvD : dist.getD v 0 = (i : Int))
    (hwn : w.toNat < n)
    (hwd : dist.getD w.toNat 0 = dist.getD v 0 - 1)
    (hwal : encodeEdge w.toNat v ∈ A) :
    BFS.sdL O s L v = i := by
  have hwD : dist.getD w.toNat 0 = (i : Int) - 1 := by
    rw [hwd, hvD]
  have hset := hSETo w.toNat hwn (by rw [hwD]; omega)
  rw [intOfNat_eq] at hset
  have hwdel : BFS.sdL O s L w.toNat = i - 1 ∧ 1 ≤ i := by
    rw [hwD] at hset
    constructor
    · omega
    · omega
  have hmem : v ∈ O.getD w.toNat [] := (hSy w.toNat v hwn hvn).mp hwal
  have htri := BFS.sdL_triangle (s := s) (L := L) hmem
  rw [hwdel.1] at htri
  have hNOv := hNO v hvn
  rw [hvD, intOfNat_eq] at hNOv
  have h1 := hwdel.2
  omega

end DS

namespace DS

/-- Invariant at the start of phase `i` for the optimality proof, over the
phase-constant data: vertex count `n`, bound `L`, source `s`, pruned
out-lists `O`, live set `A`, in-structures `inPS` and flags `pd`.
Records the basic phase invariant, frames, range and no-overshoot bounds
for the labels, optimality and support of settled vertices, exact live
tree edges, support-or-pending for unsettled labels, phase-indexed
soundness of every rank below a scan cursor, and the source facts. -/
structure PhC (n L s : Nat) (O : List (List Nat)) (A : List Nat)
    (inPS : List PS.NTree) (pd : List Bool) (i : Nat)
    (acc : St × List Bool × List Nat) : Prop where
  hph : PhInv i acc
  hpd : acc.2.1 = pd
  hn : acc.1.n = n
  hL : acc.1.L = L
  hs : acc.1.s = s
  hOut : acc.1.Out = O
  hAl : acc.1.alive = A
  hIn : acc.1.InPS = inPS
  hScl : acc.1.Scan.length = n
  hRNG : ∀ v, v < n → 0 ≤ acc.1.Dist.getD v 0
  hNO : ∀ v, v < n → acc.1.Dist.getD v 0 ≤ Int.ofNat (BFS.sdL O s L v)
  hSET : ∀ v, v < n → v ∉ acc.2.2 → acc.1.Dist.getD v 0 < (i : Int) →
    acc.1.Dist.getD v 0 = Int.ofNat (BFS.sdL O s L v) ∧
    (1 ≤ acc.1.Dist.getD v 0 → ∃ p, p < n ∧ v ∈ acc.1.Tv.getD p [])
  hEQ : ∀ p c, c ∈ acc.1.Tv.getD p [] →
    acc.1.Dist.getD c 0 = acc.1.Dist.getD p 0 + 1
  hTA : ∀ p c, c ∈ acc.1.Tv.getD p [] → encodeEdge p c ∈ A
  hSUP : ∀ v, v < n → v ∉ acc.2.2 → 1 ≤ acc.1.Dist.getD v 0 →
    (i : Int) ≤ acc.1.Dist.getD v 0 → acc.1.Dist.getD v 0 ≤ (L : Int) →
    (∃ p, p < n ∧ v ∈ acc.1.Tv.getD p []) ∨
      (pd.getD v false = true ∧ (i : Int) < acc.1.Dist.getD v 0)
  hSC : ∀ v, v < n → ∀ x : Nat, 1 ≤ x → x < acc.1.Scan.getD v 0 →
    x ≤ PS.sizePS (inPS.getD v PS.NTree.nil) →
    ∀ w : Int,
      PS.queryPS n (inPS.getD v PS.NTree.nil) (x : Int) = some w →
      encodeEdge w.toNat v ∈ A →
      acc.1.Dist.getD w.toNat 0 ≠ acc.1.Dist.getD v 0 - 1 ∧
      (acc.1.Dist.getD w.toNat 0 < acc.1.Dist.getD v 0 - 1 →
        acc.1.Dist.getD w.toNat 0 ≤ (i : Int) - 1)
  hZ0 : acc.1.Dist.getD s 0 = 0
  hZu : ∀ v, v < n → acc.1.Dist.getD v 0 = 0 → v = s
  hsu : s ∉ acc.2.2
  hPsm : acc.1.Parent.getD s 0 = -1

/-- Invariant for the inner vertex loop of phase `i`, relative to the
phase-start state `stB` and the full phase list `u0`, with `r` the still
unprocessed suffix: the basic fold invariant, frames, untouched distances
and cursors of unprocessed vertices, persistence-or-collection of the
phase-start tree edges, classification of the collected `U_new` (either
raised with a reset cursor, no children and a strictly larger true
distance, or a relabelled child), exact live tree edges, cursor
soundness, and settledness with support of the processed successes. -/
structure PhF2 (n L s : Nat) (O : List (List Nat)) (A : List Nat)
    (inPS : List PS.NTree) (pd : List Bool) (i : Nat) (stB : St)
    (u0 : List Nat) (r : List Nat) (acc : St × List Nat) : Prop where
  base : PhFold i pd r acc
  hn : acc.1.n = n
  hL : acc.1.L = L
  hs : acc.1.s = s
  hOut : acc.1.Out = O
  hAl : acc.1.alive = A
  hIn : acc.1.InPS = inPS
  hScl : acc.1.Scan.length = n
  hD : acc.1.Dist = stB.Dist
  hSCr : ∀ x ∈ r, acc.1.Scan.getD x 0 = stB.Scan.getD x 0
  hTpers : ∀ p c, c ∈ stB.Tv.getD p [] → c ∈ acc.1.Tv.getD p [] ∨ c ∈ acc.2
  hUN : ∀ x ∈ acc.2,
    (acc.1.Dist.getD x 0 = (i : Int) ∧ acc.1.Scan.getD x 0 = 1 ∧
      (∀ c, c ∉ acc.1.Tv.getD x []) ∧ i + 1 ≤ BFS.sdL O s L x) ∨
    acc.1.Dist.getD x 0 = (i : Int) + 1
  hEQ : ∀ p c, c ∈ acc.1.Tv.getD p [] →
    acc.1.Dist.getD c 0 = acc.1.Dist.getD p 0 + 1
  hTA : ∀ p c, c ∈ acc.1.Tv.getD p [] → encodeEdge p c ∈ A
  hSC : ∀ v, v < n → ∀ x : Nat, 1 ≤ x → x < acc.1.Scan.getD v 0 →
    x ≤ PS.sizePS (inPS.getD v PS.NTree.nil) →
    ∀ w : Int,
      PS.queryPS n (inPS.getD v PS.NTree.nil) (x : Int) = some w →
      encodeEdge w.toNat v ∈ A →
      acc.1.Dist.getD w.toNat 0 ≠ acc.1.Dist.getD v 0 - 1 ∧
      (acc.1.Dist.getD w.toNat 0 < acc.1.Dist.getD v 0 - 1 →
        acc.1.Dist.getD w.toNat 0 ≤ (i : Int) - 1)
  hSTL : ∀ x ∈ u0, x ∉ r → x ∉ acc.2 →
    Int.ofNat (BFS.sdL O s L x) = (i : Int) ∧
    ∃ p, p < n ∧ x ∈ acc.1.Tv.getD p []
  hPsm : acc.1.Parent.getD s 0 = -1

end DS

namespace DS

theorem phaseStep_C {n L s i : Nat} {O : List (List Nat)} {A : List Nat}
    {inPS : List PS.NTree} {pd : List Bool} {stB : St} {u0 : List Nat}
    (hOl : O.length = n)
    (hSy : ∀ u v2, u < n → v2 < n →
      (encodeEdge u v2 ∈ A ↔ v2 ∈ O.getD u []))
    (hEl : ∀ u v2, u < n → v2 < n → encodeEdge u v2 ∈ A →
      Int.ofNat u ∈ PS.elems n (inPS.getD v2 PS.NTree.nil))
    (hiL : i ≤ L)
    (hRNGB : ∀ v2, v2 < n → 0 ≤ stB.Dist.getD v2 0)
    (hNOB : ∀ v2, v2 < n →
      stB.Dist.getD v2 0 ≤ Int.ofNat (BFS.sdL O s L v2))
    (hSETB : ∀ v2, v2 < n → stB.Dist.getD v2 0 < (i : Int) →
      stB.Dist.getD v2 0 = Int.ofNat (BFS.sdL O s L v2))
    (hU0 : ∀ x ∈ u0, x < n ∧ stB.Dist.getD x 0 = (i : Int))
    (hsuB : s ∉ u0)
    {v : Nat} {r : List Nat} {acc acc' : St × List Nat}
    (hinv : PhF2 n L s O A inPS pd i stB u0 (v :: r) acc)
    (hrnd : ∀ x ∈ r, x ≠ v) (hvu0 : v ∈ u0)
    (h : phaseStep acc v = some acc') :
    PhF2 n L s O A inPS pd i stB u0 r acc' := by
  have hbase := phaseStep_inv2 hinv.base hrnd h
  obtain ⟨st, unew⟩ := acc
  obtain ⟨hF, hn, hL2, hs2, hOut, hAl, hIn, hScl, hD, hSCr, hTpers, hUN,
    hEQ, hTA, hSC, hSTL, hPsm⟩ := hinv
  have hF : PhFold i pd (v :: r) (st, unew) := hF
  have hn : st.n = n := hn
  have hL2 : st.L = L := hL2
  have hs2 : st.s = s := hs2
  have hOut : st.Out = O := hOut
  have hAl : st.alive = A := hAl
  have hIn : st.InPS = inPS := hIn
  have hScl : st.Scan.length = n := hScl
  have hD : st.Dist = stB.Dist := hD
  have hSCr : ∀ x ∈ v :: r, st.Scan.getD x 0 = stB.Scan.getD x 0 := hSCr
  have hTpers : ∀ p c, c ∈ stB.Tv.getD p [] →
      c ∈ st.Tv.getD p [] ∨ c ∈ unew := hTpers
  have hUN : ∀ x ∈ unew,
      (st.Dist.getD x 0 = (i : Int) ∧ st.Scan.getD x 0 = 1 ∧
        (∀ c, c ∉ st.Tv.getD x []) ∧ i + 1 ≤ BFS.sdL O s L x) ∨
      st.Dist.getD x 0 = (i : Int) + 1 := hUN
  have hEQ : ∀ p c, c ∈ st.Tv.getD p [] →
      st.Dist.getD c 0 = st.Dist.getD p 0 + 1 := hEQ
  have hTA : ∀ p c, c ∈ st.Tv.getD p [] → encodeEdge p c ∈ A := hTA
  have hSC : ∀ v2, v2 < n → ∀ x : Nat, 1 ≤ x → x < st.Scan.getD v2 0 →
      x ≤ PS.sizePS (inPS.getD v2 PS.NTree.nil) →
      ∀ w : Int,
        PS.queryPS n (inPS.getD v2 PS.NTree.nil) (x : Int) = some w →
        encodeEdge w.toNat v2 ∈ A →
        st.Dist.getD w.toNat 0 ≠ st.Dist.getD v2 0 - 1 ∧
        (st.Dist.getD w.toNat 0 < st.Dist.getD v2 0 - 1 →
          st.Dist.getD w.toNat 0 ≤ (i : Int) - 1) := hSC
  have hSTL : ∀ x ∈ u0, x ∉ v :: r → x ∉ unew →
      Int.ofNat (BFS.sdL O s L x) = (i : Int) ∧
      ∃ p, p < n ∧ x ∈ st.Tv.getD p [] := hSTL
  have hPsm : st.Parent.getD s 0 = -1 := hPsm
  obtain ⟨hSI, hE, hUD, hUT, hUS, hR⟩ := hF
  have hSI : StInv st := hSI
  have hRv := hR v (List.mem_cons_self v r)
  have hvT : ∀ p, v ∉ st.Tv.getD p [] := hRv.1
  have hvU : v ∉ unew := hRv.2.1
  have hvn : v < n := by rw [← hn]; exact hRv.2.2.1
  have hvD : st.Dist.getD v 0 = (i : Int) := hRv.2.2.2
  have hvs : v ≠ s := fun hc => hsuB (hc ▸ hvu0)
  have hwfv : PS.wfT (inPS.getD v PS.NTree.nil) 1 n = true := by
    have := hSI.hW v (by rw [hn]; exact hvn)
    rw [hIn, hn] at this
    exact this
  have hvScl : v < st.Scan.length := by rw [hScl]; exact hvn
  have hvTl : v < st.Tv.length := by rw [hSI.hTlen, hn]; exact hvn
  simp only [phaseStep] at h
  split at h
  · exact absurd h (by simp)
  · rename_i sc hnw
    rw [hn, hIn, hAl] at hnw
    split at h
    · -- FAIL: reset the cursor, dump v and its children into U_new
      rename_i hsc
      rw [hIn] at hsc
      rw [hsc] at hnw
      simp only [Option.some.injEq] at h
      subst h
      have hdelta : i + 1 ≤ BFS.sdL O s L v := by
        refine fail_sdL_lb hOl hiL hSy hEl hwfv ?_ ?_ hvn hvD hvs ?_ hnw
        · intro v2 hv2
          rw [hD]
          exact hNOB v2 hv2
        · intro v2 hv2 hlt
          rw [hD] at hlt ⊢
          exact hSETB v2 hv2 hlt
        · intro x hx1 hx2 hx3 w hq hal
          exact (hSC v hvn x hx1 hx2 hx3 w hq hal).1
      have hmemu1 : ∀ x, x ∈ (st.Tv.getD v []).foldl
          (fun acc c => uInsert c acc) (uInsert v unew) ↔
          (x ∈ st.Tv.getD v [] ∨ (x = v ∨ x ∈ unew)) := by
        intro x
        rw [uFold_mem]
        constructor
        · rintro (h1 | h1)
          · exact Or.inl h1
          · exact Or.inr (uInsert_mem.mp h1)
        · rintro (h1 | h1)
          · exact Or.inl h1
          · exact Or.inr (uInsert_mem.mpr h1)
      refine ⟨hbase, hn, hL2, hs2, hOut, hAl, hIn, ?_, hD, ?_, ?_, ?_,
        ?_, ?_, ?_, ?_, hPsm⟩
      · show (st.Scan.set v 1).length = n
        rw [List.length_set]
        exact hScl
      · intro x hx
        show (st.Scan.set v 1).getD x 0 = stB.Scan.getD x 0
        rw [gset_ne (hrnd x hx)]
        exact hSCr x (List.mem_cons_of_mem v hx)
      · intro p c hc
        rcases hTpers p c hc with h1 | h1
        · by_cases hpe : p = v
          · right
            rw [hmemu1]
            rw [hpe] at h1
            exact Or.inl h1
          · left
            show c ∈ (st.Tv.set v []).getD p []
            rw [gset_getD, if_neg (fun hco => hpe hco.1)]
            exact h1
        · right
          rw [hmemu1]
          exact Or.inr (Or.inr h1)
      · intro x hx
        rw [hmemu1] at hx
        rcases hx with hx | hx | hx
        · right
          show st.Dist.getD x 0 = (i : Int) + 1
          rw [hEQ v x hx, hvD]
        · subst hx
          left
          refine ⟨hvD, ?_, ?_, hdelta⟩
          · show (st.Scan.set x 1).getD x 0 = 1
            exact gset_self hvScl
          · intro c hc
            have hc2 : c ∈ (st.Tv.set x []).getD x [] := hc
            rw [gset_self hvTl] at hc2
            exact List.not_mem_nil c hc2
        · have hxv : x ≠ v := fun hc => hvU (hc ▸ hx)
          rcases hUN x hx with ⟨h1, h2, h3, h4⟩ | h1
          · left
            refine ⟨h1, ?_, ?_, h4⟩
            · show (st.Scan.set v 1).getD x 0 = 1
              rw [gset_ne hxv]
              exact h2
            · intro c hc
              have hc2 : c ∈ (st.Tv.set v []).getD x [] := hc
              rw [gset_getD, if_neg (fun hco => hxv hco.1)] at hc2
              exact h3 c hc2
          · right
            exact h1
      · intro p c hc
        have hc2 : c ∈ (st.Tv.set v []).getD p [] := hc
        rw [gset_getD] at hc2
        by_cases hpe : p = v
        · rw [if_pos ⟨hpe, hvTl⟩] at hc2
          exact absurd hc2 (List.not_mem_nil c)
        · rw [if_neg (fun hco => hpe hco.1)] at hc2
          exact hEQ p c hc2
      · intro p c hc
        have hc2 : c ∈ (st.Tv.set v []).getD p [] := hc
        rw [gset_getD] at hc2
        by_cases hpe : p = v
        · rw [if_pos ⟨hpe, hvTl⟩] at hc2
          exact absurd hc2 (List.not_mem_nil c)
        · rw [if_neg (fun hco => hpe hco.1)] at hc2
          exact hTA p c hc2
      · intro v2 hv2 x hx1 hx2 hx3 w hq hal
        by_cases hv2e : v2 = v
        · subst hv2e
          have hsetr : (st.Scan.set v2 1).getD v2 0 = 1 :=
            gset_self hvScl
          rw [hsetr] at hx2
          omega
        · have hsetr : (st.Scan.set v 1).getD v2 0 = st.Scan.getD v2 0 :=
            gset_ne (fun hco => hv2e hco)
          rw [hsetr] at hx2
          exact hSC v2 hv2 x hx1 hx2 hx3 w hq hal
      · intro x hx hxr hxu
        have hxv : x ≠ v := by
          intro hc
          apply hxu
          rw [hmemu1]
          exact Or.inr (Or.inl hc)
        have hxu2 : x ∉ unew := by
          intro hc
          apply hxu
          rw [hmemu1]
          exact Or.inr (Or.inr hc)
        have hxr2 : x ∉ v :: r := by
          intro hc
          rcases List.mem_cons.mp hc with hc1 | hc1
          · exact hxv hc1
          · exact hxr hc1
        obtain ⟨hδ, p, hpn, hpm⟩ := hSTL x hx hxr2 hxu2
        refine ⟨hδ, p, hpn, ?_⟩
        show x ∈ (st.Tv.set v []).getD p []
        rw [gset_getD]
        by_cases hpe : p = v
        · exfalso
          apply hxu
          rw [hmemu1]
          rw [hpe] at hpm
          exact Or.inl hpm
        · rw [if_neg (fun hco => hpe hco.1)]
          exact hpm
    · -- SUCCESS: adopt the found parent
      rename_i hsc
      rw [hIn] at hsc
      split at h
      · exact absurd h (by simp)
      · rename_i w hq
        rw [hn, hIn] at hq
        simp only [Option.some.injEq] at h
        subst h
        obtain ⟨hj1, hj2, hfw⟩ := PS.nextWith_found_query hwfv hnw hsc hq
        simp only [pred0, Bool.and_eq_true, beq_iff_eq] at hfw
        have hwd : st.Dist.getD w.toNat 0 = st.Dist.getD v 0 - 1 := hfw.1
        have hwal : encodeEdge w.toNat v ∈ A := contains_iff_mem.mp hfw.2
        have hmem := PS.queryPS_mem_elems hwfv hq
        have hrange : 0 ≤ w ∧ w < (n : Int) := by
          have := hSI.hV v (by rw [hn]; exact hvn) w
          rw [hIn, hn] at this
          exact this hmem
        have hwn : w.toNat < n := by omega
        have hi1 : 1 ≤ i := by
          have h0 := hRNGB w.toNat hwn
          rw [← hD] at h0
          rw [hwd, hvD] at h0
          omega
        have hwD : st.Dist.getD w.toNat 0 = (i : Int) - 1 := by
          rw [hwd, hvD]
        have hdeltav : BFS.sdL O s L v = i := by
          refine success_sdL_eq hOl hSy ?_ ?_ hvn hvD hwn hwd hwal
          · intro v2 hv2
            rw [hD]
            exact hNOB v2 hv2
          · intro v2 hv2 hlt
            rw [hD] at hlt ⊢
            exact hSETB v2 hv2 hlt
        have hwu : w.toNat ∉ unew := by
          intro hc
          rcases hUN w.toNat hc with ⟨h1, _⟩ | h1
          · rw [hwD] at h1
            omega
          · rw [hwD] at h1
            omega
        have hwv : w.toNat ≠ v := by
          intro hc
          rw [hc, hvD] at hwD
          omega
        have hwTl : w.toNat < st.Tv.length := by
          rw [hSI.hTlen, hn]
          exact hwn
        refine ⟨hbase, hn, hL2, hs2, hOut, hAl, hIn, ?_, hD, ?_, ?_, ?_,
          ?_, ?_, ?_, ?_, ?_⟩
        · show (st.Scan.set v sc).length = n
          rw [List.length_set]
          exact hScl
        · intro x hx
          show (st.Scan.set v sc).getD x 0 = stB.Scan.getD x 0
          rw [gset_ne (hrnd x hx)]
          exact hSCr x (List.mem_cons_of_mem v hx)
        · intro p c hc
          rcases hTpers p c hc with h1 | h1
          · left
            show c ∈ (st.Tv.set w.toNat
              (st.Tv.getD w.toNat [] ++ [v])).getD p []
            rw [gset_getD]
            by_cases hpe : p = w.toNat
            · rw [if_pos ⟨hpe, hwTl⟩, List.mem_append]
              rw [hpe] at h1
              exact Or.inl h1
            · rw [if_neg (fun hco => hpe hco.1)]
              exact h1
          · right
            exact h1
        · intro x hx
          have hxv : x ≠ v := fun hc => hvU (hc ▸ hx)
          have hxw : x ≠ w.toNat := fun hc => hwu (hc ▸ hx)
          rcases hUN x hx with ⟨h1, h2, h3, h4⟩ | h1
          · left
            refine ⟨h1, ?_, ?_, h4⟩
            · show (st.Scan.set v sc).getD x 0 = 1
              rw [gset_ne hxv]
              exact h2
            · intro c hc
              have hc2 : c ∈ (st.Tv.set w.toNat
                  (st.Tv.getD w.toNat [] ++ [v])).getD x [] := hc
              rw [gset_getD, if_neg (fun hco => hxw hco.1)] at hc2
              exact h3 c hc2
          · right
            exact h1
        · intro p c hc
          have hc2 : c ∈ (st.Tv.set w.toNat
              (st.Tv.getD w.toNat [] ++ [v])).getD p [] := hc
          rw [gset_getD] at hc2
          by_cases hpe : p = w.toNat
          · rw [if_pos ⟨hpe, hwTl⟩] at hc2
            rcases List.mem_append.mp hc2 with hc3 | hc3
            · rw [hpe]
              exact hEQ w.toNat c hc3
            · rw [List.mem_singleton] at hc3
              rw [hc3, hpe, hvD, hwD]
              omega
          · rw [if_neg (fun hco => hpe hco.1)] at hc2
            exact hEQ p c hc2
        · intro p c hc
          have hc2 : c ∈ (st.Tv.set w.toNat
              (st.Tv.getD w.toNat [] ++ [v])).getD p [] := hc
          rw [gset_getD] at hc2
          by_cases hpe : p = w.toNat
          · rw [if_pos ⟨hpe, hwTl⟩] at hc2
            rcases List.mem_append.mp hc2 with hc3 | hc3
            · rw [hpe]
              exact hTA w.toNat c hc3
            · rw [List.mem_singleton] at hc3
              rw [hc3, hpe]
              exact hwal
          · rw [if_neg (fun hco => hpe hco.1)] at hc2
            exact hTA p c hc2
        · intro v2 hv2 x hx1 hx2 hx3 w2 hq2 hal2
          by_cases hv2e : v2 = v
          · subst hv2e
            have hsetr : (st.Scan.set v2 sc).getD v2 0 = sc :=
              gset_self hvScl
            rw [hsetr] at hx2
            by_cases hxold : x < st.Scan.getD v2 0
            · exact hSC v2 hvn x hx1 hxold hx3 w2 hq2 hal2
            · have hxcl : (if ((st.Scan.getD v2 0 : Nat) : Int) < 1 then 1
                  else ((st.Scan.getD v2 0 : Nat) : Int).toNat) ≤ x := by
                split
                · omega
                · simp only [Int.toNat_natCast]
                  omega
              have hf := PS.nextWith_min_sound hwfv hnw x hxcl hx2 hx3
                w2 hq2
              simp only [pred0, Bool.and_eq_false_iff] at hf
              constructor
              · rcases hf with hf | hf
                · rw [beq_eq_false_iff_ne] at hf
                  exact hf
                · rw [← Bool.not_eq_true, contains_iff_mem] at hf
                  exact absurd hal2 hf
              · intro hlt
                rw [hvD] at hlt
                omega
          · have hsetr : (st.Scan.set v sc).getD v2 0 =
                st.Scan.getD v2 0 := gset_ne (fun hco => hv2e hco)
            rw [hsetr] at hx2
            exact hSC v2 hv2 x hx1 hx2 hx3 w2 hq2 hal2
        · intro x hx hxr hxu
          by_cases hxv : x = v
          · subst hxv
            refine ⟨by rw [hdeltav, intOfNat_eq], w.toNat, hwn, ?_⟩
            show x ∈ (st.Tv.set w.toNat
              (st.Tv.getD w.toNat [] ++ [x])).getD w.toNat []
            rw [gset_self hwTl, List.mem_append, List.mem_singleton]
            exact Or.inr rfl
          · have hxr2 : x ∉ v :: r := by
              intro hc
              rcases List.mem_cons.mp hc with hc1 | hc1
              · exact hxv hc1
              · exact hxr hc1
            obtain ⟨hδ, p, hpn, hpm⟩ := hSTL x hx hxr2 hxu
            refine ⟨hδ, p, hpn, ?_⟩
            show x ∈ (st.Tv.set w.toNat
              (st.Tv.getD w.toNat [] ++ [v])).getD p []
            rw [gset_getD]
            by_cases hpe : p = w.toNat
            · rw [if_pos ⟨hpe, hwTl⟩, List.mem_append]
              rw [hpe] at hpm
              exact Or.inl hpm
            · rw [if_neg (fun hco => hpe hco.1)]
              exact hpm
        · show (st.Parent.set v w).getD s 0 = -1
          rw [gset_ne (fun hco => hvs hco.symm)]
          exact hPsm

end DS

namespace DS

theorem phase_fold_C {n L s i : Nat} {O : List (List Nat)} {A : List Nat}
    {inPS : List PS.NTree} {pd : List Bool} {stB : St} {u0 : List Nat}
    (hOl : O.length = n)
    (hSy : ∀ u v2, u < n → v2 < n →
      (encodeEdge u v2 ∈ A ↔ v2 ∈ O.getD u []))
    (hEl : ∀ u v2, u < n → v2 < n → encodeEdge u v2 ∈ A →
      Int.ofNat u ∈ PS.elems n (inPS.getD v2 PS.NTree.nil))
    (hiL : i ≤ L)
    (hRNGB : ∀ v2, v2 < n → 0 ≤ stB.Dist.getD v2 0)
    (hNOB : ∀ v2, v2 < n →
      stB.Dist.getD v2 0 ≤ Int.ofNat (BFS.sdL O s L v2))
    (hSETB : ∀ v2, v2 < n → stB.Dist.getD v2 0 < (i : Int) →
      stB.Dist.getD v2 0 = Int.ofNat (BFS.sdL O s L v2))
    (hU0 : ∀ x ∈ u0, x < n ∧ stB.Dist.getD x 0 = (i : Int))
    (hsuB : s ∉ u0) :
    ∀ (u2 : List Nat) (acc acc' : St × List Nat),
      PhF2 n L s O A inPS pd i stB u0 u2 acc →
      List.Pairwise (· < ·) u2 →
      (∀ x ∈ u2, x ∈ u0) →
      u2.foldlM phaseStep acc = some acc' →
      PhF2 n L s O A inPS pd i stB u0 [] acc' := by
  intro u2
  induction u2 with
  | nil =>
    intro acc acc' hinv _ _ h
    simp only [List.foldlM_nil, Option.pure_def, Option.some.injEq] at h
    rw [← h]
    exact hinv
  | cons v vs ih =>
    intro acc acc' hinv hnd hsub h
    rw [List.foldlM_cons] at h
    rcases hstep : phaseStep acc v with _ | acc1
    · rw [hstep] at h
      exact absurd h (by simp)
    · rw [hstep] at h
      simp only [Option.bind_eq_bind, Option.some_bind] at h
      rw [List.pairwise_cons] at hnd
      have hrnd : ∀ x ∈ vs, x ≠ v := by
        intro x hx
        have := hnd.1 x hx
        omega
      have hstep2 := phaseStep_C hOl hSy hEl hiL hRNGB hNOB hSETB hU0
        hsuB hinv hrnd (hsub v (List.mem_cons_self v vs)) hstep
      exact ih acc1 acc' hstep2 hnd.2
        (fun x hx => hsub x (List.mem_cons_of_mem v hx)) h

end DS

namespace DS

theorem phaseC_inv {n L s i : Nat} {O : List (List Nat)} {A : List Nat}
    {inPS : List PS.NTree} {pd : List Bool}
    {acc acc' : St × List Bool × List Nat}
    (hOl : O.length = n)
    (hSy : ∀ u v2, u < n → v2 < n →
      (encodeEdge u v2 ∈ A ↔ v2 ∈ O.getD u []))
    (hEl : ∀ u v2, u < n → v2 < n → encodeEdge u v2 ∈ A →
      Int.ofNat u ∈ PS.elems n (inPS.getD v2 PS.NTree.nil))
    (hiL : i ≤ L)
    (hinv : PhC n L s O A inPS pd i acc)
    (h : phase acc i = some acc') :
    PhC n L s O A inPS pd (i+1) acc' := by
  obtain ⟨hph2, hmono⟩ := phase_inv hinv.hph h
  obtain ⟨stB, pdc, u⟩ := acc
  obtain ⟨hph, hpd, hn, hL2, hs2, hOut, hAl, hIn, hScl, hRNG, hNO, hSET,
    hEQ, hTA, hSUP, hSC, hZ0, hZu, hsu, hPsm⟩ := hinv
  have hpd : pdc = pd := hpd
  subst hpd
  have hph : PhInv i (stB, pdc, u) := hph
  have hn : stB.n = n := hn
  have hL2 : stB.L = L := hL2
  have hs2 : stB.s = s := hs2
  have hOut : stB.Out = O := hOut
  have hAl : stB.alive = A := hAl
  have hIn : stB.InPS = inPS := hIn
  have hScl : stB.Scan.length = n := hScl
  have hRNG : ∀ v, v < n → 0 ≤ stB.Dist.getD v 0 := hRNG
  have hNO : ∀ v, v < n →
      stB.Dist.getD v 0 ≤ Int.ofNat (BFS.sdL O s L v) := hNO
  have hSET : ∀ v, v < n → v ∉ u → stB.Dist.getD v 0 < (i : Int) →
      stB.Dist.getD v 0 = Int.ofNat (BFS.sdL O s L v) ∧
      (1 ≤ stB.Dist.getD v 0 → ∃ p, p < n ∧ v ∈ stB.Tv.getD p []) := hSET
  have hEQ : ∀ p c, c ∈ stB.Tv.getD p [] →
      stB.Dist.getD c 0 = stB.Dist.getD p 0 + 1 := hEQ
  have hTA : ∀ p c, c ∈ stB.Tv.getD p [] → encodeEdge p c ∈ A := hTA
  have hSUP : ∀ v, v < n → v ∉ u → 1 ≤ stB.Dist.getD v 0 →
      (i : Int) ≤ stB.Dist.getD v 0 → stB.Dist.getD v 0 ≤ (L : Int) →
      (∃ p, p < n ∧ v ∈ stB.Tv.getD p []) ∨
        (pdc.getD v false = true ∧ (i : Int) < stB.Dist.getD v 0) := hSUP
  have hSC : ∀ v, v < n → ∀ x : Nat, 1 ≤ x → x < stB.Scan.getD v 0 →
      x ≤ PS.sizePS (inPS.getD v PS.NTree.nil) →
      ∀ w : Int,
        PS.queryPS n (inPS.getD v PS.NTree.nil) (x : Int) = some w →
        encodeEdge w.toNat v ∈ A →
        stB.Dist.getD w.toNat 0 ≠ stB.Dist.getD v 0 - 1 ∧
        (stB.Dist.getD w.toNat 0 < stB.Dist.getD v 0 - 1 →
          stB.Dist.getD w.toNat 0 ≤ (i : Int) - 1) := hSC
  have hZ0 : stB.Dist.getD s 0 = 0 := hZ0
  have hZu : ∀ v, v < n → stB.Dist.getD v 0 = 0 → v = s := hZu
  have hsu : s ∉ u := hsu
  have hPsm : stB.Parent.getD s 0 = -1 := hPsm
  obtain ⟨hSIB, hEB, hUB, hUTB, hUSB⟩ := hph
  have hSIB : StInv stB := hSIB
  have hEB : ∀ c p, pdc.getD c false = true → c ∈ stB.Tv.getD p [] →
      stB.Dist.getD c 0 ≤ (i : Int) := hEB
  have hUB : ∀ x ∈ u, x < stB.n ∧ stB.Dist.getD x 0 = (i : Int) := hUB
  have hUTB : ∀ x ∈ u, ∀ p, x ∉ stB.Tv.getD p [] := hUTB
  have hUSB : List.Pairwise (· < ·) u := hUSB
  have hSETo : ∀ v2, v2 < n → stB.Dist.getD v2 0 < (i : Int) →
      stB.Dist.getD v2 0 = Int.ofNat (BFS.sdL O s L v2) := by
    intro v2 hv2 hlt
    have hv2u : v2 ∉ u := by
      intro hc
      have := (hUB v2 hc).2
      omega
    exact (hSET v2 hv2 hv2u hlt).1
  have hU0 : ∀ x ∈ u, x < n ∧ stB.Dist.getD x 0 = (i : Int) := by
    intro x hx
    have := hUB x hx
    exact ⟨by rw [← hn]; exact this.1, this.2⟩
  simp only [phase] at h
  split at h
  · exact absurd h (by simp)
  · rename_i st1 unew hfold
    simp only [Option.some.injEq] at h
    subst h
    have hinit : PhF2 n L s O A inPS pdc i stB u u (stB, []) := by
      refine ⟨?_, hn, hL2, hs2, hOut, hAl, hIn, hScl, rfl,
        fun x hx => rfl, fun p c hc => Or.inl hc, ?_, hEQ, hTA, hSC,
        ?_, hPsm⟩
      · refine ⟨hSIB, hEB, ?_, ?_, List.Pairwise.nil, ?_⟩
        · intro x hx
          exact absurd hx (List.not_mem_nil x)
        · intro x hx
          exact absurd hx (List.not_mem_nil x)
        · intro x hx
          exact ⟨hUTB x hx, List.not_mem_nil x, (hUB x hx).1,
            (hUB x hx).2⟩
      · intro x hx
        exact absurd hx (List.not_mem_nil x)
      · intro x hx hxr hxu
        exact absurd hx hxr
    have hfinal := phase_fold_C hOl hSy hEl hiL hRNG hNO hSETo hU0 hsu
      u (stB, []) (st1, unew) hinit hUSB (fun x hx => hx) hfold
    obtain ⟨hF, f_n, f_L, f_s, f_Out, f_Al, f_In, f_Scl, f_D, _, f_Tp,
      f_UN, f_EQ, f_TA, f_SC, f_STL, f_Psm⟩ := hfinal
    have hF : PhFold i pdc [] (st1, unew) := hF
    have f_n : st1.n = n := f_n
    have f_L : st1.L = L := f_L
    have f_s : st1.s = s := f_s
    have f_Out : st1.Out = O := f_Out
    have f_Al : st1.alive = A := f_Al
    have f_In : st1.InPS = inPS := f_In
    have f_Scl : st1.Scan.length = n := f_Scl
    have f_D : st1.Dist = stB.Dist := f_D
    have f_Tp : ∀ p c, c ∈ stB.Tv.getD p [] →
        c ∈ st1.Tv.getD p [] ∨ c ∈ unew := f_Tp
    have f_UN : ∀ x ∈ unew,
        (st1.Dist.getD x 0 = (i : Int) ∧ st1.Scan.getD x 0 = 1 ∧
          (∀ c, c ∉ st1.Tv.getD x []) ∧ i + 1 ≤ BFS.sdL O s L x) ∨
        st1.Dist.getD x 0 = (i : Int) + 1 := f_UN
    have f_EQ : ∀ p c, c ∈ st1.Tv.getD p [] →
        st1.Dist.getD c 0 = st1.Dist.getD p 0 + 1 := f_EQ
    have f_TA : ∀ p c, c ∈ st1.Tv.getD p [] → encodeEdge p c ∈ A := f_TA
    have f_SC : ∀ v, v < n → ∀ x : Nat, 1 ≤ x → x < st1.Scan.getD v 0 →
        x ≤ PS.sizePS (inPS.getD v PS.NTree.nil) →
        ∀ w : Int,
          PS.queryPS n (inPS.getD v PS.NTree.nil) (x : Int) = some w →
          encodeEdge w.toNat v ∈ A →
          st1.Dist.getD w.toNat 0 ≠ st1.Dist.getD v 0 - 1 ∧
          (st1.Dist.getD w.toNat 0 < st1.Dist.getD v 0 - 1 →
            st1.Dist.getD w.toNat 0 ≤ (i : Int) - 1) := f_SC
    have f_STL : ∀ x ∈ u, x ∉ unew →
        Int.ofNat (BFS.sdL O s L x) = (i : Int) ∧
        ∃ p, p < n ∧ x ∈ st1.Tv.getD p [] := by
      intro x hx hxu
      exact f_STL x hx (List.not_mem_nil x) hxu
    have f_Psm : st1.Parent.getD s 0 = -1 := f_Psm
    obtain ⟨hSI1, hE1, hUD1, hUT1, hUS1, _⟩ := hF
    have hSI1 : StInv st1 := hSI1
    have hE1 : ∀ c p, pdc.getD c false = true → c ∈ st1.Tv.getD p [] →
        st1.Dist.getD c 0 ≤ (i : Int) := hE1
    have hUD1 : ∀ x ∈ unew, x < st1.n ∧
        st1.Dist.getD x 0 ≤ (i : Int) + 1 := hUD1
    have hUT1 : ∀ x ∈ unew, ∀ p, x ∉ st1.Tv.getD p [] := hUT1
    have hDlen1 : st1.Dist.length = n := by
      rw [hSI1.hDlen]
      exact f_n
    have hseed : ∀ z, z ∈ seed st1 pdc i unew ↔
        ((z ∈ List.range st1.n ∧
          ((st1.Dist.getD z 0 == (i : Int) + 1) = true ∧
            pdc.getD z false = true)) ∨ z ∈ unew) := by
      intro z
      unfold seed
      exact seedFold_mem _ (List.range st1.n) unew z
    have hu1n : ∀ z ∈ seed st1 pdc i unew, z < n := by
      intro z hz
      rcases (hseed z).mp hz with ⟨hzr, _⟩ | hz2
      · rw [← f_n]
        exact List.mem_range.mp hzr
      · rw [← f_n]
        exact (hUD1 z hz2).1
    have hu1c : ∀ z ∈ seed st1 pdc i unew,
        st1.Dist.getD z 0 = (i : Int) + 1 ∨
        (st1.Dist.getD z 0 = (i : Int) ∧ st1.Scan.getD z 0 = 1 ∧
          (∀ c, c ∉ st1.Tv.getD z []) ∧ i + 1 ≤ BFS.sdL O s L z) := by
      intro z hz
      rcases (hseed z).mp hz with ⟨hzr, hzd, hzp⟩ | hz2
      · left
        exact beq_iff_eq.mp hzd
      · rcases f_UN z hz2 with hl | hr
        · right
          exact hl
        · left
          exact hr
    have hunew_u1 : ∀ z ∈ unew, z ∈ seed st1 pdc i unew := by
      intro z hz
      exact (hseed z).mpr (Or.inr hz)
    have hD2 : ∀ x : Nat, ((seed st1 pdc i unew).foldl
        (fun d v => d.set v ((i : Int) + 1)) st1.Dist).getD x 0 =
        if x ∈ seed st1 pdc i unew ∧ x < st1.Dist.length
        then (i : Int) + 1 else st1.Dist.getD x 0 :=
      fun x => distFold_getD _ _ x
    have hsu1 : s ∉ seed st1 pdc i unew := by
      intro hc
      rcases hu1c s hc with h1 | ⟨h1, _, _, h4⟩
      · rw [f_D, hZ0] at h1
        omega
      · rw [f_D, hZ0] at h1
        have hss : BFS.sdL O s L s = 0 := BFS.sdL_self
        omega
    have hD2set : ∀ x, x < n → x ∈ seed st1 pdc i unew →
        ((seed st1 pdc i unew).foldl
          (fun d v => d.set v ((i : Int) + 1)) st1.Dist).getD x 0 =
          (i : Int) + 1 := by
      intro x hxn hx
      rw [hD2 x, if_pos ⟨hx, by rw [hDlen1]; exact hxn⟩]
    have hD2not : ∀ x, x ∉ seed st1 pdc i unew →
        ((seed st1 pdc i unew).foldl
          (fun d v => d.set v ((i : Int) + 1)) st1.Dist).getD x 0 =
          st1.Dist.getD x 0 := by
      intro x hx
      rw [hD2 x, if_neg (fun hco => hx hco.1)]
    refine ⟨hph2, rfl, f_n, f_L, f_s, f_Out, f_Al, f_In, f_Scl, ?_, ?_,
      ?_, ?_, f_TA, ?_, ?_, ?_, ?_, hsu1, f_Psm⟩
    · -- range: distances stay nonnegative
      intro v hv
      show 0 ≤ ((seed st1 pdc i unew).foldl
        (fun d v => d.set v ((i : Int) + 1)) st1.Dist).getD v 0
      by_cases hvu : v ∈ seed st1 pdc i unew
      · rw [hD2set v hv hvu]
        omega
      · rw [hD2not v hvu, f_D]
        exact hRNG v hv
    · -- no overshoot
      intro v hv
      show ((seed st1 pdc i unew).foldl
        (fun d v => d.set v ((i : Int) + 1)) st1.Dist).getD v 0 ≤
        Int.ofNat (BFS.sdL O s L v)
      by_cases hvu : v ∈ seed st1 pdc i unew
      · rw [hD2set v hv hvu]
        rcases hu1c v hvu with h1 | ⟨h1, _, _, h4⟩
        · rw [← h1, f_D]
          exact hNO v hv
        · rw [intOfNat_eq]
          exact_mod_cast h4
      · rw [hD2not v hvu, f_D]
        exact hNO v hv
    · -- settled vertices are optimal and supported
      intro v hv hvu hvlt
      have hvd2 : ((seed st1 pdc i unew).foldl
          (fun d v => d.set v ((i : Int) + 1)) st1.Dist).getD v 0 =
          stB.Dist.getD v 0 := by
        rw [hD2not v hvu, f_D]
      rw [hvd2] at hvlt ⊢
      have hcases : stB.Dist.getD v 0 < (i : Int) ∨
          stB.Dist.getD v 0 = (i : Int) := by omega
      rcases hcases with hd | hd
      · have hvu0 : v ∉ u := by
          intro hc
          have := (hU0 v hc).2
          omega
        obtain ⟨hopt, hsup⟩ := hSET v hv hvu0 hd
        refine ⟨hopt, ?_⟩
        intro h1
        obtain ⟨p, hpn, hpm⟩ := hsup h1
        rcases f_Tp p v hpm with h2 | h2
        · exact ⟨p, hpn, h2⟩
        · exact absurd (hunew_u1 v h2) hvu
      · by_cases hvu0 : v ∈ u
        · have hvnu : v ∉ unew := fun hc => hvu (hunew_u1 v hc)
          obtain ⟨hδ, p, hpn, hpm⟩ := f_STL v hvu0 hvnu
          refine ⟨by rw [hd, ← hδ], ?_⟩
          intro h1
          exact ⟨p, hpn, hpm⟩
        · by_cases hz : stB.Dist.getD v 0 = 0
          · have hvse := hZu v hv hz
            have hss : BFS.sdL O s L v = 0 := by
              rw [hvse]
              exact BFS.sdL_self
            refine ⟨by rw [hz, hss]; rfl, ?_⟩
            intro h1
            rw [hz] at h1
            omega
          · have h1le : 1 ≤ stB.Dist.getD v 0 := by
              have := hRNG v hv
              omega
            have hiLc : stB.Dist.getD v 0 ≤ (L : Int) := by
              rw [hd]
              exact_mod_cast hiL
            rcases hSUP v hv hvu0 h1le (by omega) hiLc with
              ⟨p, hpn, hpm⟩ | ⟨hpd2, hgt⟩
            · have hpd3 := hEQ p v hpm
              have hpd4 : stB.Dist.getD p 0 = (i : Int) - 1 := by
                rw [hd] at hpd3
                omega
              have hpu : p ∉ u := by
                intro hc
                have := (hU0 p hc).2
                omega
              have hpset := (hSET p hpn hpu (by omega)).1
              rw [intOfNat_eq] at hpset
              have hpal := hTA p v hpm
              have hpmem : v ∈ O.getD p [] := (hSy p v hpn hv).mp hpal
              have htri := BFS.sdL_triangle (s := s) (L := L) hpmem
              have hNOv := hNO v hv
              rw [hd, intOfNat_eq] at hNOv
              have hvdel : BFS.sdL O s L v = i := by
                have hi1 : 1 ≤ i := by
                  have := hRNG p hpn
                  omega
                have : BFS.sdL O s L p = i - 1 := by omega
                rw [this] at htri
                omega
              refine ⟨by rw [hd, hvdel, intOfNat_eq], ?_⟩
              intro h2
              rcases f_Tp p v hpm with h3 | h3
              · exact ⟨p, hpn, h3⟩
              · exact absurd (hunew_u1 v h3) hvu
            · omega
    · -- exact tree-edge distances
      intro p c hc
      have hc2 : c ∈ st1.Tv.getD p [] := hc
      have hceq := f_EQ p c hc2
      have hcnu : c ∉ seed st1 pdc i unew := by
        intro hcon
        rcases (hseed c).mp hcon with ⟨hzr, hzd, hzp⟩ | hz2
        · have := hE1 c p hzp hc2
          have := beq_iff_eq.mp hzd
          omega
        · exact hUT1 c hz2 p hc2
      show ((seed st1 pdc i unew).foldl
          (fun d v => d.set v ((i : Int) + 1)) st1.Dist).getD c 0 =
        ((seed st1 pdc i unew).foldl
          (fun d v => d.set v ((i : Int) + 1)) st1.Dist).getD p 0 + 1
      rw [hD2not c hcnu]
      by_cases hpu : p ∈ seed st1 pdc i unew
      · rcases hu1c p hpu with h1 | ⟨h1, h2, h3, h4⟩
        · rw [hD2 p, if_pos ⟨hpu, by
            have := hu1n p hpu
            rw [hDlen1]
            exact this⟩]
          rw [hceq, h1]
        · exact absurd hc2 (h3 c)
      · rw [hD2not p hpu]
        exact hceq
    · -- support or pending for the unsettled
      intro v hv hvu h1 h2 h3
      have hvd2 : ((seed st1 pdc i unew).foldl
          (fun d v => d.set v ((i : Int) + 1)) st1.Dist).getD v 0 =
          stB.Dist.getD v 0 := by
        rw [hD2not v hvu, f_D]
      rw [hvd2] at h1 h2 h3
      have hvu0 : v ∉ u := by
        intro hc
        have := (hU0 v hc).2
        push_cast at h2
        omega
      rcases hSUP v hv hvu0 h1 (by push_cast at h2 ⊢; omega) h3 with
        ⟨p, hpn, hpm⟩ | ⟨hpd2, hgt⟩
      · rcases f_Tp p v hpm with h4 | h4
        · exact Or.inl ⟨p, hpn, h4⟩
        · exact absurd (hunew_u1 v h4) hvu
      · by_cases heq : stB.Dist.getD v 0 = (i : Int) + 1
        · exfalso
          apply hvu
          rw [hseed]
          left
          refine ⟨List.mem_range.mpr (by rw [f_n]; exact hv), ?_, hpd2⟩
          rw [f_D, heq]
          exact beq_iff_eq.mpr rfl
        · right
          rw [hvd2]
          refine ⟨hpd2, ?_⟩
          push_cast
          push_cast at h2
          omega
    · -- cursor soundness, phase-indexed
      intro v hv x hx1 hx2 hx3 w hq hal
      have hx2b : x < st1.Scan.getD v 0 := hx2
      by_cases hvraised : v ∈ seed st1 pdc i unew ∧
          st1.Dist.getD v 0 = (i : Int)
      · rcases hu1c v hvraised.1 with h1 | ⟨h1, h2, _, _⟩
        · rw [hvraised.2] at h1
          omega
        · rw [h2] at hx2b
          omega
      · obtain ⟨hmid1, hmid2⟩ := f_SC v hv x hx1 hx2b hx3 w hq hal
        have hbv : ((seed st1 pdc i unew).foldl
            (fun d v => d.set v ((i : Int) + 1)) st1.Dist).getD v 0 =
            st1.Dist.getD v 0 := by
          by_cases hvu : v ∈ seed st1 pdc i unew
          · have hdv : st1.Dist.getD v 0 = (i : Int) + 1 := by
              rcases hu1c v hvu with h1 | ⟨h1, _⟩
              · exact h1
              · exact absurd ⟨hvu, h1⟩ hvraised
            rw [hD2set v hv hvu, hdv]
          · exact hD2not v hvu
        rw [hbv]
        by_cases hwu : w.toNat ∈ seed st1 pdc i unew ∧ w.toNat < n
        · have hw2 := hD2set w.toNat hwu.2 hwu.1
          rw [hw2]
          rcases hu1c w.toNat hwu.1 with h1 | ⟨h1, _⟩
          · rw [← h1]
            refine ⟨hmid1, ?_⟩
            intro hlt
            have := hmid2 hlt
            omega
          · constructor
            · intro hcon
              have hbval : st1.Dist.getD v 0 = (i : Int) + 2 := by omega
              rw [h1, hbval] at hmid2
              have := hmid2 (by omega)
              omega
            · intro hlt
              rw [h1] at hmid2
              have := hmid2 (by omega)
              omega
        · have hw2 : ((seed st1 pdc i unew).foldl
              (fun d v => d.set v ((i : Int) + 1)) st1.Dist).getD
              w.toNat 0 = st1.Dist.getD w.toNat 0 := by
            by_cases hc1 : w.toNat ∈ seed st1 pdc i unew
            · exact absurd ⟨hc1, hu1n w.toNat hc1⟩ hwu
            · exact hD2not w.toNat hc1
          rw [hw2]
          refine ⟨hmid1, ?_⟩
          intro hlt
          have := hmid2 hlt
          omega
    · -- the source keeps label zero
      show ((seed st1 pdc i unew).foldl
          (fun d v => d.set v ((i : Int) + 1)) st1.Dist).getD s 0 = 0
      rw [hD2not s hsu1, f_D]
      exact hZ0
    · -- label zero only at the source
      intro v hv hz
      by_cases hvu : v ∈ seed st1 pdc i unew
      · rw [hD2set v hv hvu] at hz
        omega
      · rw [hD2not v hvu, f_D] at hz
        exact hZu v hv hz

end DS

namespace DS

theorem phaseC_range {n L s : Nat} {O : List (List Nat)} {A : List Nat}
    {inPS : List PS.NTree} {pd : List Bool}
    (hOl : O.length = n)
    (hSy : ∀ u v2, u < n → v2 < n →
      (encodeEdge u v2 ∈ A ↔ v2 ∈ O.getD u []))
    (hEl : ∀ u v2, u < n → v2 < n → encodeEdge u v2 ∈ A →
      Int.ofNat u ∈ PS.elems n (inPS.getD v2 PS.NTree.nil)) :
    ∀ (len i0 : Nat) (acc acc' : St × List Bool × List Nat),
      i0 + len ≤ L + 1 →
      PhC n L s O A inPS pd i0 acc →
      (List.range' i0 len).foldlM phase acc = some acc' →
      PhC n L s O A inPS pd (i0 + len) acc' := by
  intro len
  induction len with
  | zero =>
    intro i0 acc acc' hle hinv h
    simp only [List.range', List.foldlM_nil, Option.pure_def,
      Option.some.injEq] at h
    rw [← h]
    exact hinv
  | succ m ih =>
    intro i0 acc acc' hle hinv h
    rw [List.range'_succ, List.foldlM_cons] at h
    rcases hp : phase acc i0 with _ | acc1
    · rw [hp] at h
      exact absurd h (by simp)
    · rw [hp] at h
      simp only [Option.bind_eq_bind, Option.some_bind] at h
      have hinv1 := phaseC_inv hOl hSy hEl (by omega) hinv hp
      have := ih (i0 + 1) acc1 acc' (by omega) hinv1 h
      rw [show i0 + 1 + m = i0 + (m + 1) by omega] at this
      exact this

end DS

namespace DS

/-- A successful `batchDelete` from a stable state yields a stable state
again; the new out-lists are the old ones with the batch removed, and the
frames are preserved. -/
theorem batchDelete_SInv {st st' : St} {D : List (Int × Int)}
    (hS : SInv st) (h : batchDelete st D = some st') :
    SInv st' ∧
    st'.n = st.n ∧ st'.L = st.L ∧ st'.s = st.s ∧
    (∀ u v, u < st.n → v < st.n →
      (v ∈ st'.Out.getD u [] ↔
        v ∈ st.Out.getD u [] ∧ (Int.ofNat u, Int.ofNat v) ∉ D)) := by
  simp only [batchDelete] at h
  rcases hP : D.foldl pass1Step (st, List.replicate st.n false, [])
    with ⟨stp, pdp, tep⟩
  rw [hP] at h
  have h1 : P1C st (st, List.replicate st.n false, []) := by
    refine ⟨⟨rfl, hS.base, ?_, ?_, ?_, List.nodup_nil⟩, rfl, rfl, rfl,
      rfl, rfl, hS.hOlen, hS.hSync, fun k hk => hk, fun u x hx => hx,
      fun p c hc => hc, hS.hTAl, ?_, ?_, hS.hPs⟩
    · show (List.replicate st.n false).length = st.n
      exact List.length_replicate st.n false
    · intro c hc
      rw [getD_replicate_false] at hc
      exact absurd hc (by simp)
    · intro e he
      exact absurd he (List.not_mem_nil e)
    · intro v hv h1 h2
      left
      exact hS.hSup v hv h1 h2
    · show (List.replicate st.n false).getD st.s false = false
      rw [getD_replicate_false]
  have h2 := pass1_fold_C hS.hn32 D (st, List.replicate st.n false, []) h1
  rw [hP] at h2
  obtain ⟨hC1, hOutchar⟩ := h2
  obtain ⟨hB1, c1_n, c1_L, c1_s, c1_Scan, c1_In, c1_Ol, c1_Sy, c1_As,
    c1_Os, c1_Ts, c1_TA, c1_Sup, c1_Ps0, c1_Psm⟩ := hC1
  have hB1 : P1Inv st (stp, pdp, tep) := hB1
  have c1_n : stp.n = st.n := c1_n
  have c1_L : stp.L = st.L := c1_L
  have c1_s : stp.s = st.s := c1_s
  have c1_Scan : stp.Scan = st.Scan := c1_Scan
  have c1_In : stp.InPS = st.InPS := c1_In
  have c1_Ol : stp.Out.length = st.n := c1_Ol
  have c1_Sy : ∀ u v, u < st.n → v < st.n →
      (encodeEdge u v ∈ stp.alive ↔ v ∈ stp.Out.getD u []) := c1_Sy
  have c1_As : ∀ k ∈ stp.alive, k ∈ st.alive := c1_As
  have c1_Os : ∀ u x, x ∈ stp.Out.getD u [] → x ∈ st.Out.getD u [] := c1_Os
  have c1_Ts : ∀ p c, c ∈ stp.Tv.getD p [] → c ∈ st.Tv.getD p [] := c1_Ts
  have c1_TA : ∀ p c, c ∈ stp.Tv.getD p [] →
      encodeEdge p c ∈ stp.alive := c1_TA
  have c1_Sup : ∀ v, v < st.n → 1 ≤ st.Dist.getD v 0 →
      st.Dist.getD v 0 ≤ (st.L : Int) →
      (∃ p, p < st.n ∧ v ∈ stp.Tv.getD p []) ∨
        pdp.getD v false = true := c1_Sup
  have c1_Ps0 : pdp.getD st.s false = false := c1_Ps0
  have c1_Psm : stp.Parent.getD st.s 0 = -1 := c1_Psm
  obtain ⟨hDf1, hSI1, hpdl1, hPD1, hTE1, hND1⟩ := hB1
  have hDf1 : stp.Dist = st.Dist := hDf1
  have hSI1 : StInv stp := hSI1
  have hpdl1 : pdp.length = stp.n := hpdl1
  have hPD1 : ∀ c, pdp.getD c false = true →
      ∀ p, c ∉ stp.Tv.getD p [] := hPD1
  have hTE1 : ∀ e ∈ tep, e.2 < stp.n ∧ pdp.getD e.2 false = true ∧
      stp.Parent.getD e.2 0 = -1 := hTE1
  have hND1 : (tep.map (fun e => e.2)).Nodup := hND1
  rcases hp2 : tep.foldlM pass2Step (stp, pdp) with _ | acc2
  · rw [hp2] at h
    exact absurd h (by simp)
  · rw [hp2] at h
    obtain ⟨st2, pd2⟩ := acc2
    simp only at h
    have hP2C : P2C st stp (stp, pdp) := by
      refine ⟨⟨hDf1, hSI1, hpdl1, hPD1⟩, c1_n, c1_L, c1_s, rfl, rfl,
        c1_In, ?_, c1_TA, c1_Sup, ?_, c1_Ps0, c1_Psm, ?_⟩
      · intro p c hc
        rw [hDf1]
        exact hS.hEQ p c (c1_Ts p c hc)
      · intro v hv x hx1 hx2 hx3 w hq hal
        rw [c1_Scan] at hx2
        exact hS.hSC v hv x hx1 hx2 hx3 w hq (c1_As _ hal)
      · rw [c1_Scan, hS.hScl]
    have hC2 := pass2_fold_C tep (stp, pdp) (st2, pd2) hP2C
      (fun e he => ⟨(hTE1 e he).1, (hTE1 e he).2.1⟩) hND1 hp2
    obtain ⟨hB2, c2_n, c2_L, c2_s, c2_Out, c2_Al, c2_In, c2_EQ, c2_TA,
      c2_Sup, c2_SC, c2_Ps0, c2_Psm, c2_Scl⟩ := hC2
    have hDf2 : st2.Dist = st.Dist := hB2.1
    have hSI2 : StInv st2 := hB2.2.1
    have hpdl2 : pd2.length = st2.n := hB2.2.2.1
    have hPD2 : ∀ c, pd2.getD c false = true →
        ∀ p, c ∉ st2.Tv.getD p [] := hB2.2.2.2
    have c2_n : st2.n = st.n := c2_n
    have c2_L : st2.L = st.L := c2_L
    have c2_s : st2.s = st.s := c2_s
    have c2_Out : st2.Out = stp.Out := c2_Out
    have c2_Al : st2.alive = stp.alive := c2_Al
    have c2_In : st2.InPS = st.InPS := c2_In
    rcases hp3 : (List.range (st2.L + 1)).foldlM phase
        (st2, pd2, ([] : List Nat)) with _ | acc3
    · rw [hp3] at h
      exact absurd h (by simp)
    · rw [hp3] at h
      obtain ⟨st3, pd3, u3⟩ := acc3
      simp only [Option.some.injEq] at h
      subst h
      -- ambient facts for the phases
      have hEl0 : ∀ u v, u < st.n → v < st.n →
          encodeEdge u v ∈ stp.alive →
          Int.ofNat u ∈ PS.elems st.n (st.InPS.getD v PS.NTree.nil) := by
        intro u v hu hv hk
        exact hS.hElems u v hu hv (c1_As _ hk)
      have hsub : ∀ u, ∀ x ∈ stp.Out.getD u [], x ∈ st.Out.getD u [] :=
        fun u x hx => c1_Os u x hx
      have hanti : ∀ v, BFS.sdL st.Out st.s st.L v ≤
          BFS.sdL stp.Out st.s st.L v :=
        fun v => BFS.sdL_anti hsub
      have hOptc : ∀ v, v < st.n → st.Dist.getD v 0 =
          Int.ofNat (BFS.sdL st.Out st.s st.L v) := hS.hOpt
      -- the phase invariant holds at phase 0
      have hPh0 : PhC st.n st.L st.s stp.Out stp.alive st.InPS pd2 0
          (st2, pd2, ([] : List Nat)) := by
        refine ⟨⟨hSI2, ?_, ?_, ?_, List.Pairwise.nil⟩, rfl, c2_n, c2_L,
          c2_s, c2_Out, c2_Al, c2_In, c2_Scl, ?_, ?_, ?_, c2_EQ,
          ?_, ?_, ?_, ?_, ?_, List.not_mem_nil st.s, ?_⟩
        · intro c p hc hm
          exact absurd hm (hPD2 c hc p)
        · intro x hx
          exact absurd hx (List.not_mem_nil x)
        · intro x hx
          exact absurd hx (List.not_mem_nil x)
        · intro v hv
          rw [hDf2, hOptc v hv, intOfNat_eq]
          omega
        · intro v hv
          rw [hDf2, hOptc v hv, intOfNat_eq, intOfNat_eq]
          have := hanti v
          omega
        · intro v hv hvu hvlt
          exfalso
          rw [hDf2, hOptc v hv, intOfNat_eq] at hvlt
          omega
        · intro p c hc
          exact c2_TA p c hc
        · intro v hv hvu h1 h2 h3
          rw [hDf2] at h1 h3
          rcases c2_Sup v hv h1 h3 with hsupp | hflag
          · left
            exact hsupp
          · right
            rw [hDf2]
            exact ⟨hflag, by omega⟩
        · intro v hv x hx1 hx2 hx3 w hq hal
          constructor
          · rw [hDf2]
            exact c2_SC v hv x hx1 hx2 hx3 w hq hal
          · intro hlt
            exfalso
            have hwfv : PS.wfT (st.InPS.getD v PS.NTree.nil) 1 st.n
                = true := by
              have := hSI2.hW v (by rw [c2_n]; exact hv)
              rw [c2_In, c2_n] at this
              exact this
            have hmem := PS.queryPS_mem_elems hwfv hq
            have hrange : 0 ≤ w ∧ w < (st.n : Int) := by
              have := hSI2.hV v (by rw [c2_n]; exact hv) w
              rw [c2_In, c2_n] at this
              exact this hmem
            have hwn : w.toNat < st.n := by omega
            have hmemo : v ∈ st.Out.getD w.toNat [] :=
              (hS.hSync w.toNat v hwn hv).mp (c1_As _ hal)
            have htri := BFS.sdL_triangle (s := st.s) (L := st.L) hmemo
            have ho1 := hOptc v hv
            have ho2 := hOptc w.toNat hwn
            rw [intOfNat_eq] at ho1 ho2
            rw [hDf2, ho1, ho2] at hlt
            omega
        · rw [hDf2, hOptc st.s hS.hs, BFS.sdL_self]
          rfl
        · intro v hv hz
          rw [hDf2, hOptc v hv, intOfNat_eq] at hz
          have : BFS.sdL st.Out st.s st.L v = 0 := by omega
          exact BFS.sdL_eq_zero_imp this
        · exact c2_Psm
      rw [List.range_eq_range'] at hp3
      have hfin := phaseC_range c1_Ol c1_Sy hEl0 (st2.L + 1) 0
        (st2, pd2, ([] : List Nat)) (st3, pd3, u3)
        (by rw [c2_L]; omega) hPh0 hp3
      rw [show 0 + (st2.L + 1) = st.L + 1 by rw [c2_L]; omega] at hfin
      obtain ⟨hph3, hpd3, f3_n, f3_L, f3_s, f3_Out, f3_Al, f3_In, f3_Scl,
        f3_RNG, f3_NO, f3_SET, f3_EQ, f3_TA, f3_SUP, f3_SC, f3_Z0, f3_Zu,
        f3_su, f3_Psm⟩ := hfin
      have f3_n : st3.n = st.n := f3_n
      have f3_L : st3.L = st.L := f3_L
      have f3_s : st3.s = st.s := f3_s
      have f3_Out : st3.Out = stp.Out := f3_Out
      have f3_Al : st3.alive = stp.alive := f3_Al
      have f3_In : st3.InPS = st.InPS := f3_In
      have f3_Scl : st3.Scan.length = st.n := f3_Scl
      have f3_RNG : ∀ v, v < st.n → 0 ≤ st3.Dist.getD v 0 := f3_RNG
      have f3_NO : ∀ v, v < st.n → st3.Dist.getD v 0 ≤
          Int.ofNat (BFS.sdL stp.Out st.s st.L v) := f3_NO
      have f3_SET : ∀ v, v < st.n → v ∉ u3 →
          st3.Dist.getD v 0 < ((st.L + 1 : Nat) : Int) →
          st3.Dist.getD v 0 = Int.ofNat (BFS.sdL stp.Out st.s st.L v) ∧
          (1 ≤ st3.Dist.getD v 0 →
            ∃ p, p < st.n ∧ v ∈ st3.Tv.getD p []) := f3_SET
      have f3_EQ : ∀ p c, c ∈ st3.Tv.getD p [] →
          st3.Dist.getD c 0 = st3.Dist.getD p 0 + 1 := f3_EQ
      have f3_TA : ∀ p c, c ∈ st3.Tv.getD p [] →
          encodeEdge p c ∈ stp.alive := f3_TA
      have f3_SC : ∀ v, v < st.n → ∀ x : Nat, 1 ≤ x →
          x < st3.Scan.getD v 0 →
          x ≤ PS.sizePS (st.InPS.getD v PS.NTree.nil) →
          ∀ w : Int,
            PS.queryPS st.n (st.InPS.getD v PS.NTree.nil) (x : Int) =
              some w →
            encodeEdge w.toNat v ∈ stp.alive →
            st3.Dist.getD w.toNat 0 ≠ st3.Dist.getD v 0 - 1 ∧
            (st3.Dist.getD w.toNat 0 < st3.Dist.getD v 0 - 1 →
              st3.Dist.getD w.toNat 0 ≤
                ((st.L + 1 : Nat) : Int) - 1) := f3_SC
      have f3_Psm : st3.Parent.getD st.s 0 = -1 := f3_Psm
      obtain ⟨hSI3, hE3, hU3, hUT3, hUS3⟩ := hph3
      have hSI3 : StInv st3 := hSI3
      have hU3 : ∀ x ∈ u3, x < st3.n ∧
          st3.Dist.getD x 0 = ((st.L + 1 : Nat) : Int) := hU3
      have hopt3 : ∀ v, v < st.n → st3.Dist.getD v 0 =
          Int.ofNat (BFS.sdL stp.Out st.s st.L v) := by
        intro v hv
        have htop := @BFS.sdL_le_top stp.Out st.s st.L v
        have hno := f3_NO v hv
        rw [intOfNat_eq] at hno ⊢
        by_cases hvu : v ∈ u3
        · have hd := (hU3 v hvu).2
          rw [hd] at hno ⊢
          push_cast at hno ⊢
          omega
        · by_cases hlt : st3.Dist.getD v 0 < ((st.L + 1 : Nat) : Int)
          · have := (f3_SET v hv hvu hlt).1
            rw [intOfNat_eq] at this
            exact this
          · push_cast at hlt hno ⊢
            omega
      refine ⟨⟨hSI3, ?_, ?_, ?_, ?_, ?_, ?_, ?_, f3_EQ, ?_, ?_, ?_, ?_,
        ?_⟩, f3_n, f3_L, f3_s, ?_⟩
      · rw [f3_s, f3_n]
        exact hS.hs
      · rw [f3_n]
        exact hS.hn32
      · rw [f3_Out, f3_n]
        exact c1_Ol
      · intro u x hx
        rw [f3_n]
        rw [f3_Out] at hx
        exact hS.hOR u x (c1_Os u x hx)
      · intro u v hu hv
        rw [f3_n] at hu hv
        rw [f3_Out, f3_Al]
        exact c1_Sy u v hu hv
      · intro v hv
        rw [f3_n] at hv
        rw [f3_Out, f3_s, f3_L]
        exact hopt3 v hv
      · intro u v hu hv hk
        rw [f3_n] at hu hv ⊢
        rw [f3_In]
        rw [f3_Al] at hk
        exact hEl0 u v hu hv hk
      · intro p c hc
        rw [f3_Al]
        exact f3_TA p c hc
      · intro v hv h1 h2
        rw [f3_n] at hv ⊢
        rw [f3_L] at h2
        have hvu : v ∉ u3 := by
          intro hc
          have := (hU3 v hc).2
          rw [this] at h2
          push_cast at h2
          omega
        have hlt : st3.Dist.getD v 0 < ((st.L + 1 : Nat) : Int) := by
          push_cast
          push_cast at h2
          omega
        exact (f3_SET v hv hvu hlt).2 h1
      · rw [f3_s]
        exact f3_Psm
      · intro v hv x hx1 hx2 hx3 w hq hal
        rw [f3_n] at hv
        rw [f3_In] at hx3
        rw [f3_In, f3_n] at hq
        rw [f3_Al] at hal
        exact (f3_SC v hv x hx1 hx2 hx3 w hq hal).1
      · rw [f3_n]
        exact f3_Scl
      · intro u v hu hv
        rw [f3_Out]
        exact hOutchar u v hu hv

end DS

/-- C1.  After every call `batchDelete(D)` that starts from a stable
state, the live out-lists are the old ones with exactly the pairs of `D`
removed, the structure is stable again, and for every vertex `v`,
`Dist(v)` equals the capped shortest directed-path length from `s` to `v`
in the updated live-edge set, equalling the sentinel `L + 1` exactly when
no walk of length at most `L` reaches `v`. -/
theorem batchDelete_computes_shortest_distances {st st' : DS.St}
    {D : List (Int × Int)} (hS : DS.SInv st)
    (h : DS.batchDelete st D = some st') :
    DS.SInv st' ∧
    (∀ u v, u < st'.n → v < st'.n →
      (v ∈ st'.Out.getD u [] ↔
        v ∈ st.Out.getD u [] ∧ (Int.ofNat u, Int.ofNat v) ∉ D)) ∧
    ∀ v, v < st'.n →
      st'.Dist.getD v 0 = Int.ofNat (BFS.sdL st'.Out st'.s st'.L v) ∧
      (st'.Dist.getD v 0 = (st'.L : Int) + 1 ↔
        ¬ ∃ d, d ≤ st'.L ∧ BFS.reachIn st'.Out st'.s d v) := by
  obtain ⟨hS2, hn, hL, hs, hchar⟩ := DS.batchDelete_SInv hS h
  refine ⟨hS2, ?_, ?_⟩
  · intro u v hu hv
    rw [hn] at hu hv
    exact hchar u v hu hv
  · intro v hv
    have hopt := hS2.hOpt v hv
    refine ⟨hopt, ?_⟩
    have htop := @BFS.sdL_le_top st'.Out st'.s st'.L v
    constructor
    · intro heq
      rintro ⟨d, hd, hr⟩
      have hle := BFS.sdL_le_of_reach hr hd
      rw [hopt, DS.intOfNat_eq] at heq
      omega
    · intro hno
      have hsd : BFS.sdL st'.Out st'.s st'.L v = st'.L + 1 := by
        by_cases hle : BFS.sdL st'.Out st'.s st'.L v ≤ st'.L
        · exact absurd ⟨BFS.sdL st'.Out st'.s st'.L v, hle,
            BFS.sdL_reach rfl hle⟩ hno
        · omega
      rw [hopt, hsd, DS.intOfNat_eq]
      omega

/-- C1, witness: the concrete five-vertex cycle deletion run. -/
theorem batchDelete_computes_shortest_distances_witness :
    DS.SInv cycleSt1 ∧
    cycleSt1.Dist.getD 1 0 =
      Int.ofNat (BFS.sdL cycleSt1.Out cycleSt1.s cycleSt1.L 1) :=
  have hb := @batchDelete_computes_shortest_distances cycleSt cycleSt1
    [(0,1),(1,0)]
    (@DS.construct_SInv cycleAdj 0 3 cycleSt (by decide) (by decide)
      (by decide) (by decide) (by decide))
    (by decide)
  ⟨hb.1, (hb.2.2 1 (by decide)).1⟩
